import Mathlib

/-!
# Camera animation engine (`cameaminwitheffects64.js`)

A shallow embedding of the `Camera` class, the four easing functions and the
`AnimationManager` class, together with the properties of the specification that
were checked against them.

## Numbers

A JavaScript Number is an IEEE 754 binary64 value.  `Num` keeps the three kinds of
value apart: `nan`, the two infinities, and the finite values, held as the exact
rational they denote.  Every arithmetic operation computes the exact rational result
and rounds it to the nearest binary64 value, ties to even, as the language does.  The
sign of zero is not kept: `-0` and `+0` are the same `fin 0`.  The two differ only as a
divisor, and the one division of the source is by `duration`, a value the caller passes
in.  `Num.div` is the division by a divisor that is not `-0`: a non-zero finite value
over zero gives the infinity with the sign of the dividend.  `Num.divSigned` takes the
sign of a zero divisor as an argument, and is used where the duration is zero.

A finite `Num` stands for a Number only if its rational is a binary64 value
(`Num.WF`); the operations return such values, and theorems about arbitrary inputs
assume it of them.

## Objects and callbacks

Vectors are held by value: `moveTo` and `lookAt` copy the property before they animate
it, and the `position` and the `target` of a camera are taken to be two objects, as the
constructor's defaults are.  The source writes the components in place, so a camera
constructed with one object for both (`options.position === options.target`) is not
covered: there a write to one property is a write to the other.  Listeners, queue
actions and easing functions are values passed in from outside.  An easing is a pure
function on Numbers.  A listener or an action is opaque: the model records that it is
invoked, with what arguments and in what order, and for a listener whether the
invocation throws.  What the frame source and the callers do is given as data: the
list of frame timestamps, and the list of calls made on the manager.
-/

namespace CameraAnim

/-! ## JavaScript numbers -/

/-- A JavaScript Number: `NaN`, `±Infinity` (`neg = true` for `-Infinity`), or a finite
value given by the rational it denotes. -/
inductive Num where
  | nan : Num
  | inf (neg : Bool) : Num
  | fin (q : ℚ) : Num
  deriving DecidableEq

/-- Round a rational to the nearest integer, ties to the even one. -/
def roundHalfEven (r : ℚ) : ℤ :=
  if r - ⌊r⌋ < 1 / 2 then ⌊r⌋
  else if 1 / 2 < r - ⌊r⌋ then ⌊r⌋ + 1
  else if ⌊r⌋ % 2 = 0 then ⌊r⌋ else ⌊r⌋ + 1

/-- The number of binary digits of `n`, found by halving at most `fuel` times. -/
def bitsAux : Nat → Nat → Nat
  | 0, _ => 0
  | fuel + 1, n => if n = 0 then 0 else bitsAux fuel (n / 2) + 1

/-- The number of binary digits of `n` (0 for 0). -/
def bits (n : Nat) : Nat := bitsAux n n

/-- The value `⌊log₂ a⌋` of a positive rational `a = num / den`: the difference of the
digit counts of `num` and `den`, or one less. -/
def ilog2 (a : ℚ) : ℤ :=
  if (2 : ℚ) ^ ((bits a.num.toNat : ℤ) - (bits a.den : ℤ)) ≤ a
  then (bits a.num.toNat : ℤ) - (bits a.den : ℤ)
  else (bits a.num.toNat : ℤ) - (bits a.den : ℤ) - 1

/-- The binary exponent of the binade of a positive rational: `⌊log₂ a⌋`, but never
below `-1022`, the exponent of the subnormal numbers. -/
def binade (a : ℚ) : ℤ := max (ilog2 a) (-1022)

/-- The spacing of the binary64 values in the binade of `a`: 53 significant bits. -/
def ulp (a : ℚ) : ℚ := (2 : ℚ) ^ (binade a - 52)

/-- Round a non-negative rational to the binary64 grid, with unbounded exponent range
upwards. -/
def roundMag (a : ℚ) : ℚ :=
  if a = 0 then 0 else (roundHalfEven (a / ulp a) : ℚ) * ulp a

/-- Round an exact result to a Number: round to nearest, ties to even; a result whose
rounded magnitude reaches `2^1024` overflows to the infinity of its sign. -/
def Num.round (q : ℚ) : Num :=
  if (2 : ℚ) ^ (1024 : ℕ) ≤ roundMag |q| then Num.inf (decide (q < 0))
  else Num.fin (if q < 0 then -roundMag |q| else roundMag |q|)

/-- A rational is a binary64 value when rounding leaves it unchanged. -/
def IsDouble (q : ℚ) : Prop := Num.round q = Num.fin q

instance (q : ℚ) : Decidable (IsDouble q) := by unfold IsDouble; infer_instance

/-- A Number of the model is well formed when its finite value is a binary64 value. -/
def Num.WF : Num → Prop
  | Num.fin q => IsDouble q
  | _ => True

/-- A finite Number. -/
def Num.isFinite : Num → Bool
  | Num.fin _ => true
  | _ => false

/-- Unary minus. -/
def Num.neg : Num → Num
  | Num.nan => Num.nan
  | Num.inf s => Num.inf (!s)
  | Num.fin q => Num.fin (-q)

/-- The `+` of two Numbers. -/
def Num.add : Num → Num → Num
  | Num.nan, _ => Num.nan
  | _, Num.nan => Num.nan
  | Num.inf s, Num.inf t => if s = t then Num.inf s else Num.nan
  | Num.inf s, Num.fin _ => Num.inf s
  | Num.fin _, Num.inf t => Num.inf t
  | Num.fin a, Num.fin b => Num.round (a + b)

/-- The `-` of two Numbers: the sum with the negated subtrahend. -/
def Num.sub (x y : Num) : Num := Num.add x (Num.neg y)

/-- The `*` of two Numbers. -/
def Num.mul : Num → Num → Num
  | Num.nan, _ => Num.nan
  | _, Num.nan => Num.nan
  | Num.inf s, Num.inf t => Num.inf (xor s t)
  | Num.inf s, Num.fin b => if b = 0 then Num.nan else Num.inf (xor s (decide (b < 0)))
  | Num.fin a, Num.inf t => if a = 0 then Num.nan else Num.inf (xor (decide (a < 0)) t)
  | Num.fin a, Num.fin b => Num.round (a * b)

/-- The `/` of two Numbers, for a divisor that is not `-0`: a zero divisor is `+0`. -/
def Num.div : Num → Num → Num
  | Num.nan, _ => Num.nan
  | _, Num.nan => Num.nan
  | Num.inf _, Num.inf _ => Num.nan
  | Num.inf s, Num.fin b => Num.inf (xor s (decide (b < 0)))
  | Num.fin _, Num.inf _ => Num.fin 0
  | Num.fin a, Num.fin b =>
    if b = 0 then (if a = 0 then Num.nan else Num.inf (decide (a < 0)))
    else Num.round (a / b)

/-- The `<` of two Numbers: false as soon as one operand is `NaN`. -/
def Num.lt : Num → Num → Bool
  | Num.nan, _ => false
  | _, Num.nan => false
  | Num.inf s, Num.inf t => s && !t
  | Num.inf s, Num.fin _ => s
  | Num.fin _, Num.inf t => !t
  | Num.fin a, Num.fin b => decide (a < b)

/-- The `>=` of two Numbers: false as soon as one operand is `NaN`. -/
def Num.ge : Num → Num → Bool
  | Num.nan, _ => false
  | _, Num.nan => false
  | x, y => !(Num.lt x y)

/-- The `Math.min` of two Numbers: `NaN` as soon as one argument is `NaN`. -/
def Num.min : Num → Num → Num
  | Num.nan, _ => Num.nan
  | _, Num.nan => Num.nan
  | x, y => if Num.lt y x then y else x

/-- A numeric literal of the source whose value is the integer `n`. -/
def Num.lit (n : ℤ) : Num := Num.fin n

/-- The literal `0.5`. -/
def Num.half : Num := Num.fin (1 / 2)

/-! ## Easing functions -/

/-- The source `easeInOutQuad`: `t < 0.5 ? 2 * t * t : -1 + (4 - 2 * t) * t`. -/
def easeInOutQuad (t : Num) : Num :=
  if Num.lt t Num.half then Num.mul (Num.mul (Num.lit 2) t) t
  else Num.add (Num.lit (-1)) (Num.mul (Num.sub (Num.lit 4) (Num.mul (Num.lit 2) t)) t)

/-- The source `easeOutQuad`: `t * (2 - t)`. -/
def easeOutQuad (t : Num) : Num := Num.mul t (Num.sub (Num.lit 2) t)

/-- The source `easeInQuad`: `t * t`. -/
def easeInQuad (t : Num) : Num := Num.mul t t

/-- The source `linear`: `t`. -/
def linear (t : Num) : Num := t

/-! ## Camera

The camera owns two vectors, a debug flag and the listener registry.  A listener is an
opaque callback, identified by a value of type `L`; the only thing the model knows
about its behaviour is whether an invocation of it throws (`throws`).  Effects that
leave the camera (console output, frame requests, callback invocations) are recorded
in a trace, in the order in which the code performs them. -/

/-- A vector `{ x, y, z }`. -/
structure Vec3 where
  x : Num
  y : Num
  z : Num
  deriving DecidableEq

/-- The vector properties of a camera that `animateProperty` is applied to. -/
inductive Property where
  | position
  | target

/-- The property name as the string the source passes. -/
def Property.name : Property → String
  | Property.position => "position"
  | Property.target => "target"

/-- The components of a vector, in the order in which `step` assigns them. -/
inductive Axis where
  | x
  | y
  | z

/-- A `Camera` object: `position`, `target`, `debug`, and the own properties of the
`listeners` object (`none`: the object has no own property of that name). -/
structure Camera (L : Type) where
  position : Vec3
  target : Vec3
  debug : Bool
  listeners : String → Option (List L)

/-- The property names every object literal inherits from `Object.prototype`; the
value found under each of them is an object or function, hence truthy, and has
neither `push` nor `forEach`. -/
def protoKeys : List String :=
  ["constructor", "__defineGetter__", "__defineSetter__", "hasOwnProperty",
   "__lookupGetter__", "__lookupSetter__", "isPrototypeOf", "propertyIsEnumerable",
   "toString", "valueOf", "__proto__", "toLocaleString"]

/-- What the expression `this.listeners[event]` evaluates to. -/
inductive Slot (L : Type) where
  | undefined
  | inherited
  | array (ls : List L)

/-- How a call ends: normally, with a `TypeError` raised by the method itself, or with
whatever a listener threw. -/
inductive Outcome where
  | normal
  | typeError
  | thrown
  deriving DecidableEq

/-- The observable effects of the camera code. -/
inductive Effect (L : Type) where
  | write (p : Property) (a : Axis) (v : Num)
  | log (p : Property) (v : Vec3)
  | requestFrame
  | trigger (event : String)
  | invoke (l : L) (arg : Camera L)

/-- The effect is an entry into `triggerEvent(event)`. -/
def Effect.isTrigger {L : Type} (event : String) : Effect L → Bool
  | Effect.trigger e => e == event
  | _ => false

/-- The effect is the invocation of a listener. -/
def Effect.isInvoke {L : Type} : Effect L → Bool
  | Effect.invoke _ _ => true
  | _ => false

/-- The constructor: `options.position || {0,0,0}`, `options.target || {0,0,0}`,
`options.debug || false`, `listeners = {}`. -/
def Camera.create {L : Type} (position target : Option Vec3) (debug : Option Bool) :
    Camera L :=
  { position := position.getD ⟨Num.lit 0, Num.lit 0, Num.lit 0⟩
    target := target.getD ⟨Num.lit 0, Num.lit 0, Num.lit 0⟩
    debug := debug.getD false
    listeners := fun _ => none }

/-- Evaluate `this.listeners[event]`: the own property if there is one, else what
`Object.prototype` provides. -/
def Camera.slot {L : Type} (cam : Camera L) (event : String) : Slot L :=
  match cam.listeners event with
  | some ls => Slot.array ls
  | none => if event ∈ protoKeys then Slot.inherited else Slot.undefined

/-- Read `this[property]`. -/
def Camera.get {L : Type} (cam : Camera L) : Property → Vec3
  | Property.position => cam.position
  | Property.target => cam.target

/-- Assign the three components of `this[property]`.  The other property is left as
it is: `position` and `target` are two objects. -/
def Camera.set {L : Type} (cam : Camera L) (p : Property) (v : Vec3) : Camera L :=
  match p with
  | Property.position => { cam with position := v }
  | Property.target => { cam with target := v }

/-- The source `on(event, callback)`:
`this.listeners[event] = this.listeners[event] || []; this.listeners[event].push(callback)`.
Under a name inherited from `Object.prototype` the value kept is the inherited one and
`push` is not a function. -/
def Camera.on {L : Type} (cam : Camera L) (event : String) (callback : L) :
    Outcome × Camera L :=
  match cam.slot event with
  | Slot.inherited => (Outcome.typeError, cam)
  | Slot.undefined =>
    (Outcome.normal,
      { cam with listeners := fun e => if e = event then some [callback] else cam.listeners e })
  | Slot.array ls =>
    (Outcome.normal,
      { cam with
        listeners := fun e => if e = event then some (ls ++ [callback]) else cam.listeners e })

/-- The body of `forEach(callback => callback(this))`: the callbacks are invoked in
array order until one throws. -/
def invokeEach {L : Type} (throws : L → Bool) (cam : Camera L) :
    List L → List (Effect L) × Outcome
  | [] => ([], Outcome.normal)
  | l :: ls =>
    if throws l then ([Effect.invoke l cam], Outcome.thrown)
    else ((Effect.invoke l cam) :: (invokeEach throws cam ls).1, (invokeEach throws cam ls).2)

/-- The source `triggerEvent(event)`:
`if (this.listeners[event]) this.listeners[event].forEach(callback => callback(this))`. -/
def Camera.triggerEvent {L : Type} (throws : L → Bool) (cam : Camera L) (event : String) :
    List (Effect L) × Outcome :=
  match cam.slot event with
  | Slot.undefined => ([Effect.trigger event], Outcome.normal)
  | Slot.inherited => ([Effect.trigger event], Outcome.typeError)
  | Slot.array ls =>
    (Effect.trigger event :: (invokeEach throws cam ls).1, (invokeEach throws cam ls).2)

/-- The closure `step` that `animateProperty` creates, with the variables it captures:
the arguments of `animateProperty` and `startTime = performance.now()`.  `start` is
held by value: `moveTo` and `lookAt` pass a fresh copy of the property. -/
structure Animation where
  property : Property
  start : Vec3
  change : Vec3
  duration : Num
  easing : Num → Num
  startTime : Num

/-- The source `Math.min(1, (currentTime - startTime) / duration)`, for a duration that
is not `-0`. -/
def Animation.time (a : Animation) (currentTime : Num) : Num :=
  Num.min (Num.lit 1) (Num.div (Num.sub currentTime a.startTime) a.duration)

/-- The value `start + change * easing(time)` that one call of `step` assigns. -/
def Animation.sample (a : Animation) (currentTime : Num) : Vec3 :=
  { x := Num.add a.start.x (Num.mul a.change.x (a.easing (a.time currentTime)))
    y := Num.add a.start.y (Num.mul a.change.y (a.easing (a.time currentTime)))
    z := Num.add a.start.z (Num.mul a.change.z (a.easing (a.time currentTime))) }

/-- What one call of `step` leaves behind. -/
structure StepResult (L : Type) where
  cam : Camera L
  trace : List (Effect L)
  again : Bool
  outcome : Outcome

/-- The assignments and the debug output of one call of `step`, before the test of
`time < 1`. -/
def Animation.writes {L : Type} (a : Animation) (cam : Camera L) (currentTime : Num) :
    List (Effect L) :=
  [Effect.write a.property Axis.x (a.sample currentTime).x,
   Effect.write a.property Axis.y (a.sample currentTime).y,
   Effect.write a.property Axis.z (a.sample currentTime).z]
  ++ (if cam.debug then [Effect.log a.property (a.sample currentTime)] else [])

/-- The name of the completion event: `property + 'Complete'`. -/
def Animation.completeEvent (a : Animation) : String := a.property.name ++ "Complete"

/-- One call `step(currentTime)` of the source: the three assignments, the debug log,
then either a request for another frame (`again`) or `triggerEvent`. -/
def Animation.step {L : Type} (throws : L → Bool) (a : Animation) (cam : Camera L)
    (currentTime : Num) : StepResult L :=
  if Num.lt (a.time currentTime) (Num.lit 1) then
    { cam := cam.set a.property (a.sample currentTime)
      trace := a.writes cam currentTime ++ [Effect.requestFrame]
      again := true
      outcome := Outcome.normal }
  else
    { cam := cam.set a.property (a.sample currentTime)
      trace := a.writes cam currentTime ++
        ((cam.set a.property (a.sample currentTime)).triggerEvent throws a.completeEvent).1
      again := false
      outcome :=
        ((cam.set a.property (a.sample currentTime)).triggerEvent throws a.completeEvent).2 }

/-- The frame source: `ticks` are the timestamps of the frames to come; a frame is
delivered to `step` only while a request is outstanding (`again` of the previous call;
`animateProperty` itself makes the first request). -/
def Animation.run {L : Type} (throws : L → Bool) (a : Animation) (cam : Camera L) :
    List Num → StepResult L
  | [] => { cam := cam, trace := [], again := true, outcome := Outcome.normal }
  | t :: ts =>
    if (a.step throws cam t).again then
      { cam := (a.run throws (a.step throws cam t).cam ts).cam
        trace := (a.step throws cam t).trace ++ (a.run throws (a.step throws cam t).cam ts).trace
        again := (a.run throws (a.step throws cam t).cam ts).again
        outcome := (a.run throws (a.step throws cam t).cam ts).outcome }
    else a.step throws cam t

/-- The number of frames of `ticks` that `run` delivers to `step`. -/
def Animation.delivered {L : Type} (throws : L → Bool) (a : Animation) (cam : Camera L) :
    List Num → Nat
  | [] => 0
  | t :: ts =>
    if (a.step throws cam t).again then
      1 + a.delivered throws (a.step throws cam t).cam ts
    else 1

/-- The source `animateProperty(property, start, change, duration, easing)`; `now` is
the reading of `performance.now()`.  The call requests the first frame and changes
nothing else. -/
def Camera.animateProperty (property : Property) (start change : Vec3) (duration : Num)
    (easing : Num → Num) (now : Num) : Animation :=
  { property := property, start := start, change := change, duration := duration,
    easing := easing, startTime := now }

/-- The component-wise difference `{ x: a.x - b.x, y: a.y - b.y, z: a.z - b.z }`. -/
def Vec3.sub (a b : Vec3) : Vec3 :=
  { x := Num.sub a.x b.x, y := Num.sub a.y b.y, z := Num.sub a.z b.z }

/-- The component-wise sum. -/
def Vec3.add (a b : Vec3) : Vec3 :=
  { x := Num.add a.x b.x, y := Num.add a.y b.y, z := Num.add a.z b.z }

/-- The source `moveTo(newPosition, duration = 1000, easing = easeInOutQuad)`; `none`
stands for an omitted argument. -/
def Camera.moveTo {L : Type} (cam : Camera L) (now : Num) (newPosition : Vec3)
    (duration : Option Num) (easing : Option (Num → Num)) : Animation :=
  Camera.animateProperty Property.position cam.position (Vec3.sub newPosition cam.position)
    (duration.getD (Num.lit 1000)) (easing.getD easeInOutQuad) now

/-- The source `lookAt(newTarget, duration = 1000, easing = easeInOutQuad)`. -/
def Camera.lookAt {L : Type} (cam : Camera L) (now : Num) (newTarget : Vec3)
    (duration : Option Num) (easing : Option (Num → Num)) : Animation :=
  Camera.animateProperty Property.target cam.target (Vec3.sub newTarget cam.target)
    (duration.getD (Num.lit 1000)) (easing.getD easeInOutQuad) now

/-- Register a list of `(event, callback)` pairs with `on`, in order; a call that
raises leaves the camera as it was. -/
def Camera.onAll {L : Type} (cam : Camera L) : List (String × L) → Camera L
  | [] => cam
  | r :: rs => Camera.onAll (cam.on r.1 r.2).2 rs

/-! ## AnimationManager -/

/-- A queue entry `{ callback, duration, easing }`; the callback is an opaque action
identified by a value of type `A`. -/
structure QueuedStep (A : Type) where
  callback : A
  duration : Num
  easing : Num → Num

/-- An `AnimationManager` object. -/
structure AnimationManager (C A : Type) where
  camera : C
  queue : List (QueuedStep A)
  isAnimating : Bool

/-- The constructor: empty queue, not animating. -/
def AnimationManager.create {C A : Type} (camera : C) : AnimationManager C A :=
  { camera := camera, queue := [], isAnimating := false }

/-- The source `nextAnimation()`.  The second component lists the calls
`callback(duration, easing, () => this.nextAnimation())` made: none or one. -/
def AnimationManager.nextAnimation {C A : Type} (m : AnimationManager C A) :
    AnimationManager C A × List (QueuedStep A) :=
  match m.queue with
  | [] => ({ m with isAnimating := false }, [])
  | s :: rest => ({ m with isAnimating := true, queue := rest }, [s])

/-- The source `addAnimation(callback, duration = 1000, easing = easeInOutQuad)`. -/
def AnimationManager.addAnimation {C A : Type} (m : AnimationManager C A) (callback : A)
    (duration : Option Num) (easing : Option (Num → Num)) :
    AnimationManager C A × List (QueuedStep A) :=
  if !m.isAnimating then
    AnimationManager.nextAnimation
      { m with queue := m.queue ++
          [{ callback := callback, duration := duration.getD (Num.lit 1000),
             easing := easing.getD easeInOutQuad }] }
  else
    ({ m with queue := m.queue ++
        [{ callback := callback, duration := duration.getD (Num.lit 1000),
           easing := easing.getD easeInOutQuad }] }, [])

/-- The source `resetQueue()`. -/
def AnimationManager.resetQueue {C A : Type} (m : AnimationManager C A) :
    AnimationManager C A :=
  { m with queue := [] }

/-- A call made on the manager from outside or from within an action.  `onComplete i`
invokes the continuation handed to the `i`-th action invocation; every continuation is
`() => this.nextAnimation()`.  The action is the last thing `nextAnimation` does, so
calls an action makes while it runs are the calls that follow its invocation here. -/
inductive Call (A : Type) where
  | addAnimation (callback : A) (duration : Option Num) (easing : Option (Num → Num))
  | resetQueue
  | onComplete (i : Nat)

/-- The manager together with its history: the action invocations made so far, in
order (the `i`-th one received continuation `i`), and the continuations invoked so far. -/
structure Session (C A : Type) where
  manager : AnimationManager C A
  invoked : List (QueuedStep A)
  completed : List Nat

/-- A session on a freshly constructed manager. -/
def Session.create {C A : Type} (camera : C) : Session C A :=
  { manager := AnimationManager.create camera, invoked := [], completed := [] }

/-- Perform one call.  A continuation that has not been handed out cannot be invoked. -/
def Session.exec {C A : Type} (s : Session C A) : Call A → Session C A
  | Call.addAnimation cb d e =>
    { s with
      manager := (s.manager.addAnimation cb d e).1
      invoked := s.invoked ++ (s.manager.addAnimation cb d e).2 }
  | Call.resetQueue => { s with manager := s.manager.resetQueue }
  | Call.onComplete i =>
    if i < s.invoked.length then
      { manager := s.manager.nextAnimation.1
        invoked := s.invoked ++ s.manager.nextAnimation.2
        completed := s.completed ++ [i] }
    else s

/-- Perform a sequence of calls. -/
def Session.run {C A : Type} (s : Session C A) (calls : List (Call A)) : Session C A :=
  calls.foldl Session.exec s

/-- The steps that are active: started, and their own continuation not yet invoked. -/
def Session.active {C A : Type} (s : Session C A) : List Nat :=
  (List.range s.invoked.length).filter (fun i => decide (i ∉ s.completed))

/-- The steps a sequence of calls enqueues, in order. -/
def enqueued {A : Type} : List (Call A) → List (QueuedStep A)
  | [] => []
  | Call.addAnimation cb d e :: cs =>
    { callback := cb, duration := d.getD (Num.lit 1000), easing := e.getD easeInOutQuad }
      :: enqueued cs
  | _ :: cs => enqueued cs

/-- The call is a `resetQueue()`. -/
def Call.isReset {A : Type} : Call A → Bool
  | Call.resetQueue => true
  | _ => false

/-- The call is an `addAnimation(...)`. -/
def Call.isAdd {A : Type} : Call A → Bool
  | Call.addAnimation _ _ _ => true
  | _ => false

/-- The Number a decimal literal of value `q` denotes: the nearest binary64 value. -/
def Num.decimal (q : ℚ) : Num := Num.round q

/-- A finite vector of binary64 values. -/
def Vec3.WF (v : Vec3) : Prop :=
  (v.x.isFinite = true ∧ v.x.WF) ∧ (v.y.isFinite = true ∧ v.y.WF) ∧
    (v.z.isFinite = true ∧ v.z.WF)

/-- All three components are finite. -/
def Vec3.isFinite (v : Vec3) : Bool := v.x.isFinite && v.y.isFinite && v.z.isFinite

/-- The difference `a - b` of two finite Numbers is itself a binary64 value, so that
the subtraction is exact. -/
def Num.ExactSub : Num → Num → Prop
  | Num.fin a, Num.fin b => IsDouble (a - b)
  | _, _ => False

instance (x : Num) : Decidable x.WF := by
  cases x <;> unfold Num.WF <;> infer_instance

instance (v : Vec3) : Decidable v.WF := by unfold Vec3.WF; infer_instance

instance (x y : Num) : Decidable (Num.ExactSub x y) := by
  cases x <;> cases y <;> unfold Num.ExactSub <;> infer_instance

/-- The subtraction `a - b` is exact in each component. -/
def Vec3.ExactSub (a b : Vec3) : Prop :=
  Num.ExactSub a.x b.x ∧ Num.ExactSub a.y b.y ∧ Num.ExactSub a.z b.z

instance (a b : Vec3) : Decidable (Vec3.ExactSub a b) := by
  unfold Vec3.ExactSub; infer_instance

/-- The easing is one of the four functions of the library. -/
def IsLibraryEasing (f : Num → Num) : Prop :=
  f = linear ∨ f = easeInQuad ∨ f = easeOutQuad ∨ f = easeInOutQuad

/-- The invariant of a session in which every continuation is invoked at most once:
every completed index was handed out, an idle manager has no active step, and a running
one has at most one. -/
def Session.Serial {C A : Type} (s : Session C A) : Prop :=
  (∀ i ∈ s.completed, i < s.invoked.length) ∧
  (s.manager.isAnimating = false → s.active = []) ∧
  s.active.length ≤ 1

/-- The queue entry that `addAnimation(callback, duration, easing)` creates. -/
def QueuedStep.ofArgs {A : Type} (callback : A) (duration : Option Num)
    (easing : Option (Num → Num)) : QueuedStep A :=
  { callback := callback, duration := duration.getD (Num.lit 1000),
    easing := easing.getD easeInOutQuad }

/-- A new manager on which three steps have been enqueued in a row: the first is
running, the other two are queued. -/
def Session.threeQueued {C A : Type} (camera : C) (a b c : A) (da db dc : Option Num)
    (ea eb ec : Option (Num → Num)) : Session C A :=
  (Session.create camera).run
    [Call.addAnimation a da ea, Call.addAnimation b db eb, Call.addAnimation c dc ec]

/-! ## Example values -/

/-- A listener behaviour in which no callback throws. -/
def quiet (L : Type) : L → Bool := fun _ => false

/-- A listener behaviour in which exactly the callback `bad` throws. -/
def throwsOn (bad : String) : String → Bool := fun l => l == bad

/-- An easing outside the library: `t => 0.5 * t`, which ends at one half. -/
def halfWay (t : Num) : Num := Num.mul Num.half t

/-- The camera of the usage example: position `{0, 10, 30}`, target `{0, 0, 0}`,
debug output on. -/
def demoCamera : Camera String :=
  Camera.create (some ⟨Num.lit 0, Num.lit 10, Num.lit 30⟩)
    (some ⟨Num.lit 0, Num.lit 0, Num.lit 0⟩) (some true)

/-- An animation of `position` from the origin by `{1, 1, 1}` over 1000 ms with the
easing `halfWay`, started at time 0. -/
def halfWayAnimation : Animation :=
  Camera.animateProperty Property.position ⟨Num.lit 0, Num.lit 0, Num.lit 0⟩
    ⟨Num.lit 1, Num.lit 1, Num.lit 1⟩ (Num.lit 1000) halfWay (Num.lit 0)

/-- The first step of the usage example: `moveTo({x: 5, y: 5, z: 5}, 1500)`, called at
time 0. -/
def demoMove : Animation :=
  demoCamera.moveTo (Num.lit 0) ⟨Num.lit 5, Num.lit 5, Num.lit 5⟩ (some (Num.lit 1500)) none

/-- The vector `{x: 0.1, y: 0.1, z: 0.1}`. -/
def tenth : Vec3 := ⟨Num.decimal (1 / 10), Num.decimal (1 / 10), Num.decimal (1 / 10)⟩

/-- From the same camera, `moveTo({x: 0.1, y: 0.1, z: 0.1}, 1500)`, called at time 0. -/
def tenthMove : Animation :=
  demoCamera.moveTo (Num.lit 0) tenth (some (Num.lit 1500)) none

/-- Frame timestamps at 0, 500, 1000, 1500 and 2000 ms. -/
def demoTicks : List Num :=
  [Num.lit 0, Num.lit 500, Num.lit 1000, Num.lit 1500, Num.lit 2000]

/-- The callbacks a list of registrations puts under `event`, in registration order. -/
def registered {L : Type} (regs : List (String × L)) (event : String) : List L :=
  (regs.filter (fun r => r.1 == event)).map Prod.snd

/-- The registrations of the usage example before the queue starts, followed by the
one its first step makes; listeners are named by strings. -/
def demoRegistrations : List (String × String) :=
  [("positionComplete", "log position"), ("targetComplete", "log target"),
   ("positionComplete", "onComplete 1")]

/-- Three steps `A`, `B`, `C` enqueued on a new manager, with completions in between:
`A` completes before `C` is enqueued, then `B` completes, then the continuation of `A`
is invoked once more. -/
def demoCalls : List (Call String) :=
  [Call.addAnimation "A" (some (Num.lit 1500)) none,
   Call.addAnimation "B" (some (Num.lit 1000)) none,
   Call.onComplete 0,
   Call.addAnimation "C" (some (Num.lit 2000)) none,
   Call.onComplete 1,
   Call.onComplete 0]

/-- Three steps enqueued in a row; then the continuation handed to `A`, a persistent
listener in the usage example, is invoked twice. -/
def staleCalls : List (Call String) :=
  [Call.addAnimation "A" (some (Num.lit 1500)) none,
   Call.addAnimation "B" (some (Num.lit 1000)) none,
   Call.addAnimation "C" (some (Num.lit 2000)) none,
   Call.onComplete 0,
   Call.onComplete 0]

/-- An animation of `position` from the origin by `{1, 1, 1}` with duration 0 and the
default easing, started at time 100. -/
def zeroAnimation : Animation :=
  Camera.animateProperty Property.position ⟨Num.lit 0, Num.lit 0, Num.lit 0⟩
    ⟨Num.lit 1, Num.lit 1, Num.lit 1⟩ (Num.lit 0) easeInOutQuad (Num.lit 100)

/-- Round a rational to the binary64 grid with unbounded exponent range upwards: the
finite value that `Num.round` returns when the result does not overflow. -/
def rnd (q : ℚ) : ℚ := if q < 0 then -roundMag |q| else roundMag |q|

/-! ## Definitions for the later properties -/

/-- The Number lies in the unit interval: `x >= 0 && 1 >= x`. -/
def Num.inUnit (x : Num) : Bool := Num.ge x (Num.lit 0) && Num.ge (Num.lit 1) x

/-- The reference definition of the specification,
`t < 0.5 ? 2 * t^2 : 1 - (-2 * t + 2)^2 / 2`, with each square taken as a product. -/
def easeInOutQuadSpec (t : Num) : Num :=
  if Num.lt t Num.half then Num.mul (Num.lit 2) (Num.mul t t)
  else Num.sub (Num.lit 1)
    (Num.div
      (Num.mul (Num.add (Num.mul (Num.lit (-2)) t) (Num.lit 2))
        (Num.add (Num.mul (Num.lit (-2)) t) (Num.lit 2)))
      (Num.lit 2))

/-- The polynomial `t * (2 - t)` that `easeOutQuad` computes with rounding. -/
def exactOutQuad (t : ℚ) : ℚ := t * (2 - t)

/-- The piecewise polynomial that `easeInOutQuad` computes with rounding. -/
def exactInOutQuad (t : ℚ) : ℚ := if t < 1 / 2 then 2 * t * t else -1 + (4 - 2 * t) * t

/-- The effect is a request for a further frame. -/
def Effect.isRequest {L : Type} : Effect L → Bool
  | Effect.requestFrame => true
  | _ => false

/-- An animation of `position` from the origin by `{1, 1, 1}` over 1000 ms with the
default easing, whose `startTime` reading is 100. -/
def lateAnimation : Animation :=
  Camera.animateProperty Property.position ⟨Num.lit 0, Num.lit 0, Num.lit 0⟩
    ⟨Num.lit 1, Num.lit 1, Num.lit 1⟩ (Num.lit 1000) easeInOutQuad (Num.lit 100)

/-- The camera of the usage example after the registrations of `demoRegistrations`. -/
def listeningCamera : Camera String := demoCamera.onAll demoRegistrations

/-- Two frame schedules that end at 1200 ms: three frames, and five. -/
def coarseTicks : List Num := [Num.lit 0, Num.lit 500]

/-- The finer schedule before the frame at 1200 ms. -/
def fineTicks : List Num := [Num.lit 100, Num.lit 200, Num.lit 300, Num.lit 1000]

/-- The largest binary64 value below one, `1 - 2^(-53)`. -/
def belowOne : Num := Num.fin (1 - 1 / 2 ^ (53 : ℕ))

/-- The binary64 value before it, `1 - 2^(-52)`. -/
def twoBelowOne : Num := Num.fin (1 - 1 / 2 ^ (52 : ℕ))

/-! ## A duration of zero

`Num` keeps one zero, so the sign of a zero duration is given apart, as a Boolean. -/

/-- The `/` of two Numbers where a divisor that is zero has the sign `negZero` tells
(`true` for `-0`): a dividend other than zero over a zero gives the infinity whose sign
is the product of the two signs, zero over zero gives `NaN`.  With a divisor other than
zero this is `Num.div`. -/
def Num.divSigned (negZero : Bool) : Num → Num → Num
  | Num.nan, _ => Num.nan
  | _, Num.nan => Num.nan
  | Num.inf _, Num.inf _ => Num.nan
  | Num.inf s, Num.fin b => Num.inf (xor s (if b = 0 then negZero else decide (b < 0)))
  | Num.fin _, Num.inf _ => Num.fin 0
  | Num.fin a, Num.fin b =>
    if b = 0 then (if a = 0 then Num.nan else Num.inf (xor (decide (a < 0)) negZero))
    else Num.round (a / b)

/-- The source `Math.min(1, (currentTime - startTime) / duration)`, for a duration whose
zero, if it is one, has the sign that `negZero` tells. -/
def Animation.timeSigned (negZero : Bool) (a : Animation) (currentTime : Num) : Num :=
  Num.min (Num.lit 1)
    (Num.divSigned negZero (Num.sub currentTime a.startTime) a.duration)

/-- The value `start + change * easing(time)` that `step` assigns, for a given value of
its constant `time`. -/
def Animation.sampleAt (a : Animation) (time : Num) : Vec3 :=
  { x := Num.add a.start.x (Num.mul a.change.x (a.easing time))
    y := Num.add a.start.y (Num.mul a.change.y (a.easing time))
    z := Num.add a.start.z (Num.mul a.change.z (a.easing time)) }

/-- The assignments and the debug output of `step`, for a given value of `time`. -/
def Animation.writesAt {L : Type} (a : Animation) (cam : Camera L) (time : Num) :
    List (Effect L) :=
  [Effect.write a.property Axis.x (a.sampleAt time).x,
   Effect.write a.property Axis.y (a.sampleAt time).y,
   Effect.write a.property Axis.z (a.sampleAt time).z]
  ++ (if cam.debug then [Effect.log a.property (a.sampleAt time)] else [])

/-- The body of `step` below its first line, for a given value of `time`: the three
assignments, the debug log, then a request for another frame if `time < 1`, else
`triggerEvent`. -/
def Animation.stepAt {L : Type} (throws : L → Bool) (a : Animation) (cam : Camera L)
    (time : Num) : StepResult L :=
  if Num.lt time (Num.lit 1) then
    { cam := cam.set a.property (a.sampleAt time)
      trace := a.writesAt cam time ++ [Effect.requestFrame]
      again := true
      outcome := Outcome.normal }
  else
    { cam := cam.set a.property (a.sampleAt time)
      trace := a.writesAt cam time ++
        ((cam.set a.property (a.sampleAt time)).triggerEvent throws a.completeEvent).1
      again := false
      outcome :=
        ((cam.set a.property (a.sampleAt time)).triggerEvent throws a.completeEvent).2 }

/-- One call `step(currentTime)` of the source, for a duration whose zero, if it is one,
has the sign that `negZero` tells. -/
def Animation.stepSigned {L : Type} (negZero : Bool) (throws : L → Bool) (a : Animation)
    (cam : Camera L) (currentTime : Num) : StepResult L :=
  a.stepAt throws cam (a.timeSigned negZero currentTime)
/-! ## Rounding -/

theorem rhe_floor_le (r : ℚ) : ⌊r⌋ ≤ roundHalfEven r := by
  unfold roundHalfEven; split_ifs <;> omega

theorem rhe_le_floor_succ (r : ℚ) : roundHalfEven r ≤ ⌊r⌋ + 1 := by
  unfold roundHalfEven; split_ifs <;> omega

theorem rhe_intCast (n : ℤ) : roundHalfEven (n : ℚ) = n := by
  unfold roundHalfEven; simp

theorem rhe_mono {r s : ℚ} (h : r ≤ s) : roundHalfEven r ≤ roundHalfEven s := by
  have hf : ⌊r⌋ ≤ ⌊s⌋ := Int.floor_mono h
  rcases lt_or_eq_of_le hf with hlt | heq
  · calc roundHalfEven r ≤ ⌊r⌋ + 1 := rhe_le_floor_succ r
      _ ≤ ⌊s⌋ := by omega
      _ ≤ roundHalfEven s := rhe_floor_le s
  · unfold roundHalfEven
    rw [← heq]
    split_ifs <;> first | omega | (exfalso; linarith)

theorem rhe_ge_of_le {n : ℤ} {r : ℚ} (h : (n : ℚ) ≤ r) : n ≤ roundHalfEven r := by
  have := rhe_mono h; rwa [rhe_intCast] at this

theorem rhe_le_of_le {n : ℤ} {r : ℚ} (h : r ≤ (n : ℚ)) : roundHalfEven r ≤ n := by
  have := rhe_mono h; rwa [rhe_intCast] at this

theorem two_zpow_pos (z : ℤ) : (0 : ℚ) < 2 ^ z := zpow_pos (by norm_num) z

theorem two_zpow_mono {m n : ℤ} (h : m ≤ n) : (2 : ℚ) ^ m ≤ 2 ^ n :=
  zpow_le_zpow_right₀ (by norm_num) h

theorem ulp_pos (a : ℚ) : 0 < ulp a := two_zpow_pos _

theorem pow53_mul_ulp (a : ℚ) : (2 : ℚ) ^ (53 : ℕ) * ulp a = 2 ^ (binade a + 1) := by
  unfold ulp
  rw [← zpow_natCast, ← zpow_add₀ (by norm_num : (2 : ℚ) ≠ 0)]
  congr 1; push_cast; ring

theorem pow52_mul_ulp (a : ℚ) : (2 : ℚ) ^ (52 : ℕ) * ulp a = 2 ^ binade a := by
  unfold ulp
  rw [← zpow_natCast, ← zpow_add₀ (by norm_num : (2 : ℚ) ≠ 0)]
  congr 1; push_cast; ring

theorem log_eq {a : ℚ} {e : ℤ} (h1 : 2 ^ e ≤ a) (h2 : a < 2 ^ (e + 1)) : Int.log 2 a = e := by
  have ha : 0 < a := lt_of_lt_of_le (two_zpow_pos e) h1
  have hle : e ≤ Int.log 2 a := by
    rw [← Int.zpow_le_iff_le_log (by norm_num) ha]; simpa using h1
  have hlt : Int.log 2 a < e + 1 := by
    rw [← Int.lt_zpow_iff_log_lt (by norm_num) ha]; simpa using h2
  omega

theorem bitsAux_spec : ∀ (fuel n : Nat), n ≤ fuel →
    n < 2 ^ bitsAux fuel n ∧ (0 < n → 2 ^ (bitsAux fuel n - 1) ≤ n)
  | 0, n, h => by
    have : n = 0 := by omega
    subst this; simp [bitsAux]
  | fuel + 1, n, h => by
    unfold bitsAux
    by_cases h0 : n = 0
    · simp [h0]
    · rw [if_neg h0]
      have ih := bitsAux_spec fuel (n / 2) (by omega)
      constructor
      · rw [pow_succ]; omega
      · intro _
        simp only [Nat.add_sub_cancel]
        by_cases h1 : n / 2 = 0
        · have : bitsAux fuel (n / 2) = 0 := by
            rw [h1]; cases fuel <;> simp [bitsAux]
          rw [this]; simp; omega
        · have h2 := ih.2 (by omega)
          have h3 : 0 < bitsAux fuel (n / 2) := by
            by_contra hc
            have : bitsAux fuel (n / 2) = 0 := by omega
            rw [this] at ih
            omega
          have : bitsAux fuel (n / 2) = (bitsAux fuel (n / 2) - 1) + 1 := by omega
          rw [this, pow_succ]; omega

theorem bits_spec (n : Nat) (h : 0 < n) :
    2 ^ (bits n - 1) ≤ n ∧ n < 2 ^ bits n ∧ 0 < bits n := by
  have := bitsAux_spec n n le_rfl
  refine ⟨this.2 h, this.1, ?_⟩
  by_contra hc
  have h0 : bits n = 0 := by omega
  unfold bits at h0
  rw [h0] at this
  omega

/-- The digit count brackets a positive natural between two powers of two, in `ℚ`. -/
theorem bits_bracket (n : Nat) (h : 0 < n) :
    (2 : ℚ) ^ ((bits n : ℤ) - 1) ≤ (n : ℚ) ∧ (n : ℚ) < (2 : ℚ) ^ (bits n : ℤ) := by
  obtain ⟨h1, h2, h3⟩ := bits_spec n h
  have e1 : ((bits n : ℤ) - 1) = ((bits n - 1 : ℕ) : ℤ) := by omega
  constructor
  · rw [e1, zpow_natCast]; exact_mod_cast h1
  · rw [zpow_natCast]; exact_mod_cast h2

theorem ilog2_spec {a : ℚ} (ha : 0 < a) :
    (2 : ℚ) ^ ilog2 a ≤ a ∧ a < (2 : ℚ) ^ (ilog2 a + 1) := by
  have hnum : 0 < a.num := Rat.num_pos.mpr ha
  have hn : 0 < a.num.toNat := by omega
  have hd : 0 < a.den := a.den_pos
  obtain ⟨n1, n2⟩ := bits_bracket _ hn
  obtain ⟨d1, d2⟩ := bits_bracket _ hd
  have hD : (0 : ℚ) < (a.den : ℚ) := by exact_mod_cast hd
  have hcast : ((a.num.toNat : ℕ) : ℚ) = (a.num : ℚ) := by
    have : ((a.num.toNat : ℕ) : ℤ) = a.num := Int.toNat_of_nonneg hnum.le
    exact_mod_cast congrArg (Int.cast : ℤ → ℚ) this
  have hval : a = (a.num.toNat : ℚ) / (a.den : ℚ) := by
    rw [hcast]; exact (Rat.num_div_den a).symm
  set N : ℚ := (a.num.toNat : ℚ) with hN
  set D : ℚ := (a.den : ℚ) with hDdef
  set bn : ℤ := (bits a.num.toNat : ℤ) with hbn
  set bd : ℤ := (bits a.den : ℤ) with hbd
  have two_ne : (2 : ℚ) ≠ 0 := by norm_num
  have hupper : a < (2 : ℚ) ^ (bn - bd + 1) := by
    rw [hval, div_lt_iff₀ hD]
    calc N < (2 : ℚ) ^ bn := n2
      _ = (2 : ℚ) ^ (bn - bd + 1) * (2 : ℚ) ^ (bd - 1) := by
        rw [← zpow_add₀ two_ne]; congr 1; ring
      _ ≤ (2 : ℚ) ^ (bn - bd + 1) * D := mul_le_mul_of_nonneg_left d1 (two_zpow_pos _).le
  have hlower : (2 : ℚ) ^ (bn - bd - 1) ≤ a := by
    rw [hval, le_div_iff₀ hD]
    calc (2 : ℚ) ^ (bn - bd - 1) * D ≤ (2 : ℚ) ^ (bn - bd - 1) * (2 : ℚ) ^ bd :=
          mul_le_mul_of_nonneg_left d2.le (two_zpow_pos _).le
      _ = (2 : ℚ) ^ (bn - 1) := by rw [← zpow_add₀ two_ne]; congr 1; ring
      _ ≤ N := n1
  unfold ilog2
  split_ifs with hk
  · exact ⟨hk, hupper⟩
  · refine ⟨hlower, ?_⟩
    have : bn - bd - 1 + 1 = bn - bd := by ring
    rw [this]; exact not_le.mp hk

theorem ilog2_eq_log {a : ℚ} (ha : 0 < a) : ilog2 a = Int.log 2 a :=
  (log_eq (ilog2_spec ha).1 (ilog2_spec ha).2).symm

theorem binade_def {a : ℚ} (ha : 0 < a) : binade a = max (Int.log 2 a) (-1022) := by
  unfold binade; rw [ilog2_eq_log ha]

theorem binade_ge (a : ℚ) : -1022 ≤ binade a := le_max_right _ _

theorem lt_top (a : ℚ) : a < 2 ^ (binade a + 1) := by
  rcases le_or_lt a 0 with h0 | hpos
  · exact lt_of_le_of_lt h0 (two_zpow_pos _)
  · have h := Int.lt_zpow_succ_log_self (by norm_num : 1 < 2) a
    simp only [Nat.cast_ofNat] at h
    refine lt_of_lt_of_le h (two_zpow_mono ?_)
    rw [binade_def hpos]
    have := le_max_left (Int.log 2 a) (-1022)
    omega

theorem bot_le {a : ℚ} (ha : 0 < a) (h : -1022 < binade a) : 2 ^ binade a ≤ a := by
  have hb : binade a = Int.log 2 a := by
    rw [binade_def ha] at h ⊢
    rcases max_cases (Int.log 2 a) (-1022) with ⟨h1, _⟩ | ⟨h1, _⟩
    · exact h1
    · rw [h1] at h; omega
  rw [hb]
  have := Int.zpow_log_le_self (by norm_num : 1 < 2) ha
  simpa using this

theorem binade_mono {a b : ℚ} (ha : 0 < a) (h : a ≤ b) : binade a ≤ binade b := by
  rw [binade_def ha, binade_def (lt_of_lt_of_le ha h)]
  exact max_le_max (Int.log_mono_right ha h) le_rfl

theorem binade_eq {a : ℚ} {e : ℤ} (he : -1022 ≤ e) (h1 : 2 ^ e ≤ a) (h2 : a < 2 ^ (e + 1)) :
    binade a = e := by
  rw [binade_def (lt_of_lt_of_le (two_zpow_pos e) h1), log_eq h1 h2]; exact max_eq_left he

theorem binade_eq_min {a : ℚ} (ha : 0 < a) (h2 : a < 2 ^ (-1021 : ℤ)) : binade a = -1022 := by
  rw [binade_def ha]
  apply max_eq_right
  have hlt : Int.log 2 a < -1021 := by
    rw [← Int.lt_zpow_iff_log_lt (by norm_num) ha]; simpa using h2
  omega

theorem cast_pow53 : (((2 : ℤ) ^ (53 : ℕ) : ℤ) : ℚ) = (2 : ℚ) ^ (53 : ℕ) := by norm_num

theorem cast_pow52 : (((2 : ℤ) ^ (52 : ℕ) : ℤ) : ℚ) = (2 : ℚ) ^ (52 : ℕ) := by norm_num

theorem roundMag_zero : roundMag 0 = 0 := by simp [roundMag]

theorem roundMag_eq {a : ℚ} (ha : a ≠ 0) :
    roundMag a = (roundHalfEven (a / ulp a) : ℚ) * ulp a := by
  simp [roundMag, ha]

theorem roundMag_nonneg {a : ℚ} (ha : 0 ≤ a) : 0 ≤ roundMag a := by
  rcases eq_or_ne a 0 with h0 | h0
  · rw [h0, roundMag_zero]
  · rw [roundMag_eq h0]
    have h : ((0 : ℤ) : ℚ) ≤ a / ulp a := by
      simpa using div_nonneg ha (ulp_pos a).le
    have := rhe_ge_of_le h
    exact mul_nonneg (by exact_mod_cast this) (ulp_pos a).le

theorem rhe_le_pow53 (a : ℚ) : roundHalfEven (a / ulp a) ≤ 2 ^ (53 : ℕ) := by
  apply rhe_le_of_le
  rw [div_le_iff₀ (ulp_pos a), cast_pow53, pow53_mul_ulp]
  exact (lt_top a).le

theorem pow52_le_rhe {a : ℚ} (ha : 0 < a) (h : -1022 < binade a) :
    2 ^ (52 : ℕ) ≤ roundHalfEven (a / ulp a) := by
  apply rhe_ge_of_le
  rw [le_div_iff₀ (ulp_pos a), cast_pow52, pow52_mul_ulp]
  exact bot_le ha h

theorem roundMag_le_top {a : ℚ} (ha : 0 < a) : roundMag a ≤ 2 ^ (binade a + 1) := by
  rw [roundMag_eq ha.ne', ← pow53_mul_ulp]
  apply mul_le_mul_of_nonneg_right _ (ulp_pos a).le
  have := rhe_le_pow53 a
  exact_mod_cast this

theorem roundMag_ge_bot {a : ℚ} (ha : 0 < a) (h : -1022 < binade a) :
    2 ^ binade a ≤ roundMag a := by
  rw [roundMag_eq ha.ne', ← pow52_mul_ulp]
  apply mul_le_mul_of_nonneg_right _ (ulp_pos a).le
  have := pow52_le_rhe ha h
  exact_mod_cast this

theorem roundMag_mono {a b : ℚ} (ha : 0 ≤ a) (h : a ≤ b) : roundMag a ≤ roundMag b := by
  rcases eq_or_lt_of_le ha with h0 | hpos
  · rw [← h0, roundMag_zero]; exact roundMag_nonneg (ha.trans h)
  · have hb : 0 < b := lt_of_lt_of_le hpos h
    rcases eq_or_lt_of_le (binade_mono hpos h) with he | he
    · have hu : ulp a = ulp b := by unfold ulp; rw [he]
      rw [roundMag_eq hpos.ne', roundMag_eq hb.ne', hu]
      apply mul_le_mul_of_nonneg_right _ (ulp_pos b).le
      have := rhe_mono (div_le_div_of_nonneg_right h (ulp_pos b).le)
      exact_mod_cast this
    · calc roundMag a ≤ 2 ^ (binade a + 1) := roundMag_le_top hpos
        _ ≤ 2 ^ binade b := two_zpow_mono (by omega)
        _ ≤ roundMag b := roundMag_ge_bot hb (by have := binade_ge a; omega)

/-- Grid points are fixed by rounding: `m * 2^(e-52)` with at most 53 significant bits,
normalised unless `e` is the subnormal exponent. -/
theorem roundMag_grid {m e : ℤ} (he : -1022 ≤ e) (hm : 0 ≤ m) (hm2 : m ≤ 2 ^ (53 : ℕ))
    (hnorm : -1022 < e → 2 ^ (52 : ℕ) ≤ m) :
    roundMag ((m : ℚ) * 2 ^ (e - 52)) = (m : ℚ) * 2 ^ (e - 52) := by
  rcases eq_or_lt_of_le hm with h0 | hpos
  · rw [← h0]; simp [roundMag_zero]
  have hu : (0 : ℚ) < 2 ^ (e - 52) := two_zpow_pos _
  have hr : (0 : ℚ) < (m : ℚ) * 2 ^ (e - 52) := mul_pos (by exact_mod_cast hpos) hu
  have h52 : (2 : ℚ) ^ (52 : ℕ) * 2 ^ (e - 52) = 2 ^ e := by
    rw [← zpow_natCast, ← zpow_add₀ (by norm_num : (2 : ℚ) ≠ 0)]; congr 1; push_cast; ring
  have h53 : (2 : ℚ) ^ (53 : ℕ) * 2 ^ (e - 52) = 2 ^ (e + 1) := by
    rw [← zpow_natCast, ← zpow_add₀ (by norm_num : (2 : ℚ) ≠ 0)]; congr 1; push_cast; ring
  rcases eq_or_lt_of_le hm2 with htop | hlt
  · -- `m = 2^53`: the value is `2^(e+1)`
    have hval : (m : ℚ) * 2 ^ (e - 52) = 2 ^ (e + 1) := by
      rw [htop, cast_pow53]; exact h53
    have hb : binade ((m : ℚ) * 2 ^ (e - 52)) = e + 1 := by
      rw [hval]
      exact binade_eq (by omega) le_rfl (zpow_lt_zpow_right₀ (by norm_num) (by omega))
    rw [roundMag_eq hr.ne']
    have hul : ulp ((m : ℚ) * 2 ^ (e - 52)) = 2 ^ (e + 1 - 52) := by unfold ulp; rw [hb]
    rw [hul, hval]
    have hq : (2 : ℚ) ^ (e + 1) / 2 ^ (e + 1 - 52) = ((2 ^ (52 : ℕ) : ℤ) : ℚ) := by
      rw [← zpow_sub₀ (by norm_num : (2 : ℚ) ≠ 0), cast_pow52, ← zpow_natCast]
      congr 1; push_cast; ring
    rw [hq, rhe_intCast, cast_pow52, ← zpow_natCast,
      ← zpow_add₀ (by norm_num : (2 : ℚ) ≠ 0)]
    congr 1; push_cast; ring
  · have hb : binade ((m : ℚ) * 2 ^ (e - 52)) = e := by
      have hlt2 : (m : ℚ) * 2 ^ (e - 52) < 2 ^ (e + 1) := by
        rw [← h53]
        exact mul_lt_mul_of_pos_right (by exact_mod_cast hlt) hu
      rcases eq_or_lt_of_le he with hmin | hgt
      · subst hmin
        exact binade_eq_min hr (by simpa using hlt2)
      · apply binade_eq he _ hlt2
        rw [← h52]
        exact mul_le_mul_of_nonneg_right (by exact_mod_cast hnorm hgt) hu.le
    rw [roundMag_eq hr.ne']
    have hul : ulp ((m : ℚ) * 2 ^ (e - 52)) = 2 ^ (e - 52) := by unfold ulp; rw [hb]
    rw [hul, mul_div_assoc, div_self hu.ne', mul_one, rhe_intCast]

theorem roundMag_idem {a : ℚ} (ha : 0 ≤ a) : roundMag (roundMag a) = roundMag a := by
  rcases eq_or_lt_of_le ha with h0 | hpos
  · rw [← h0, roundMag_zero, roundMag_zero]
  · rw [roundMag_eq hpos.ne']
    unfold ulp
    apply roundMag_grid (binade_ge a)
    · apply rhe_ge_of_le
      simpa using div_nonneg ha (ulp_pos a).le
    · exact rhe_le_pow53 a
    · intro h; exact pow52_le_rhe hpos h

theorem roundMag_one : roundMag 1 = 1 := by decide!

/-- The largest binary64 value below one, `1 - 2^(-53)`. -/
theorem roundMag_predOne :
    roundMag (1 - 1 / 2 ^ (53 : ℕ)) = 1 - 1 / 2 ^ (53 : ℕ) := by decide!

theorem round_zero : Num.round 0 = Num.fin 0 := by decide!

theorem round_of_nonneg {q : ℚ} (hq : 0 ≤ q) :
    Num.round q =
      if (2 : ℚ) ^ (1024 : ℕ) ≤ roundMag q then Num.inf false else Num.fin (roundMag q) := by
  unfold Num.round
  rw [abs_of_nonneg hq]
  have : ¬ q < 0 := not_lt.mpr hq
  simp [this]

theorem round_of_neg {q : ℚ} (hq : q < 0) :
    Num.round q =
      if (2 : ℚ) ^ (1024 : ℕ) ≤ roundMag (-q) then Num.inf true
      else Num.fin (-roundMag (-q)) := by
  unfold Num.round
  rw [abs_of_neg hq]
  simp [hq]

theorem isDouble_iff (q : ℚ) :
    IsDouble q ↔ roundMag |q| = |q| ∧ roundMag |q| < 2 ^ (1024 : ℕ) := by
  unfold IsDouble Num.round
  by_cases hov : (2 : ℚ) ^ (1024 : ℕ) ≤ roundMag |q|
  · simp [hov]
  · simp only [hov, if_false, Num.fin.injEq, not_le.mp hov, and_true]
    by_cases hq : q < 0
    · simp only [hq, if_true, abs_of_neg hq]
      constructor <;> intro h <;> linarith
    · simp only [hq, if_false, abs_of_nonneg (not_lt.mp hq)]

theorem round_isDouble {q r : ℚ} (h : Num.round q = Num.fin r) : IsDouble r := by
  unfold Num.round at h
  by_cases hov : (2 : ℚ) ^ (1024 : ℕ) ≤ roundMag |q|
  · simp [hov] at h
  · simp only [hov, if_false, Num.fin.injEq] at h
    have hnn : 0 ≤ roundMag |q| := roundMag_nonneg (abs_nonneg q)
    have habs : |r| = roundMag |q| := by
      rw [← h]; split_ifs
      · rw [abs_neg, abs_of_nonneg hnn]
      · exact abs_of_nonneg hnn
    rw [isDouble_iff, habs, roundMag_idem (abs_nonneg q)]
    exact ⟨rfl, not_le.mp hov⟩

/-- A quotient of at least one is clamped to one by `Math.min(1, ·)`. -/
theorem min_one_div_of_le {a d : ℚ} (hd : 0 < d) (h : d ≤ a) :
    Num.min (Num.lit 1) (Num.div (Num.fin a) (Num.fin d)) = Num.lit 1 := by
  have hq : (1 : ℚ) ≤ a / d := by rwa [le_div_iff₀ hd, one_mul]
  have hr : (1 : ℚ) ≤ roundMag (a / d) := by
    have := roundMag_mono (by norm_num : (0 : ℚ) ≤ 1) hq
    rwa [roundMag_one] at this
  simp only [Num.div, hd.ne', if_false, round_of_nonneg (le_trans (by norm_num) hq)]
  split_ifs
  · simp [Num.min, Num.lit, Num.lt]
  · simp [Num.min, Num.lit, Num.lt, not_lt.mpr hr]

/-- A positive binary64 value is an integer multiple of its own spacing. -/
theorem isDouble_grid {x : ℚ} (hx : IsDouble x) (h0 : 0 < x) :
    x = (roundHalfEven (x / ulp x) : ℚ) * ulp x := by
  have h := ((isDouble_iff x).mp hx).1
  rw [abs_of_pos h0] at h
  rw [roundMag_eq h0.ne'] at h
  exact h.symm

/-- Two distinct non-negative binary64 values differ by a relative gap of at least
`2^(-53)`. -/
theorem double_gap {x y : ℚ} (hx : IsDouble x) (hy : IsDouble y) (h0 : 0 ≤ x) (h : x < y) :
    x / y ≤ 1 - 1 / 2 ^ (53 : ℕ) := by
  have hypos : 0 < y := lt_of_le_of_lt h0 h
  rcases eq_or_lt_of_le h0 with hz | hxpos
  · rw [← hz]; norm_num
  rw [div_le_iff₀ hypos]
  have gx := isDouble_grid hx hxpos
  have gy := isDouble_grid hy hypos
  set mx := roundHalfEven (x / ulp x) with hmx
  set my := roundHalfEven (y / ulp y) with hmy
  have hux := ulp_pos x
  have huy := ulp_pos y
  -- the significand of `x` is below `2^53`
  have hmx_lt : mx < 2 ^ (53 : ℕ) := by
    have h1 : (mx : ℚ) * ulp x < 2 ^ (53 : ℕ) * ulp x := by
      rw [← gx, pow53_mul_ulp]; exact lt_top x
    have h2 : (mx : ℚ) < 2 ^ (53 : ℕ) := lt_of_mul_lt_mul_right h1 hux.le
    exact_mod_cast h2
  rcases eq_or_lt_of_le (binade_mono hxpos h.le) with he | he
  · -- same binade: the significands differ by at least one
    have hu : ulp x = ulp y := by unfold ulp; rw [he]
    rw [hu] at gx
    have hlt : (mx : ℚ) < my := by
      have : (mx : ℚ) * ulp y < (my : ℚ) * ulp y := by rw [← gx, ← gy]; exact h
      exact lt_of_mul_lt_mul_right this huy.le
    have hle : (mx : ℚ) + 1 ≤ my := by
      have : mx + 1 ≤ my := by have : mx < my := by exact_mod_cast hlt
                               omega
      exact_mod_cast this
    have hy53 : y < 2 ^ (53 : ℕ) * ulp y := by rw [pow53_mul_ulp]; exact lt_top y
    have hstep : x + ulp y ≤ y := by
      calc x + ulp y = ((mx : ℚ) + 1) * ulp y := by rw [add_mul, one_mul, ← gx]
        _ ≤ (my : ℚ) * ulp y := mul_le_mul_of_nonneg_right hle huy.le
        _ = y := gy.symm
    have : y * (1 / 2 ^ (53 : ℕ)) ≤ ulp y := by
      rw [mul_one_div, div_le_iff₀ (by positivity)]
      linarith
    linarith
  · -- `x` lies in a lower binade than `y`
    have hxle : x ≤ (2 ^ (53 : ℕ) - 1) * ulp x := by
      have : (mx : ℚ) ≤ 2 ^ (53 : ℕ) - 1 := by
        have : mx ≤ 2 ^ (53 : ℕ) - 1 := by omega
        exact_mod_cast this
      calc x = (mx : ℚ) * ulp x := gx
        _ ≤ (2 ^ (53 : ℕ) - 1) * ulp x := mul_le_mul_of_nonneg_right this hux.le
    have htop : (2 : ℚ) ^ (53 : ℕ) * ulp x ≤ y := by
      rw [pow53_mul_ulp]
      calc (2 : ℚ) ^ (binade x + 1) ≤ 2 ^ binade y := two_zpow_mono (by omega)
        _ ≤ y := bot_le hypos (by have := binade_ge x; omega)
    have h53 : (0 : ℚ) < 2 ^ (53 : ℕ) := by positivity
    have e1 : (2 ^ (53 : ℕ) - 1) * ulp x
        = (2 ^ (53 : ℕ) * ulp x) * (1 - 1 / 2 ^ (53 : ℕ)) := by
      field_simp; ring
    calc x ≤ (2 ^ (53 : ℕ) - 1) * ulp x := hxle
      _ = (2 ^ (53 : ℕ) * ulp x) * (1 - 1 / 2 ^ (53 : ℕ)) := e1
      _ ≤ y * (1 - 1 / 2 ^ (53 : ℕ)) :=
        mul_le_mul_of_nonneg_right htop (by norm_num)
      _ = (1 - 1 / 2 ^ (53 : ℕ)) * y := mul_comm _ _

/-- The quotient of a binary64 value by a larger positive one rounds below one. -/
theorem div_lt_one_of_lt {a d : ℚ} (ha : IsDouble a) (hd : IsDouble d) (h0 : 0 < d)
    (h : a < d) : ∃ r, Num.div (Num.fin a) (Num.fin d) = Num.fin r ∧ r < 1
      ∨ Num.div (Num.fin a) (Num.fin d) = Num.inf true := by
  simp only [Num.div, h0.ne', if_false]
  rcases le_or_lt 0 a with hnn | hneg
  · have hq0 : 0 ≤ a / d := div_nonneg hnn h0.le
    have hq := double_gap ha hd hnn h
    have hr : roundMag (a / d) ≤ 1 - 1 / 2 ^ (53 : ℕ) := by
      have := roundMag_mono hq0 hq
      rwa [roundMag_predOne] at this
    have hov : ¬ (2 : ℚ) ^ (1024 : ℕ) ≤ roundMag (a / d) := by
      intro hc
      have : (1 : ℚ) ≤ 2 ^ (1024 : ℕ) := one_le_pow₀ (by norm_num)
      have h53 : (0 : ℚ) < 1 / 2 ^ (53 : ℕ) := by positivity
      linarith
    refine ⟨roundMag (a / d), Or.inl ⟨?_, ?_⟩⟩
    · rw [round_of_nonneg hq0, if_neg hov]
    · have h53 : (0 : ℚ) < 1 / 2 ^ (53 : ℕ) := by positivity
      linarith
  · have hq : a / d < 0 := div_neg_of_neg_of_pos hneg h0
    have hnn : 0 ≤ roundMag (-(a / d)) := roundMag_nonneg (by linarith)
    rw [round_of_neg hq]
    by_cases hov : (2 : ℚ) ^ (1024 : ℕ) ≤ roundMag (-(a / d))
    · exact ⟨0, Or.inr (by rw [if_pos hov])⟩
    · exact ⟨-roundMag (-(a / d)), Or.inl ⟨by rw [if_neg hov], by linarith⟩⟩

/-! ## Lemmas on the operations -/

theorem round_ne_nan (q : ℚ) : Num.round q ≠ Num.nan := by
  unfold Num.round; split_ifs <;> simp

theorem mul_one_of_wf {c : Num} (h : c.WF) : Num.mul c (Num.lit 1) = c := by
  cases c with
  | nan => rfl
  | inf s =>
    have h10 : ¬ ((1 : ℚ) < 0) := by norm_num
    simp [Num.mul, Num.lit, h10]
  | fin q => simpa [Num.mul, Num.lit, Num.WF, IsDouble] using h

theorem mul_zero_of_fin (q : ℚ) : Num.mul (Num.fin q) (Num.lit 0) = Num.lit 0 := by
  simp [Num.mul, Num.lit, round_zero]

theorem add_zero_of_wf {c : Num} (h : c.WF) : Num.add c (Num.lit 0) = c := by
  cases c with
  | nan => rfl
  | inf s => simp [Num.add, Num.lit]
  | fin q => simpa [Num.add, Num.lit, Num.WF, IsDouble] using h

theorem sub_wf (x y : Num) : (Num.sub x y).WF := by
  cases x <;> cases y <;> simp only [Num.sub, Num.neg, Num.add, Num.WF] <;> try split_ifs
  all_goals first
    | trivial
    | (rename_i a b
       cases hr : Num.round (a + -b) with
       | nan => trivial
       | inf s => trivial
       | fin r => exact round_isDouble hr)

theorem add_sub_of_exact {n p : Num} (hn : n.WF) (h : Num.ExactSub n p) :
    Num.add p (Num.sub n p) = n := by
  cases n with
  | nan => exact absurd h (by simp [Num.ExactSub])
  | inf s => exact absurd h (by simp [Num.ExactSub])
  | fin a =>
    cases p with
    | nan => exact absurd h (by simp [Num.ExactSub])
    | inf s => exact absurd h (by simp [Num.ExactSub])
    | fin b =>
      have h1 : Num.round (a + -b) = Num.fin (a - b) := by
        have : IsDouble (a - b) := h
        rw [← sub_eq_add_neg]; exact this
      simp only [Num.sub, Num.neg, Num.add, h1]
      have : b + (a - b) = a := by ring
      rw [this]; exact hn

/-- With a positive binary64 duration (or `Infinity`) and a finite elapsed time, the
normalised time `Math.min(1, elapsed / duration)` is below one exactly when the elapsed
time is below the duration. -/
theorem time_lt_one_iff {d el : Num} (hd : Num.lt (Num.lit 0) d = true) (hdw : d.WF)
    (hel : el.isFinite = true) (helw : el.WF) :
    Num.lt (Num.min (Num.lit 1) (Num.div el d)) (Num.lit 1) = !(Num.ge el d) := by
  cases el with
  | nan => simp [Num.isFinite] at hel
  | inf s => simp [Num.isFinite] at hel
  | fin a =>
    cases d with
    | nan => simp [Num.lt, Num.lit] at hd
    | inf s =>
      cases s
      · simp [Num.div, Num.min, Num.lt, Num.ge, Num.lit]
      · simp [Num.lt, Num.lit] at hd
    | fin q =>
      have hq : 0 < q := by simpa [Num.lt, Num.lit] using hd
      rcases le_or_lt q a with hle | hlt
      · rw [min_one_div_of_le hq hle]
        simp [Num.lt, Num.ge, Num.lit, not_lt.mpr hle]
      · rcases div_lt_one_of_lt helw hdw hq hlt with ⟨r, h | h⟩
        · rw [h.1]
          simp [Num.min, Num.lt, Num.ge, Num.lit, h.2, hlt]
        · rw [h]
          simp [Num.min, Num.lt, Num.ge, Num.lit, hlt]

/-- At an elapsed time of at least the duration the normalised time is one. -/
theorem time_eq_one {d el : Num} (hd : Num.lt (Num.lit 0) d = true)
    (hfin : d.isFinite = true) (hel : Num.ge el d = true) :
    Num.min (Num.lit 1) (Num.div el d) = Num.lit 1 := by
  cases d with
  | nan => simp [Num.isFinite] at hfin
  | inf s => simp [Num.isFinite] at hfin
  | fin q =>
    have hq : 0 < q := by simpa [Num.lt, Num.lit] using hd
    cases el with
    | nan => simp [Num.ge] at hel
    | inf b =>
      cases b
      · simp [Num.div, Num.min, Num.lt, Num.lit, not_lt.mpr hq.le]
      · simp [Num.ge, Num.lt] at hel
    | fin a =>
      have hle : q ≤ a := by simpa [Num.ge, Num.lt] using hel
      exact min_one_div_of_le hq hle

/-- At an elapsed time of zero, with a duration above zero, the normalised time is
zero. -/
theorem time_eq_zero {d : Num} (hd : Num.lt (Num.lit 0) d = true) :
    Num.min (Num.lit 1) (Num.div (Num.lit 0) d) = Num.lit 0 := by
  cases d with
  | nan => simp [Num.lt, Num.lit] at hd
  | inf s => simp [Num.div, Num.min, Num.lt, Num.lit]
  | fin q =>
    have hq : 0 < q := by simpa [Num.lt, Num.lit] using hd
    simp [Num.div, Num.min, Num.lt, Num.lit, hq.ne', round_zero]

/-! ## Easing functions at the ends of the unit interval -/

theorem library_zero {f : Num → Num} (h : IsLibraryEasing f) : f (Num.lit 0) = Num.lit 0 := by
  rcases h with rfl | rfl | rfl | rfl <;> decide!

theorem library_one {f : Num → Num} (h : IsLibraryEasing f) : f (Num.lit 1) = Num.lit 1 := by
  rcases h with rfl | rfl | rfl | rfl <;> decide!

/-- C1: each of the four library easing functions returns exactly 0 at 0 and exactly 1
at 1. -/
theorem easing_endpoints :
    (linear (Num.lit 0) = Num.lit 0 ∧ linear (Num.lit 1) = Num.lit 1) ∧
    (easeInQuad (Num.lit 0) = Num.lit 0 ∧ easeInQuad (Num.lit 1) = Num.lit 1) ∧
    (easeOutQuad (Num.lit 0) = Num.lit 0 ∧ easeOutQuad (Num.lit 1) = Num.lit 1) ∧
    (easeInOutQuad (Num.lit 0) = Num.lit 0 ∧ easeInOutQuad (Num.lit 1) = Num.lit 1) := by
  decide!

/-! ## The final write of an animation -/

theorem get_set {L : Type} (cam : Camera L) (p : Property) (v : Vec3) :
    (cam.set p v).get p = v := by
  cases p <;> rfl

theorem step_cam {L : Type} (throws : L → Bool) (a : Animation) (cam : Camera L) (t : Num) :
    (a.step throws cam t).cam = cam.set a.property (a.sample t) := by
  unfold Animation.step; split_ifs <;> rfl

theorem sample_of_time_one {a : Animation} {t : Num} (ht : a.time t = Num.lit 1)
    (he : a.easing (Num.lit 1) = Num.lit 1)
    (hch : a.change.x.WF ∧ a.change.y.WF ∧ a.change.z.WF) :
    a.sample t = Vec3.add a.start a.change := by
  unfold Animation.sample Vec3.add
  rw [ht, he, mul_one_of_wf hch.1, mul_one_of_wf hch.2.1, mul_one_of_wf hch.2.2]

/-- C2 as stated fails: the easing `t => 0.5 * t` is sampled at `t = 1`, yet the step
writes `start + delta * 0.5`, not `start + delta`. -/
theorem final_write_any_easing_counterexample :
    Num.ge (Num.sub (Num.lit 1000) halfWayAnimation.startTime) halfWayAnimation.duration = true ∧
    halfWayAnimation.time (Num.lit 1000) = Num.lit 1 ∧
    (halfWayAnimation.step (quiet String) demoCamera (Num.lit 1000)).cam.position
      = ⟨Num.half, Num.half, Num.half⟩ ∧
    (halfWayAnimation.step (quiet String) demoCamera (Num.lit 1000)).cam.position
      ≠ Vec3.add halfWayAnimation.start halfWayAnimation.change := by
  decide!

/-- C2, amended: for every start and delta, every finite duration above zero and every
easing function that returns 1 at 1, a tick with `now - startTime >= duration` has
normalised time 1 and writes exactly `start + delta`, component by component, to the
animated property. -/
theorem final_write_of_easing_one {L : Type} (throws : L → Bool) (cam : Camera L)
    (p : Property) (start change : Vec3) (duration : Num) (easing : Num → Num)
    (startTime now : Num)
    (hd : Num.lt (Num.lit 0) duration = true) (hfin : duration.isFinite = true)
    (hch : change.x.WF ∧ change.y.WF ∧ change.z.WF)
    (he : easing (Num.lit 1) = Num.lit 1)
    (hel : Num.ge (Num.sub now startTime) duration = true) :
    (Camera.animateProperty p start change duration easing startTime).time now = Num.lit 1 ∧
    ((Camera.animateProperty p start change duration easing startTime).step
        throws cam now).cam.get p = Vec3.add start change ∧
    ∃ rest,
      ((Camera.animateProperty p start change duration easing startTime).step
        throws cam now).trace
      = Effect.write p Axis.x (Num.add start.x change.x)
        :: Effect.write p Axis.y (Num.add start.y change.y)
        :: Effect.write p Axis.z (Num.add start.z change.z) :: rest := by
  have ht : (Camera.animateProperty p start change duration easing startTime).time now
      = Num.lit 1 := time_eq_one hd hfin hel
  have hs := sample_of_time_one (a := Camera.animateProperty p start change duration easing
    startTime) ht he hch
  refine ⟨ht, ?_, ?_⟩
  · rw [step_cam]; exact (get_set cam p _).trans hs
  · unfold Animation.step Animation.writes
    rw [hs]
    split_ifs <;> exact ⟨_, rfl⟩

/-- Witness for C2 amended: the first step of the usage example at 1500 ms. -/
theorem final_write_of_easing_one_witness :
    demoMove.time (Num.lit 1500) = Num.lit 1 ∧
    (demoMove.step (quiet String) demoCamera (Num.lit 1500)).cam.get Property.position
      = Vec3.add demoMove.start demoMove.change :=
  have h := final_write_of_easing_one (quiet String) demoCamera Property.position
    demoMove.start demoMove.change (Num.lit 1500) easeInOutQuad (Num.lit 0) (Num.lit 1500)
    (by decide!) (by decide!) (by decide!) (by decide!) (by decide!)
  ⟨h.1, h.2.1⟩

/-! ## `moveTo` and `lookAt` -/

theorem set_position {L : Type} (cam : Camera L) (v : Vec3) :
    (cam.set Property.position v).position = v := rfl

theorem set_target {L : Type} (cam : Camera L) (v : Vec3) :
    (cam.set Property.target v).target = v := rfl

theorem fin_of_isFinite {x : Num} (h : x.isFinite = true) : ∃ q, x = Num.fin q := by
  cases x with
  | nan => simp [Num.isFinite] at h
  | inf s => simp [Num.isFinite] at h
  | fin q => exact ⟨q, rfl⟩

theorem sample_of_time_zero {a : Animation} {t : Num} (ht : a.time t = Num.lit 0)
    (he : a.easing (Num.lit 0) = Num.lit 0) (hs : a.start.WF)
    (hch : a.change.isFinite = true) : a.sample t = a.start := by
  simp only [Vec3.isFinite, Bool.and_eq_true] at hch
  obtain ⟨⟨hx, hy⟩, hz⟩ := hch
  obtain ⟨⟨_, wx⟩, ⟨_, wy⟩, ⟨_, wz⟩⟩ := hs
  obtain ⟨qx, hqx⟩ := fin_of_isFinite hx
  obtain ⟨qy, hqy⟩ := fin_of_isFinite hy
  obtain ⟨qz, hqz⟩ := fin_of_isFinite hz
  unfold Animation.sample
  rw [ht, he, hqx, hqy, hqz, mul_zero_of_fin, mul_zero_of_fin, mul_zero_of_fin,
    add_zero_of_wf wx, add_zero_of_wf wy, add_zero_of_wf wz]

theorem vec_sub_wf (a b : Vec3) :
    (Vec3.sub a b).x.WF ∧ (Vec3.sub a b).y.WF ∧ (Vec3.sub a b).z.WF :=
  ⟨sub_wf _ _, sub_wf _ _, sub_wf _ _⟩

theorem vec_add_sub_of_exact {n p : Vec3} (hn : n.WF) (h : Vec3.ExactSub n p) :
    Vec3.add p (Vec3.sub n p) = n := by
  obtain ⟨nx, ny, nz⟩ := n
  obtain ⟨px, py, pz⟩ := p
  obtain ⟨⟨_, wx⟩, ⟨_, wy⟩, ⟨_, wz⟩⟩ := hn
  obtain ⟨ex, ey, ez⟩ := h
  simp only [Vec3.add, Vec3.sub] at *
  rw [add_sub_of_exact wx ex, add_sub_of_exact wy ey, add_sub_of_exact wz ez]

/-- The two ends of an animation that starts at `p` and is given the change `n - p`. -/
theorem endpoints_of_capture (prop : Property) (p n : Vec3) (duration : Num)
    (easing : Num → Num) (now : Num)
    (hlib : IsLibraryEasing easing) (hd : Num.lt (Num.lit 0) duration = true)
    (hfin : duration.isFinite = true) (hp : p.WF) (hch : (Vec3.sub n p).isFinite = true) :
    (∀ t, Num.sub t now = Num.lit 0 →
      (Camera.animateProperty prop p (Vec3.sub n p) duration easing now).sample t = p) ∧
    (∀ t, Num.ge (Num.sub t now) duration = true →
      (Camera.animateProperty prop p (Vec3.sub n p) duration easing now).sample t
        = Vec3.add p (Vec3.sub n p)) := by
  constructor
  · intro t ht
    apply sample_of_time_zero _ (library_zero hlib) hp hch
    show Num.min (Num.lit 1) (Num.div (Num.sub t now) duration) = Num.lit 0
    rw [ht]; exact time_eq_zero hd
  · intro t ht
    exact sample_of_time_one (time_eq_one hd hfin ht) (library_one hlib) (vec_sub_wf n p)

/-- C3 as stated fails: from `{0, 10, 30}`, `moveTo({0.1, 0.1, 0.1}, 1500)` sampled at
1500 ms leaves `y = 10 + (0.1 - 10)`, which in binary64 arithmetic is
`0.09999999999999964…`, not `0.1`. -/
theorem moveTo_exact_target_counterexample :
    Num.ge (Num.sub (Num.lit 1500) tenthMove.startTime) tenthMove.duration = true ∧
    (tenthMove.step (quiet String) demoCamera (Num.lit 1500)).cam.position.y
      = Num.fin (7205759403792768 / 2 ^ (56 : ℕ)) ∧
    tenth.y = Num.fin (7205759403792794 / 2 ^ (56 : ℕ)) ∧
    (tenthMove.step (quiet String) demoCamera (Num.lit 1500)).cam.position ≠ tenth := by
  decide!

/-- C3, amended: for a camera whose position `p` and a `newPosition` `n` that are finite
binary64 vectors with a finite difference, every finite duration above zero and each
library easing, `moveTo(n, duration, easing)` captures `start = p` and
`delta = n - p` at call time; a tick at elapsed time 0 leaves position equal to `p`, a
tick at elapsed time `>= duration` leaves position equal to `p + (n - p)`, and that is
exactly `n` whenever the subtraction `n - p` is exact in every component.  `lookAt`
does the same for `target`. -/
theorem moveTo_lookAt_endpoints {L : Type} (throws : L → Bool) (cam : Camera L) (n : Vec3)
    (duration : Num) (easing : Num → Num) (now : Num)
    (hlib : IsLibraryEasing easing) (hd : Num.lt (Num.lit 0) duration = true)
    (hfin : duration.isFinite = true) (hn : n.WF) :
    (cam.position.WF → (Vec3.sub n cam.position).isFinite = true →
      (cam.moveTo now n (some duration) (some easing)).start = cam.position ∧
      (cam.moveTo now n (some duration) (some easing)).change = Vec3.sub n cam.position ∧
      (∀ (later : Camera L) (t : Num), Num.sub t now = Num.lit 0 →
        ((cam.moveTo now n (some duration) (some easing)).step throws later t).cam.position
          = cam.position) ∧
      (∀ (later : Camera L) (t : Num), Num.ge (Num.sub t now) duration = true →
        ((cam.moveTo now n (some duration) (some easing)).step throws later t).cam.position
          = Vec3.add cam.position (Vec3.sub n cam.position)) ∧
      (Vec3.ExactSub n cam.position →
        ∀ (later : Camera L) (t : Num), Num.ge (Num.sub t now) duration = true →
        ((cam.moveTo now n (some duration) (some easing)).step throws later t).cam.position
          = n)) ∧
    (cam.target.WF → (Vec3.sub n cam.target).isFinite = true →
      (cam.lookAt now n (some duration) (some easing)).start = cam.target ∧
      (cam.lookAt now n (some duration) (some easing)).change = Vec3.sub n cam.target ∧
      (∀ (later : Camera L) (t : Num), Num.sub t now = Num.lit 0 →
        ((cam.lookAt now n (some duration) (some easing)).step throws later t).cam.target
          = cam.target) ∧
      (∀ (later : Camera L) (t : Num), Num.ge (Num.sub t now) duration = true →
        ((cam.lookAt now n (some duration) (some easing)).step throws later t).cam.target
          = Vec3.add cam.target (Vec3.sub n cam.target)) ∧
      (Vec3.ExactSub n cam.target →
        ∀ (later : Camera L) (t : Num), Num.ge (Num.sub t now) duration = true →
        ((cam.lookAt now n (some duration) (some easing)).step throws later t).cam.target
          = n)) := by
  constructor
  · intro hp hch
    have h := endpoints_of_capture Property.position cam.position n duration easing now
      hlib hd hfin hp hch
    refine ⟨rfl, rfl, ?_, ?_, ?_⟩
    · intro later t ht
      rw [step_cam]; exact (set_position later _).trans (h.1 t ht)
    · intro later t ht
      rw [step_cam]; exact (set_position later _).trans (h.2 t ht)
    · intro hex later t ht
      rw [step_cam]
      exact ((set_position later _).trans (h.2 t ht)).trans (vec_add_sub_of_exact hn hex)
  · intro hp hch
    have h := endpoints_of_capture Property.target cam.target n duration easing now
      hlib hd hfin hp hch
    refine ⟨rfl, rfl, ?_, ?_, ?_⟩
    · intro later t ht
      rw [step_cam]; exact (set_target later _).trans (h.1 t ht)
    · intro later t ht
      rw [step_cam]; exact (set_target later _).trans (h.2 t ht)
    · intro hex later t ht
      rw [step_cam]
      exact ((set_target later _).trans (h.2 t ht)).trans (vec_add_sub_of_exact hn hex)

/-- Witness for C3 amended: from `{0, 10, 30}`, `moveTo({5, 5, 5}, 1500)` leaves
`{0, 10, 30}` at elapsed time 0 and exactly `{5, 5, 5}` at 1500 ms. -/
theorem moveTo_lookAt_endpoints_witness :
    (demoMove.step (quiet String) demoCamera (Num.lit 0)).cam.position
      = ⟨Num.lit 0, Num.lit 10, Num.lit 30⟩ ∧
    (demoMove.step (quiet String) demoCamera (Num.lit 1500)).cam.position
      = ⟨Num.lit 5, Num.lit 5, Num.lit 5⟩ :=
  have h := (moveTo_lookAt_endpoints (quiet String) demoCamera
    ⟨Num.lit 5, Num.lit 5, Num.lit 5⟩ (Num.lit 1500) easeInOutQuad (Num.lit 0)
    (Or.inr (Or.inr (Or.inr rfl))) (by decide!) (by decide!) (by decide!)).1
    (by decide!) (by decide!)
  ⟨h.2.2.1 demoCamera (Num.lit 0) (by decide!),
   h.2.2.2.2 (by decide!) demoCamera (Num.lit 1500) (by decide!)⟩

/-! ## The completion event -/

theorem invokeEach_invokes {L : Type} (throws : L → Bool) (cam : Camera L) :
    ∀ (ls : List L), ∀ e ∈ (invokeEach throws cam ls).1, Effect.isInvoke e = true
  | [], e, h => by simp [invokeEach] at h
  | l :: ls, e, h => by
    unfold invokeEach at h
    split_ifs at h
    · simp only [List.mem_singleton] at h; rw [h]; rfl
    · simp only [List.mem_cons] at h
      rcases h with h | h
      · rw [h]; rfl
      · exact invokeEach_invokes throws cam ls e h

/-- The trace of `triggerEvent` is the entry into the method followed by listener
invocations only. -/
theorem triggerEvent_shape {L : Type} (throws : L → Bool) (cam : Camera L) (event : String) :
    ∃ inv, (cam.triggerEvent throws event).1 = Effect.trigger event :: inv ∧
      ∀ e ∈ inv, Effect.isInvoke e = true := by
  unfold Camera.triggerEvent
  cases cam.slot event with
  | undefined => exact ⟨[], rfl, by simp⟩
  | inherited => exact ⟨[], rfl, by simp⟩
  | array ls => exact ⟨_, rfl, invokeEach_invokes throws cam ls⟩

theorem countP_trigger_of_invokes {L : Type} (event : String) :
    ∀ (inv : List (Effect L)), (∀ e ∈ inv, Effect.isInvoke e = true) →
      inv.countP (Effect.isTrigger event) = 0
  | [], _ => rfl
  | e :: es, h => by
    have he : Effect.isInvoke e = true := h e (List.mem_cons_self _ _)
    have hes := countP_trigger_of_invokes event es
      (fun x hx => h x (List.mem_cons_of_mem _ hx))
    cases e <;> simp [Effect.isInvoke] at he
    simp [List.countP_cons, Effect.isTrigger, hes]

theorem countP_trigger_writes {L : Type} (a : Animation) (cam : Camera L) (t : Num)
    (event : String) : (a.writes cam t).countP (Effect.isTrigger event) = 0 := by
  unfold Animation.writes
  split_ifs <;> simp [List.countP_cons, Effect.isTrigger]

theorem writes_congr {L : Type} (a : Animation) {c1 c2 : Camera L} (h : c1.debug = c2.debug)
    (t : Num) : a.writes c1 t = a.writes c2 t := by
  unfold Animation.writes; rw [h]

theorem set_debug {L : Type} (cam : Camera L) (p : Property) (v : Vec3) :
    (cam.set p v).debug = cam.debug := by
  cases p <;> rfl

/-- The test `time < 1` of `step`, in terms of the elapsed time. -/
theorem step_test {a : Animation} {t : Num}
    (hd : Num.lt (Num.lit 0) a.duration = true) (hwf : a.duration.WF)
    (hel : (Num.sub t a.startTime).isFinite = true) :
    Num.lt (a.time t) (Num.lit 1) = !(Num.ge (Num.sub t a.startTime) a.duration) :=
  time_lt_one_iff hd hwf hel (sub_wf _ _)

theorem step_running {L : Type} (throws : L → Bool) {a : Animation} (cam : Camera L) {t : Num}
    (h : Num.lt (a.time t) (Num.lit 1) = true) :
    a.step throws cam t =
      { cam := cam.set a.property (a.sample t)
        trace := a.writes cam t ++ [Effect.requestFrame]
        again := true
        outcome := Outcome.normal } := by
  unfold Animation.step; rw [if_pos h]

theorem step_complete {L : Type} (throws : L → Bool) {a : Animation} (cam : Camera L) {t : Num}
    (h : Num.lt (a.time t) (Num.lit 1) = false) :
    a.step throws cam t =
      { cam := cam.set a.property (a.sample t)
        trace := a.writes cam t ++
          ((cam.set a.property (a.sample t)).triggerEvent throws a.completeEvent).1
        again := false
        outcome :=
          ((cam.set a.property (a.sample t)).triggerEvent throws a.completeEvent).2 } := by
  unfold Animation.step; rw [if_neg (by simp [h])]

/-- While no tick reaches the duration, every tick is delivered, none triggers an
event, and a request stays outstanding. -/
theorem run_running {L : Type} (throws : L → Bool) (a : Animation)
    (htest : ∀ t, (Num.sub t a.startTime).isFinite = true →
      Num.lt (a.time t) (Num.lit 1) = !(Num.ge (Num.sub t a.startTime) a.duration)) :
    ∀ (ticks : List Num) (cam : Camera L),
      (∀ t ∈ ticks, (Num.sub t a.startTime).isFinite = true) →
      (∀ t ∈ ticks, Num.ge (Num.sub t a.startTime) a.duration = false) →
      (a.run throws cam ticks).again = true ∧
      (a.run throws cam ticks).cam.debug = cam.debug ∧
      a.delivered throws cam ticks = ticks.length ∧
      ∀ event, (a.run throws cam ticks).trace.countP (Effect.isTrigger event) = 0
  | [], cam, _, _ => ⟨rfl, rfl, rfl, fun _ => rfl⟩
  | t :: ts, cam, hfin, hlt => by
    have h1 : Num.lt (a.time t) (Num.lit 1) = true := by
      rw [htest t (hfin t (List.mem_cons_self _ _)), hlt t (List.mem_cons_self _ _)]; rfl
    have hstep := step_running throws cam h1
    have ih := run_running throws a htest ts (cam.set a.property (a.sample t))
      (fun x hx => hfin x (List.mem_cons_of_mem _ hx))
      (fun x hx => hlt x (List.mem_cons_of_mem _ hx))
    unfold Animation.run Animation.delivered
    rw [hstep]
    simp only [if_true]
    refine ⟨ih.1, ?_, ?_, ?_⟩
    · rw [ih.2.1, set_debug]
    · rw [ih.2.2.1, List.length_cons]; omega
    · intro event
      rw [List.countP_append, List.countP_append, countP_trigger_writes, ih.2.2.2 event]
      simp [List.countP_cons, Effect.isTrigger]

/-- The first tick that reaches the duration ends the run. -/
theorem run_complete {L : Type} (throws : L → Bool) (a : Animation)
    (htest : ∀ t, (Num.sub t a.startTime).isFinite = true →
      Num.lt (a.time t) (Num.lit 1) = !(Num.ge (Num.sub t a.startTime) a.duration)) :
    ∀ (before : List Num) (cam : Camera L) (t : Num) (after : List Num),
      (∀ s ∈ before, (Num.sub s a.startTime).isFinite = true) →
      (Num.sub t a.startTime).isFinite = true →
      (∀ s ∈ before, Num.ge (Num.sub s a.startTime) a.duration = false) →
      Num.ge (Num.sub t a.startTime) a.duration = true →
      (a.run throws cam (before ++ t :: after)).again = false ∧
      a.delivered throws cam (before ++ t :: after) = before.length + 1 ∧
      (a.run throws cam (before ++ t :: after)).trace
        = (a.run throws cam before).trace
          ++ (a.step throws (a.run throws cam before).cam t).trace
  | [], cam, t, after, _, htf, _, hge => by
    have h1 : Num.lt (a.time t) (Num.lit 1) = false := by
      rw [htest t htf, hge]; rfl
    have hstep := step_complete throws cam h1
    simp only [List.nil_append, Animation.run, Animation.delivered, hstep]
    simp
  | s :: before, cam, t, after, hfin, htf, hlt, hge => by
    have h1 : Num.lt (a.time s) (Num.lit 1) = true := by
      rw [htest s (hfin s (List.mem_cons_self _ _)), hlt s (List.mem_cons_self _ _)]; rfl
    have hstep := step_running throws cam h1
    have ih := run_complete throws a htest before (cam.set a.property (a.sample s)) t after
      (fun x hx => hfin x (List.mem_cons_of_mem _ hx)) htf
      (fun x hx => hlt x (List.mem_cons_of_mem _ hx)) hge
    have e : (s :: before) ++ t :: after = s :: (before ++ t :: after) := rfl
    rw [e]
    unfold Animation.run Animation.delivered
    rw [hstep]
    simp only [if_true]
    refine ⟨ih.1, ?_, ?_⟩
    · rw [ih.2.1, List.length_cons]; omega
    · rw [ih.2.2]; simp only [List.append_assoc]

theorem split_at_first {α : Type} (p : α → Bool) :
    ∀ (l : List α), l.any p = true →
      ∃ before t after, l = before ++ t :: after ∧ (∀ s ∈ before, p s = false) ∧ p t = true
  | [], h => by simp at h
  | x :: xs, h => by
    by_cases hx : p x = true
    · exact ⟨[], x, xs, rfl, by simp, hx⟩
    · have hxs : xs.any p = true := by
        simp only [List.any_cons, Bool.or_eq_true] at h
        rcases h with h | h
        · exact absurd h hx
        · exact h
      obtain ⟨before, t, after, e, hb, ht⟩ := split_at_first p xs hxs
      refine ⟨x :: before, t, after, by rw [e]; rfl, ?_, ht⟩
      intro s hs
      simp only [List.mem_cons] at hs
      rcases hs with hs | hs
      · rw [hs]; simpa using hx
      · exact hb s hs

/-- C4: for an animation with a duration above zero and frame timestamps, delivered
only on request, whose elapsed time `now - startTime` is finite, the event
`property + 'Complete'` is triggered exactly once if some tick reaches
`elapsed >= duration` and never otherwise; it is triggered on the last tick the step
processes (the first one that reaches the duration), after that tick's writes to x, y
and z, and only listener invocations follow it: no further tick is requested. -/
theorem completion_fires_once {L : Type} (throws : L → Bool) (a : Animation) (cam : Camera L)
    (ticks : List Num)
    (hd : Num.lt (Num.lit 0) a.duration = true) (hwf : a.duration.WF)
    (hticks : ∀ t ∈ ticks, (Num.sub t a.startTime).isFinite = true) :
    (ticks.any (fun t => Num.ge (Num.sub t a.startTime) a.duration) = true →
      (a.run throws cam ticks).trace.countP (Effect.isTrigger a.completeEvent) = 1 ∧
      (a.run throws cam ticks).again = false ∧
      ∃ (before : List Num) (t : Num) (after : List Num) (pre logs inv : List (Effect L)),
        ticks = before ++ t :: after ∧
        (∀ s ∈ before, Num.ge (Num.sub s a.startTime) a.duration = false) ∧
        Num.ge (Num.sub t a.startTime) a.duration = true ∧
        a.delivered throws cam ticks = before.length + 1 ∧
        pre = (a.run throws cam before).trace ∧
        (a.run throws cam ticks).trace
          = pre ++ [Effect.write a.property Axis.x (a.sample t).x,
                    Effect.write a.property Axis.y (a.sample t).y,
                    Effect.write a.property Axis.z (a.sample t).z]
              ++ logs ++ Effect.trigger a.completeEvent :: inv ∧
        logs = (if cam.debug then [Effect.log a.property (a.sample t)] else []) ∧
        (∀ e ∈ inv, Effect.isInvoke e = true)) ∧
    (ticks.any (fun t => Num.ge (Num.sub t a.startTime) a.duration) = false →
      (a.run throws cam ticks).trace.countP (Effect.isTrigger a.completeEvent) = 0 ∧
      (a.run throws cam ticks).again = true ∧
      a.delivered throws cam ticks = ticks.length) := by
  have htest : ∀ t, (Num.sub t a.startTime).isFinite = true →
      Num.lt (a.time t) (Num.lit 1) = !(Num.ge (Num.sub t a.startTime) a.duration) :=
    fun t ht => step_test hd hwf ht
  constructor
  · intro hany
    obtain ⟨before, t, after, e, hb, ht⟩ := split_at_first _ ticks hany
    have hbf : ∀ s ∈ before, (Num.sub s a.startTime).isFinite = true := fun s hs' =>
      hticks s (by rw [e]; exact List.mem_append_left _ hs')
    have htf : (Num.sub t a.startTime).isFinite = true :=
      hticks t (by rw [e]; exact List.mem_append_right _ (List.mem_cons_self _ _))
    have hrun := run_complete throws a htest before cam t after hbf htf hb ht
    have hpre := run_running throws a htest before cam hbf hb
    have h1 : Num.lt (a.time t) (Num.lit 1) = false := by rw [htest t htf, ht]; rfl
    obtain ⟨inv, hinv, hall⟩ := triggerEvent_shape throws
      ((a.run throws cam before).cam.set a.property (a.sample t)) a.completeEvent
    have hw : a.writes (a.run throws cam before).cam t = a.writes cam t :=
      writes_congr a hpre.2.1 t
    have htrace : (a.run throws cam ticks).trace
        = (a.run throws cam before).trace ++ (a.writes cam t
            ++ Effect.trigger a.completeEvent :: inv) := by
      rw [e, hrun.2.2, step_complete throws _ h1]
      simp only [hinv, hw]
    refine ⟨?_, by rw [e]; exact hrun.1, before, t, after, _, _, inv, e, hb, ht,
      by rw [e]; exact hrun.2.1, rfl, ?_, rfl, hall⟩
    · rw [htrace, List.countP_append, List.countP_append, hpre.2.2.2, countP_trigger_writes,
        List.countP_cons, countP_trigger_of_invokes _ inv hall]
      simp [Effect.isTrigger]
    · rw [htrace]; unfold Animation.writes; simp only [List.append_assoc]
  · intro hnone
    have hlt : ∀ t ∈ ticks, Num.ge (Num.sub t a.startTime) a.duration = false := by
      intro t ht
      have := List.any_eq_false.mp hnone t ht
      simpa using this
    have h := run_running throws a htest ticks cam hticks hlt
    exact ⟨h.2.2.2 _, h.1, h.2.2.1⟩

/-- Witness for C4: the first step of the usage example with frames at 0, 500, 1000,
1500 and 2000 ms fires `positionComplete` once, at the fourth frame. -/
theorem completion_fires_once_witness :
    (demoMove.run (quiet String) demoCamera demoTicks).trace.countP
        (Effect.isTrigger demoMove.completeEvent) = 1 ∧
    (demoMove.run (quiet String) demoCamera demoTicks).again = false :=
  have h := (completion_fires_once (quiet String) demoMove demoCamera demoTicks
    (by decide!) (by decide!) (by decide!)).1 (by decide!)
  ⟨h.1, h.2.1⟩

/-! ## Listeners -/

theorem invokeEach_quiet {L : Type} (throws : L → Bool) (cam : Camera L) :
    ∀ (ls : List L), (∀ l ∈ ls, throws l = false) →
      invokeEach throws cam ls = (ls.map (fun l => Effect.invoke l cam), Outcome.normal)
  | [], _ => rfl
  | l :: ls, h => by
    have hl : throws l = false := h l (List.mem_cons_self _ _)
    have ih := invokeEach_quiet throws cam ls (fun x hx => h x (List.mem_cons_of_mem _ hx))
    unfold invokeEach
    rw [hl, ih]
    simp

theorem slot_of_not_proto {L : Type} (cam : Camera L) {e : String} (he : e ∉ protoKeys) :
    cam.slot e = match cam.listeners e with
      | some ls => Slot.array ls
      | none => Slot.undefined := by
  unfold Camera.slot
  cases cam.listeners e with
  | none => simp [he]
  | some ls => rfl

/-- The listeners of a name not inherited from `Object.prototype`, after one `on`. -/
theorem on_listeners {L : Type} (cam : Camera L) (name : String) (cb : L) {e : String}
    (he : e ∉ protoKeys) :
    (cam.on name cb).2.listeners e
      = if name = e then some ((cam.listeners e).getD [] ++ [cb]) else cam.listeners e := by
  by_cases hne : name = e
  · subst hne
    rw [if_pos rfl]
    unfold Camera.on
    rw [slot_of_not_proto cam he]
    cases h : cam.listeners name with
    | none => simp
    | some ls => simp
  · rw [if_neg hne]
    have hne' : ¬ e = name := fun h => hne h.symm
    unfold Camera.on
    cases cam.slot name with
    | undefined => simp [hne']
    | inherited => rfl
    | array ls => simp [hne']

theorem registered_cons {L : Type} (r : String × L) (rs : List (String × L)) (e : String) :
    registered (r :: rs) e = if r.1 = e then r.2 :: registered rs e else registered rs e := by
  unfold registered
  by_cases h : r.1 = e
  · simp [List.filter_cons, h]
  · simp [List.filter_cons, h]

theorem onAll_listeners {L : Type} {e : String} (he : e ∉ protoKeys) :
    ∀ (regs : List (String × L)) (cam : Camera L),
      (cam.onAll regs).listeners e
        = match registered regs e with
          | [] => cam.listeners e
          | l :: ls => some ((cam.listeners e).getD [] ++ l :: ls)
  | [], cam => by simp [Camera.onAll, registered]
  | r :: rs, cam => by
    unfold Camera.onAll
    rw [onAll_listeners he rs, on_listeners cam r.1 r.2 he, registered_cons]
    by_cases h : r.1 = e
    · simp only [if_pos h]
      cases registered rs e with
      | nil => simp
      | cons l ls => simp
    · simp only [if_neg h]

/-- C5 as stated fails in two ways.  With the registrations of the usage example, if
the first listener of `positionComplete` throws, `forEach` is left at once and the
second listener registered under that name is not invoked.  And on a camera on which
nothing was registered, `triggerEvent('toString')` raises a `TypeError`, as does
`on('toString', ...)`: `this.listeners` is an object literal, and
`this.listeners['toString']` is the function inherited from `Object.prototype`. -/
theorem trigger_registered_counterexample :
    (registered demoRegistrations "positionComplete" = ["log position", "onComplete 1"] ∧
      (((Camera.create none none none).onAll demoRegistrations).triggerEvent
          (throwsOn "log position") "positionComplete").1.length = 2 ∧
      (((Camera.create none none none).onAll demoRegistrations).triggerEvent
          (throwsOn "log position") "positionComplete").2 = Outcome.thrown) ∧
    (registered ([] : List (String × String)) "toString" = [] ∧
      ((demoCamera.onAll []).triggerEvent (quiet String) "toString").2 = Outcome.typeError ∧
      (demoCamera.on "toString" "listener").1 = Outcome.typeError) := by
  decide!

/-- C5, amended: for every sequence of `on(event, listener)` calls on a new camera and
every event name `e` that is not a property name inherited from `Object.prototype`,
if none of the listeners registered under `e` throws, `triggerEvent(e)` invokes exactly
the listeners registered under `e`, once per registration, in registration order, each
with the camera as argument, invokes no other listener, and returns normally; with no
registration under `e` it invokes nothing. -/
theorem trigger_invokes_registered {L : Type} (throws : L → Bool)
    (position target : Option Vec3) (debug : Option Bool) (regs : List (String × L))
    (e : String) (he : e ∉ protoKeys) (hq : ∀ l ∈ registered regs e, throws l = false) :
    ((Camera.create position target debug).onAll regs).triggerEvent throws e
      = (Effect.trigger e :: (registered regs e).map
            (fun l => Effect.invoke l ((Camera.create position target debug).onAll regs)),
          Outcome.normal) ∧
    (registered regs e = [] →
      ((Camera.create position target debug).onAll regs).triggerEvent throws e
        = ([Effect.trigger e], Outcome.normal)) := by
  have hl := onAll_listeners he regs (Camera.create position target debug)
  have key : ((Camera.create position target debug).onAll regs).triggerEvent throws e
      = (Effect.trigger e :: (registered regs e).map
            (fun l => Effect.invoke l ((Camera.create position target debug).onAll regs)),
          Outcome.normal) := by
    unfold Camera.triggerEvent
    rw [slot_of_not_proto _ he, hl]
    have hnone : (Camera.create position target debug : Camera L).listeners e = none := rfl
    cases hr : registered regs e with
    | nil => simp [hnone]
    | cons l ls =>
      rw [hr] at hq
      simp only [hnone, Option.getD_none, List.nil_append]
      rw [invokeEach_quiet throws _ _ hq]
  refine ⟨key, fun hr => ?_⟩
  rw [key, hr]; rfl

/-- Witness for C5 amended: with the registrations of the usage example,
`triggerEvent('positionComplete')` invokes the two listeners registered under that
name, in order, and not the one registered under `targetComplete`. -/
theorem trigger_invokes_registered_witness :
    registered demoRegistrations "positionComplete" = ["log position", "onComplete 1"] ∧
    (((Camera.create none none none).onAll demoRegistrations).triggerEvent (quiet String)
        "positionComplete").2 = Outcome.normal ∧
    (((Camera.create none none none).onAll demoRegistrations).triggerEvent (quiet String)
        "positionComplete").1.length = 3 :=
  have h := (trigger_invokes_registered (quiet String) none none none demoRegistrations
    "positionComplete" (by decide!) (by decide!)).1
  ⟨by decide!, by rw [h], by rw [h]; rfl⟩

/-! ## AnimationManager -/

theorem run_cons {C A : Type} (s : Session C A) (c : Call A) (cs : List (Call A)) :
    s.run (c :: cs) = (s.exec c).run cs := rfl

theorem nextAnimation_cons {C A : Type} (m : AnimationManager C A) (x : QueuedStep A)
    (rest : List (QueuedStep A)) (h : m.queue = x :: rest) :
    m.nextAnimation = ({ m with isAnimating := true, queue := rest }, [x]) := by
  unfold AnimationManager.nextAnimation; rw [h]

theorem nextAnimation_nil {C A : Type} (m : AnimationManager C A) (h : m.queue = []) :
    m.nextAnimation = ({ m with isAnimating := false }, []) := by
  unfold AnimationManager.nextAnimation; rw [h]

/-- What `nextAnimation` invokes and what it leaves queued make up the queue it found,
and it leaves the manager idle only with an empty queue. -/
theorem nextAnimation_spec {C A : Type} (m : AnimationManager C A) :
    m.nextAnimation.2 ++ m.nextAnimation.1.queue = m.queue ∧
    (m.nextAnimation.1.isAnimating = false → m.nextAnimation.1.queue = []) ∧
    m.nextAnimation.2.length ≤ 1 ∧
    (m.nextAnimation.1.isAnimating = true ↔ m.nextAnimation.2.length = 1) := by
  cases h : m.queue with
  | nil => rw [nextAnimation_nil m h]; simp [h]
  | cons x rest => rw [nextAnimation_cons m x rest h]; simp

theorem addAnimation_spec {C A : Type} (m : AnimationManager C A) (cb : A)
    (d : Option Num) (e : Option (Num → Num)) :
    (m.addAnimation cb d e).2 ++ (m.addAnimation cb d e).1.queue
      = m.queue ++ [{ callback := cb, duration := d.getD (Num.lit 1000),
                      easing := e.getD easeInOutQuad }] ∧
    ((m.addAnimation cb d e).1.isAnimating = false → (m.addAnimation cb d e).1.queue = []) ∧
    (m.addAnimation cb d e).1.isAnimating = true ∧
    (m.addAnimation cb d e).2.length = (if m.isAnimating then 0 else 1) := by
  unfold AnimationManager.addAnimation
  cases hm : m.isAnimating with
  | true => simp
  | false =>
    simp only [Bool.not_false, if_true]
    generalize ({ callback := cb, duration := d.getD (Num.lit 1000),
                  easing := e.getD easeInOutQuad } : QueuedStep A) = st
    cases hq : m.queue with
    | nil =>
      rw [nextAnimation_cons _ st [] (by simp [hq])]
      simp
    | cons x rest =>
      rw [nextAnimation_cons _ x (rest ++ [st]) (by simp [hq])]
      simp

theorem enqueued_of_not_add {A : Type} (c : Call A) (cs : List (Call A))
    (h : c.isAdd = false) : enqueued (c :: cs) = enqueued cs := by
  cases c with
  | addAnimation cb d e => simp [Call.isAdd] at h
  | resetQueue => rfl
  | onComplete i => rfl

/-- Without `resetQueue`, the actions invoked so far followed by the queue are the
steps enqueued so far, in the order of their enqueueing. -/
theorem run_fifo {C A : Type} :
    ∀ (calls : List (Call A)) (s : Session C A) (done : List (QueuedStep A)),
      (∀ c ∈ calls, c.isReset = false) →
      s.invoked ++ s.manager.queue = done →
      (s.run calls).invoked ++ (s.run calls).manager.queue = done ++ enqueued calls
  | [], s, done, _, h => by simpa [Session.run, enqueued] using h
  | c :: cs, s, done, hr, h => by
    have hcs : ∀ c ∈ cs, c.isReset = false := fun x hx => hr x (List.mem_cons_of_mem _ hx)
    rw [run_cons]
    cases c with
    | resetQueue => exact absurd (hr _ (List.mem_cons_self _ _)) (by simp [Call.isReset])
    | addAnimation cb d e =>
      have hs := (addAnimation_spec s.manager cb d e).1
      have := run_fifo cs (s.exec (Call.addAnimation cb d e))
        (done ++ [{ callback := cb, duration := d.getD (Num.lit 1000),
                    easing := e.getD easeInOutQuad }]) hcs
        (by simp only [Session.exec]; rw [List.append_assoc, hs, ← List.append_assoc, h])
      rw [this]; simp [enqueued]
    | onComplete i =>
      have hs := (nextAnimation_spec s.manager).1
      have := run_fifo cs (s.exec (Call.onComplete i)) done hcs
        (by
          simp only [Session.exec]
          split_ifs
          · simp only; rw [List.append_assoc, hs, h]
          · exact h)
      rw [this]; rfl

/-- C6: for every sequence of `addAnimation` calls and continuation invocations on a new
manager, with no `resetQueue`, the actions the manager has invoked are an initial
segment of the steps enqueued, in the order of their enqueueing, and the rest of the
enqueued steps is the queue: each action is invoked in turn, none out of order and none
twice, whatever the timing of the completions. -/
theorem actions_in_fifo_order {C A : Type} (camera : C) (calls : List (Call A))
    (hr : ∀ c ∈ calls, c.isReset = false) :
    ((Session.create camera).run calls).invoked
        ++ ((Session.create camera).run calls).manager.queue = enqueued calls ∧
    ((Session.create camera).run calls).invoked <+: enqueued calls := by
  have h := run_fifo calls (Session.create camera : Session C A) [] hr rfl
  simp only [List.nil_append] at h
  exact ⟨h, ⟨_, h⟩⟩

/-- Witness for C6: `A`, `B`, `C` with interleaved and repeated completions are invoked
in that order. -/
theorem actions_in_fifo_order_witness :
    ((Session.create ()).run demoCalls).invoked.map QueuedStep.callback = ["A", "B", "C"] ∧
    ((Session.create ()).run demoCalls).invoked <+: enqueued demoCalls :=
  ⟨by decide!, (actions_in_fifo_order () demoCalls (by decide!)).2⟩

/-! ## At most one active step -/

theorem active_def {C A : Type} (s : Session C A) :
    s.active = (List.range s.invoked.length).filter (fun i => decide (i ∉ s.completed)) := rfl

/-- Invoking one more action adds its index to the active steps, when every completed
index belongs to an earlier invocation. -/
theorem active_invoke {C A : Type} (m m' : AnimationManager C A) (inv : List (QueuedStep A))
    (x : QueuedStep A) (done : List Nat) (h : ∀ i ∈ done, i < inv.length) :
    Session.active { manager := m', invoked := inv ++ [x], completed := done }
      = Session.active { manager := m, invoked := inv, completed := done } ++ [inv.length] := by
  simp only [active_def, List.length_append, List.length_singleton, List.range_succ,
    List.filter_append]
  congr 1
  have : inv.length ∉ done := fun hc => absurd (h _ hc) (lt_irrefl _)
  simp [this]

/-- Invoking the continuation `i` removes `i` from the active steps. -/
theorem active_complete {C A : Type} (m m' : AnimationManager C A) (inv : List (QueuedStep A))
    (done : List Nat) (i : Nat) :
    Session.active { manager := m', invoked := inv, completed := done ++ [i] }
      = (Session.active { manager := m, invoked := inv, completed := done }).filter
          (fun j => decide (j ≠ i)) := by
  simp only [active_def, List.filter_filter]
  apply List.filter_congr
  intro j _
  simp only [List.mem_append, List.mem_singleton, not_or, Bool.decide_and, decide_not]
  exact Bool.and_comm _ _

theorem filter_ne_of_length_le_one (l : List Nat) (i : Nat) (hl : l.length ≤ 1)
    (hi : i ∈ l) : l.filter (fun j => decide (j ≠ i)) = [] := by
  match l, hl, hi with
  | [x], _, hi =>
    have : i = x := by simpa using hi
    subst this; simp

theorem serial_exec {C A : Type} (s : Session C A) (c : Call A) (hs : s.Serial)
    (hnd : (s.exec c).completed.Nodup) : (s.exec c).Serial := by
  obtain ⟨hk, hidle, hone⟩ := hs
  cases c with
  | resetQueue => exact ⟨hk, hidle, hone⟩
  | addAnimation cb d e =>
    have hspec := addAnimation_spec s.manager cb d e
    cases hm : s.manager.isAnimating with
    | true =>
      have hlen : (s.manager.addAnimation cb d e).2 = [] := by
        have := hspec.2.2.2; rw [hm] at this
        exact List.length_eq_zero.mp (by simpa using this)
      refine ⟨?_, ?_, ?_⟩
      · intro i hi
        simp only [Session.exec, hlen, List.append_nil] at hi ⊢
        exact hk i hi
      · intro h; rw [show (s.exec (Call.addAnimation cb d e)).manager.isAnimating = true from
          hspec.2.2.1] at h
        exact absurd h (by simp)
      · simp only [Session.exec, hlen, List.append_nil, active_def] at hone ⊢
        exact hone
    | false =>
      have hlen : (s.manager.addAnimation cb d e).2.length = 1 := by
        have := hspec.2.2.2; rw [hm] at this; simpa using this
      obtain ⟨x, hx⟩ := List.length_eq_one.mp hlen
      have hact : s.active = [] := hidle hm
      have hnew : (s.exec (Call.addAnimation cb d e)).active = s.active ++ [s.invoked.length] := by
        simp only [Session.exec, hx]
        exact active_invoke s.manager _ s.invoked x s.completed hk
      refine ⟨?_, ?_, ?_⟩
      · intro i hi
        simp only [Session.exec, hx, List.length_append, List.length_singleton] at hi ⊢
        have := hk i hi; omega
      · intro h; rw [show (s.exec (Call.addAnimation cb d e)).manager.isAnimating = true from
          hspec.2.2.1] at h
        exact absurd h (by simp)
      · rw [hnew, hact]; simp
  | onComplete i =>
    by_cases hi : i < s.invoked.length
    · have hspec := nextAnimation_spec s.manager
      have hexec : s.exec (Call.onComplete i) =
          { manager := s.manager.nextAnimation.1
            invoked := s.invoked ++ s.manager.nextAnimation.2
            completed := s.completed ++ [i] } := by
        simp only [Session.exec, if_pos hi]
      rw [hexec] at hnd ⊢
      have hfresh : i ∉ s.completed := by
        have := List.nodup_append.mp hnd
        intro hc
        exact this.2.2 hc (List.mem_singleton_self i)
      have hmem : i ∈ s.active := by
        simp only [active_def, List.mem_filter, List.mem_range]
        exact ⟨hi, by simpa using hfresh⟩
      have hrest :
          (⟨s.manager, s.invoked, s.completed ++ [i]⟩ : Session C A).active = [] := by
        rw [active_complete s.manager s.manager]
        exact filter_ne_of_length_le_one _ i hone hmem
      have hk' : ∀ j ∈ s.completed ++ [i], j < s.invoked.length := by
        intro j hj
        rcases List.mem_append.mp hj with hj | hj
        · exact hk j hj
        · rw [List.mem_singleton.mp hj]; exact hi
      cases hq : s.manager.nextAnimation.2 with
      | nil =>
        have hidle' : s.manager.nextAnimation.1.isAnimating = false := by
          cases hb : s.manager.nextAnimation.1.isAnimating with
          | false => rfl
          | true => have := hspec.2.2.2.mp hb; rw [hq] at this; simp at this
        refine ⟨?_, ?_, ?_⟩
        · simpa using hk'
        · intro _
          simp only [List.append_nil, active_def] at hrest ⊢
          exact hrest
        · simp only [List.append_nil, active_def] at hrest ⊢
          rw [hrest]; simp
      | cons x rest =>
        have hrest0 : rest = [] := by
          have := hspec.2.2.1; rw [hq] at this
          exact List.length_eq_zero.mp (by simpa using this)
        subst hrest0
        have hnew := active_invoke s.manager s.manager.nextAnimation.1 s.invoked x
          (s.completed ++ [i]) hk'
        refine ⟨?_, ?_, ?_⟩
        · intro j hj
          have := hk' j hj
          simp only [List.length_append, List.length_singleton]; omega
        · intro h
          have := hspec.2.2.2.mpr (by rw [hq]; rfl)
          rw [this] at h; exact absurd h (by simp)
        · rw [hnew, hrest]; simp
    · have hexec : s.exec (Call.onComplete i) = s := by
        simp only [Session.exec, if_neg hi]
      rw [hexec]; exact ⟨hk, hidle, hone⟩

theorem completed_grows {C A : Type} :
    ∀ (calls : List (Call A)) (s : Session C A), s.completed <+: (s.run calls).completed
  | [], s => List.prefix_refl _
  | c :: cs, s => by
    rw [run_cons]
    refine List.IsPrefix.trans ?_ (completed_grows cs (s.exec c))
    cases c with
    | resetQueue => exact List.prefix_refl _
    | addAnimation cb d e => exact List.prefix_refl _
    | onComplete i =>
      simp only [Session.exec]
      split_ifs
      · exact List.prefix_append _ _
      · exact List.prefix_refl _

theorem serial_run {C A : Type} :
    ∀ (calls : List (Call A)) (s : Session C A), s.Serial →
      (s.run calls).completed.Nodup → (s.run calls).Serial
  | [], s, hs, _ => hs
  | c :: cs, s, hs, hnd => by
    rw [run_cons] at hnd ⊢
    have hpre := completed_grows cs (s.exec c)
    exact serial_run cs (s.exec c)
      (serial_exec s c hs (List.Nodup.sublist hpre.sublist hnd)) hnd

theorem serial_create {C A : Type} (camera : C) : (Session.create camera : Session C A).Serial :=
  ⟨by simp [Session.create], fun _ => rfl, by simp [Session.create, Session.active]⟩

/-- C7 as stated fails: with `A` running and `B`, `C` queued, invoking the continuation
handed to `A` twice starts `B` and then `C` while `B` has not completed; steps 1 and 2
are active together. -/
theorem two_active_steps_counterexample :
    ((Session.create ()).run staleCalls).invoked.map QueuedStep.callback = ["A", "B", "C"] ∧
    ((Session.create ()).run staleCalls).completed = [0, 0] ∧
    ((Session.create ()).run staleCalls).active = [1, 2] := by
  decide!

/-- C7, amended: in every state of an AnimationManager reached by `addAnimation` calls,
`resetQueue` calls and invocations of handed-out continuations in which no continuation
has been invoked more than once, at most one step is active, and none when the manager
is not animating. -/
theorem at_most_one_active {C A : Type} (camera : C) (calls : List (Call A))
    (honce : ((Session.create camera).run calls).completed.Nodup) :
    ((Session.create camera).run calls).active.length ≤ 1 ∧
    (((Session.create camera).run calls).manager.isAnimating = false →
      ((Session.create camera).run calls).active = []) := by
  have h := serial_run calls (Session.create camera : Session C A) (serial_create camera) honce
  exact ⟨h.2.2, h.2.1⟩

/-- Witness for C7 amended: `A`, `B`, `C` each completed once. -/
theorem at_most_one_active_witness :
    ((Session.create ()).run
      (demoCalls.take 5 ++ [Call.onComplete 2])).completed = [0, 1, 2] ∧
    ((Session.create ()).run (demoCalls.take 5 ++ [Call.onComplete 2])).active.length ≤ 1 :=
  ⟨by decide!, (at_most_one_active () (demoCalls.take 5 ++ [Call.onComplete 2])
    (by decide!)).1⟩

/-! ## `resetQueue` and `addAnimation` -/

/-- With an empty queue and no further `addAnimation`, no action is invoked any more and
the queue stays empty. -/
theorem run_without_add {C A : Type} :
    ∀ (later : List (Call A)) (s : Session C A), s.manager.queue = [] →
      (∀ x ∈ later, x.isAdd = false) →
      (s.run later).invoked = s.invoked ∧ (s.run later).manager.queue = []
  | [], s, hq, _ => ⟨rfl, hq⟩
  | x :: xs, s, hq, hl => by
    rw [run_cons]
    have hxs : ∀ y ∈ xs, y.isAdd = false := fun y hy => hl y (List.mem_cons_of_mem _ hy)
    cases x with
    | addAnimation cb d e => exact absurd (hl _ (List.mem_cons_self _ _)) (by simp [Call.isAdd])
    | resetQueue =>
      exact run_without_add xs _ rfl hxs
    | onComplete i =>
      have hn := nextAnimation_nil s.manager hq
      by_cases hi : i < s.invoked.length
      · have hexec : s.exec (Call.onComplete i) =
            ⟨{ s.manager with isAnimating := false }, s.invoked, s.completed ++ [i]⟩ := by
          simp only [Session.exec, if_pos hi, hn, List.append_nil]
        rw [hexec]
        have := run_without_add xs
          (⟨{ s.manager with isAnimating := false }, s.invoked, s.completed ++ [i]⟩ :
            Session C A) hq hxs
        exact this
      · have hexec : s.exec (Call.onComplete i) = s := by
          simp only [Session.exec, if_neg hi]
        rw [hexec]; exact run_without_add xs s hq hxs

/-- C8: with step `A` running and `B`, `C` queued, `resetQueue()` empties the queue,
leaves `isAnimating` unchanged and neither completes nor stops `A`; whatever calls
follow, as long as nothing is enqueued, the actions of `B` and `C` are never invoked,
and when the continuation of `A` is invoked the manager is idle with an empty queue. -/
theorem reset_drops_queued_steps {C A : Type} (camera : C) (a b c : A) (da db dc : Option Num)
    (ea eb ec : Option (Num → Num)) (mid later : List (Call A))
    (hmid : ∀ x ∈ mid, x.isAdd = false) (hlater : ∀ x ∈ later, x.isAdd = false) :
    ((Session.threeQueued camera a b c da db dc ea eb ec).invoked = [QueuedStep.ofArgs a da ea] ∧
      (Session.threeQueued camera a b c da db dc ea eb ec).manager.queue
        = [QueuedStep.ofArgs b db eb, QueuedStep.ofArgs c dc ec] ∧
      (Session.threeQueued camera a b c da db dc ea eb ec).manager.isAnimating = true) ∧
    (((Session.threeQueued camera a b c da db dc ea eb ec).exec Call.resetQueue).manager.queue
        = [] ∧
      ((Session.threeQueued camera a b c da db dc ea eb ec).exec
        Call.resetQueue).manager.isAnimating = true ∧
      ((Session.threeQueued camera a b c da db dc ea eb ec).exec Call.resetQueue).invoked
        = [QueuedStep.ofArgs a da ea] ∧
      ((Session.threeQueued camera a b c da db dc ea eb ec).exec Call.resetQueue).completed
        = []) ∧
    ((((Session.threeQueued camera a b c da db dc ea eb ec).exec Call.resetQueue).run
        (mid ++ Call.onComplete 0 :: later)).invoked = [QueuedStep.ofArgs a da ea] ∧
      ((((Session.threeQueued camera a b c da db dc ea eb ec).exec Call.resetQueue).run
        mid).exec (Call.onComplete 0)).manager.isAnimating = false ∧
      ((((Session.threeQueued camera a b c da db dc ea eb ec).exec Call.resetQueue).run
        mid).exec (Call.onComplete 0)).manager.queue = []) := by
  have h3 : Session.threeQueued camera a b c da db dc ea eb ec =
      ⟨⟨camera, [QueuedStep.ofArgs b db eb, QueuedStep.ofArgs c dc ec], true⟩,
        [QueuedStep.ofArgs a da ea], []⟩ := rfl
  have hR : (Session.threeQueued camera a b c da db dc ea eb ec).exec Call.resetQueue =
      ⟨⟨camera, [], true⟩, [QueuedStep.ofArgs a da ea], []⟩ := by rw [h3]; rfl
  refine ⟨by rw [h3]; exact ⟨rfl, rfl, rfl⟩, by rw [hR]; exact ⟨rfl, rfl, rfl, rfl⟩, ?_⟩
  rw [hR]
  have hm := run_without_add mid
    (⟨⟨camera, [], true⟩, [QueuedStep.ofArgs a da ea], []⟩ : Session C A) rfl hmid
  have hall := run_without_add (mid ++ Call.onComplete 0 :: later)
    (⟨⟨camera, [], true⟩, [QueuedStep.ofArgs a da ea], []⟩ : Session C A) rfl
    (by
      intro x hx
      rcases List.mem_append.mp hx with hx | hx
      · exact hmid x hx
      · rcases List.mem_cons.mp hx with hx | hx
        · rw [hx]; rfl
        · exact hlater x hx)
  have hn := nextAnimation_nil _ hm.2
  have hi : 0 < ((⟨⟨camera, [], true⟩, [QueuedStep.ofArgs a da ea], []⟩ :
      Session C A).run mid).invoked.length := by rw [hm.1]; simp
  refine ⟨hall.1, ?_, ?_⟩
  · simp only [Session.exec, if_pos hi, hn]
  · simp only [Session.exec, if_pos hi, hn]; exact hm.2

/-- Witness for C8: between `resetQueue()` and the completion of `A` another
`resetQueue()` is made, and afterwards the stale continuation is invoked again. -/
theorem reset_drops_queued_steps_witness :
    ((((Session.threeQueued () "A" "B" "C" none none none none none none).exec
        Call.resetQueue).run
        ([Call.resetQueue] ++ Call.onComplete 0 :: [Call.onComplete 0])).invoked.map
      QueuedStep.callback = ["A"]) ∧
    ((((Session.threeQueued () "A" "B" "C" none none none none none none).exec
        Call.resetQueue).run [Call.resetQueue]).exec
      (Call.onComplete 0)).manager.isAnimating = false :=
  have h := (reset_drops_queued_steps () "A" "B" "C" none none none none none none
    [Call.resetQueue] [Call.onComplete 0] (by decide!) (by decide!)).2.2
  ⟨by rw [h.1]; rfl, h.2.1⟩

/-- A manager that is not animating has an empty queue, after every call. -/
theorem idle_exec {C A : Type} (s : Session C A) (c : Call A)
    (h : s.manager.isAnimating = false → s.manager.queue = []) :
    (s.exec c).manager.isAnimating = false → (s.exec c).manager.queue = [] := by
  cases c with
  | addAnimation cb d e => exact (addAnimation_spec s.manager cb d e).2.1
  | resetQueue => intro _; rfl
  | onComplete i =>
    simp only [Session.exec]
    split_ifs
    · exact (nextAnimation_spec s.manager).2.1
    · exact h

theorem idle_run {C A : Type} :
    ∀ (calls : List (Call A)) (s : Session C A),
      (s.manager.isAnimating = false → s.manager.queue = []) →
      (s.run calls).manager.isAnimating = false → (s.run calls).manager.queue = []
  | [], _, h => h
  | c :: cs, s, h => by
    rw [run_cons]; exact idle_run cs (s.exec c) (idle_exec s c h)

/-- C9: on a manager that is not animating, in any state reached from construction,
`addAnimation(action, duration, easing)` invokes `action` with exactly the enqueued
duration and easing (1000 and `easeInOutQuad` when omitted), leaves the queue empty and
sets `isAnimating`; on a manager that is animating it invokes nothing, appends the step
to the tail of the queue and leaves the earlier entries and `isAnimating` as they
were. -/
theorem addAnimation_runs_or_waits {C A : Type} (camera : C) (calls : List (Call A)) (cb : A)
    (d : Option Num) (e : Option (Num → Num)) :
    (((Session.create camera).run calls).manager.isAnimating = false →
      (((Session.create camera).run calls).manager.addAnimation cb d e).2
        = [{ callback := cb, duration := d.getD (Num.lit 1000),
             easing := e.getD easeInOutQuad }] ∧
      (((Session.create camera).run calls).manager.addAnimation cb d e).1.queue = [] ∧
      (((Session.create camera).run calls).manager.addAnimation cb d e).1.isAnimating = true) ∧
    (((Session.create camera).run calls).manager.isAnimating = true →
      (((Session.create camera).run calls).manager.addAnimation cb d e).2 = [] ∧
      (((Session.create camera).run calls).manager.addAnimation cb d e).1.queue
        = ((Session.create camera).run calls).manager.queue
          ++ [{ callback := cb, duration := d.getD (Num.lit 1000),
                easing := e.getD easeInOutQuad }] ∧
      (((Session.create camera).run calls).manager.addAnimation cb d e).1.isAnimating = true) := by
  have hidle := idle_run calls (Session.create camera : Session C A) (fun _ => rfl)
  generalize ((Session.create camera).run calls).manager = m at hidle ⊢
  constructor
  · intro hm
    have hq := hidle hm
    unfold AnimationManager.addAnimation
    rw [if_pos (by rw [hm]; rfl), nextAnimation_cons _ _ [] (by rw [hq]; rfl)]
    exact ⟨rfl, rfl, rfl⟩
  · intro hm
    unfold AnimationManager.addAnimation
    rw [if_neg (by rw [hm]; simp)]
    exact ⟨rfl, rfl, hm⟩

/-- Witness for C9: `addAnimation(action)` with duration and easing omitted, on a new
manager and on the manager after one step has been started. -/
theorem addAnimation_runs_or_waits_witness :
    (((Session.create ()).run ([] : List (Call String))).manager.addAnimation "action"
        none none).2.map (fun s => (s.callback, s.duration)) = [("action", Num.lit 1000)] ∧
    (((Session.create ()).run [Call.addAnimation "A" none none]).manager.addAnimation "action"
        none none).2 = [] :=
  ⟨by rw [((addAnimation_runs_or_waits () ([] : List (Call String)) "action" none none).1
        (by decide!)).1]; rfl,
   ((addAnimation_runs_or_waits () [Call.addAnimation "A" none none] "action" none none).2
        (by decide!)).1⟩

/-! ## Duration zero -/

/-- The smallest positive binary64 value, `2^(-1074)`, is a fixed point of rounding. -/
theorem roundMag_tiny : roundMag ((2 : ℚ) ^ (-1074 : ℤ)) = (2 : ℚ) ^ (-1074 : ℤ) := by
  have h := roundMag_grid (m := 1) (e := -1022) le_rfl (by norm_num) (by norm_num)
    (fun h => absurd h (lt_irrefl _))
  have e : ((1 : ℤ) : ℚ) * (2 : ℚ) ^ ((-1022 : ℤ) - 52) = (2 : ℚ) ^ (-1074 : ℤ) := by
    norm_num
  rwa [e] at h

/-- Every binary64 value is an integer multiple of `2^(-1074)`. -/
theorem isDouble_multiple {q : ℚ} (hq : IsDouble q) : ∃ k : ℤ, q = (k : ℚ) * 2 ^ (-1074 : ℤ) := by
  have key : ∀ x : ℚ, 0 < x → roundMag x = x → ∃ k : ℤ, x = (k : ℚ) * 2 ^ (-1074 : ℤ) := by
    intro x hx hfix
    rw [roundMag_eq hx.ne'] at hfix
    have hb := binade_ge x
    obtain ⟨n, hn⟩ : ∃ n : ℕ, binade x - 52 = -1074 + (n : ℤ) :=
      ⟨(binade x + 1022).toNat, by omega⟩
    refine ⟨roundHalfEven (x / ulp x) * 2 ^ n, ?_⟩
    have hu : ulp x = (2 : ℚ) ^ n * 2 ^ (-1074 : ℤ) := by
      unfold ulp
      rw [hn, zpow_add₀ (by norm_num : (2 : ℚ) ≠ 0), zpow_natCast, mul_comm]
    calc x = (roundHalfEven (x / ulp x) : ℚ) * ulp x := hfix.symm
      _ = ((roundHalfEven (x / ulp x) * 2 ^ n : ℤ) : ℚ) * 2 ^ (-1074 : ℤ) := by
        rw [hu]; push_cast; ring
  have hfix := ((isDouble_iff q).mp hq).1
  rcases lt_trichotomy q 0 with hneg | hz | hpos
  · rw [abs_of_neg hneg] at hfix
    obtain ⟨k, hk⟩ := key (-q) (by linarith) hfix
    exact ⟨-k, by push_cast; linarith⟩
  · exact ⟨0, by rw [hz]; simp⟩
  · rw [abs_of_pos hpos] at hfix
    exact key q hpos hfix

/-- Subtraction of binary64 values does not underflow to zero: if `x < y` then `y - x`,
as computed, is above zero. -/
theorem sub_pos_of_lt {x y : Num} (hx : x.WF) (hy : y.WF) (hxf : x.isFinite = true)
    (hyf : y.isFinite = true) (h : Num.lt x y = true) :
    Num.lt (Num.lit 0) (Num.sub y x) = true := by
  obtain ⟨a, rfl⟩ := fin_of_isFinite hxf
  obtain ⟨b, rfl⟩ := fin_of_isFinite hyf
  have hab : a < b := by simpa [Num.lt] using h
  obtain ⟨ka, hka⟩ := isDouble_multiple hx
  obtain ⟨kb, hkb⟩ := isDouble_multiple hy
  have heta : (0 : ℚ) < 2 ^ (-1074 : ℤ) := two_zpow_pos _
  have hk : ka + 1 ≤ kb := by
    have : (ka : ℚ) < kb := by
      rw [hka, hkb] at hab
      exact lt_of_mul_lt_mul_right hab heta.le
    have : ka < kb := by exact_mod_cast this
    omega
  have hdiff : (2 : ℚ) ^ (-1074 : ℤ) ≤ b + -a := by
    have : (ka : ℚ) + 1 ≤ kb := by exact_mod_cast hk
    rw [hka, hkb]
    nlinarith
  have hpos : 0 ≤ b + -a := le_trans heta.le hdiff
  have hr : (2 : ℚ) ^ (-1074 : ℤ) ≤ roundMag (b + -a) := by
    have := roundMag_mono heta.le hdiff
    rwa [roundMag_tiny] at this
  show Num.lt (Num.lit 0) (Num.round (b + -a)) = true
  rw [round_of_nonneg hpos]
  split_ifs
  · rfl
  · simp only [Num.lt, Num.lit, Int.cast_zero, decide_eq_true_eq]
    linarith

/-- With duration `+0`, a positive elapsed time divides to `Infinity`, which
`Math.min(1, ·)` clamps to one. -/
theorem time_zero_duration {el : Num} (h : Num.lt (Num.lit 0) el = true) :
    Num.min (Num.lit 1) (Num.div el (Num.lit 0)) = Num.lit 1 := by
  cases el with
  | nan => simp [Num.lt, Num.lit] at h
  | inf s =>
    cases s
    · simp [Num.div, Num.min, Num.lt, Num.lit]
    · simp [Num.lt, Num.lit] at h
  | fin a =>
    have ha : 0 < a := by simpa [Num.lt, Num.lit] using h
    simp [Num.div, Num.min, Num.lt, Num.lit, ha.ne', not_lt.mpr ha.le]

/-- C10 as stated fails: with duration 0 and a first tick at `now = startTime` the
quotient is `0 / 0`, whatever the sign of the zero; the normalised time is `NaN`, the
three components are set to `NaN`, not to `start + delta`, and the completion event
fires. -/
theorem zero_duration_counterexample :
    zeroAnimation.duration = Num.lit 0 ∧ zeroAnimation.startTime = Num.lit 100 ∧
    zeroAnimation.time (Num.lit 100) = Num.nan ∧
    zeroAnimation.timeSigned false (Num.lit 100) = Num.nan ∧
    zeroAnimation.timeSigned true (Num.lit 100) = Num.nan ∧
    (zeroAnimation.step (quiet String) demoCamera (Num.lit 100)).cam.position
      = ⟨Num.nan, Num.nan, Num.nan⟩ ∧
    (zeroAnimation.step (quiet String) demoCamera (Num.lit 100)).cam.position
      ≠ Vec3.add zeroAnimation.start zeroAnimation.change ∧
    (zeroAnimation.step (quiet String) demoCamera (Num.lit 100)).again = false := by
  decide!

/-- With `+0` for a zero divisor the division is `Num.div`. -/
theorem divSigned_false (x d : Num) : Num.divSigned false x d = Num.div x d := by
  cases x <;> cases d <;> simp only [Num.divSigned, Num.div]
  · split_ifs with h
    · simp [h]
    · rfl
  · simp

/-- With a divisor other than zero the sign given for a zero plays no part. -/
theorem divSigned_of_ne_zero (negZero : Bool) (x : Num) {d : Num} (hd : d ≠ Num.fin 0) :
    Num.divSigned negZero x d = Num.div x d := by
  cases x <;> cases d <;> simp only [Num.divSigned, Num.div]
  · rename_i s b
    have hb : b ≠ 0 := fun h => hd (by rw [h])
    simp [hb]
  · rename_i a b
    have hb : b ≠ 0 := fun h => hd (by rw [h])
    simp [hb]

theorem timeSigned_false (a : Animation) (t : Num) : a.timeSigned false t = a.time t := by
  unfold Animation.timeSigned Animation.time; rw [divSigned_false]

theorem stepAt_time {L : Type} (throws : L → Bool) (a : Animation) (cam : Camera L) (t : Num) :
    a.stepAt throws cam (a.time t) = a.step throws cam t := rfl

/-- With `+0` for a zero duration the call is `Animation.step`. -/
theorem stepSigned_false {L : Type} (throws : L → Bool) (a : Animation) (cam : Camera L)
    (t : Num) : a.stepSigned false throws cam t = a.step throws cam t := by
  unfold Animation.stepSigned; rw [timeSigned_false]; rfl

/-- With a duration above zero the call is `Animation.step`, whatever sign is given. -/
theorem stepSigned_of_pos {L : Type} (negZero : Bool) (throws : L → Bool) (a : Animation)
    (cam : Camera L) (t : Num) (hd : Num.lt (Num.lit 0) a.duration = true) :
    a.stepSigned negZero throws cam t = a.step throws cam t := by
  have hne : a.duration ≠ Num.fin 0 := by
    intro h; rw [h] at hd; simp [Num.lt, Num.lit] at hd
  unfold Animation.stepSigned Animation.timeSigned
  rw [divSigned_of_ne_zero negZero _ hne]; rfl

/-- With duration `-0`, a positive elapsed time divides to `-Infinity`, which
`Math.min(1, ·)` leaves as it is. -/
theorem time_neg_zero_duration {el : Num} (h : Num.lt (Num.lit 0) el = true) :
    Num.min (Num.lit 1) (Num.divSigned true el (Num.lit 0)) = Num.inf true := by
  cases el with
  | nan => simp [Num.lt, Num.lit] at h
  | inf s =>
    cases s
    · simp [Num.divSigned, Num.min, Num.lt, Num.lit]
    · simp [Num.lt, Num.lit] at h
  | fin a =>
    have ha : 0 < a := by simpa [Num.lt, Num.lit] using h
    simp [Num.divSigned, Num.min, Num.lt, Num.lit, ha.ne', not_lt.mpr ha.le]

/-- C10, amended: for an animation started with duration `+0` (the `0` of the source
text), a first tick with a finite timestamp `now > startTime` computes the normalised
time 1 (the quotient is `Infinity`, clamped by `Math.min`), sets the property to
`start + delta * easing(1)`, which is exactly `start + delta` when `easing(1) = 1`, and
fires the completion event without requesting another tick.  With duration `-0` the
quotient is `-Infinity`: the normalised time is `-Infinity`, the property is set to
`start + delta * easing(-Infinity)`, another frame is requested and no event fires. -/
theorem zero_duration_converges {L : Type} (throws : L → Bool) (a : Animation) (cam : Camera L)
    (now : Num) (hz : a.duration = Num.lit 0)
    (hs : a.startTime.isFinite = true ∧ a.startTime.WF) (hn : now.isFinite = true ∧ now.WF)
    (hlt : Num.lt a.startTime now = true) :
    (a.timeSigned false now = Num.lit 1 ∧
      (a.stepSigned false throws cam now).cam.get a.property
        = ⟨Num.add a.start.x (Num.mul a.change.x (a.easing (Num.lit 1))),
           Num.add a.start.y (Num.mul a.change.y (a.easing (Num.lit 1))),
           Num.add a.start.z (Num.mul a.change.z (a.easing (Num.lit 1)))⟩ ∧
      (a.easing (Num.lit 1) = Num.lit 1 → a.change.x.WF ∧ a.change.y.WF ∧ a.change.z.WF →
        (a.stepSigned false throws cam now).cam.get a.property = Vec3.add a.start a.change) ∧
      (a.stepSigned false throws cam now).again = false ∧
      ∃ inv, (a.stepSigned false throws cam now).trace
        = a.writesAt cam (Num.lit 1) ++ Effect.trigger a.completeEvent :: inv) ∧
    (a.timeSigned true now = Num.inf true ∧
      (a.stepSigned true throws cam now).cam.get a.property
        = ⟨Num.add a.start.x (Num.mul a.change.x (a.easing (Num.inf true))),
           Num.add a.start.y (Num.mul a.change.y (a.easing (Num.inf true))),
           Num.add a.start.z (Num.mul a.change.z (a.easing (Num.inf true)))⟩ ∧
      (a.stepSigned true throws cam now).again = true ∧
      (a.stepSigned true throws cam now).trace
        = a.writesAt cam (Num.inf true) ++ [Effect.requestFrame]) := by
  have hel := sub_pos_of_lt hs.2 hn.2 hs.1 hn.1 hlt
  have hpos : a.timeSigned false now = Num.lit 1 := by
    unfold Animation.timeSigned
    rw [hz, divSigned_false]
    exact time_zero_duration hel
  have hneg : a.timeSigned true now = Num.inf true := by
    unfold Animation.timeSigned
    rw [hz]
    exact time_neg_zero_duration hel
  have h1 : Num.lt (Num.lit 1) (Num.lit 1) = false := by decide!
  have h2 : Num.lt (Num.inf true) (Num.lit 1) = true := rfl
  have sp : a.stepSigned false throws cam now = a.stepAt throws cam (Num.lit 1) := by
    unfold Animation.stepSigned; rw [hpos]
  have sn : a.stepSigned true throws cam now = a.stepAt throws cam (Num.inf true) := by
    unfold Animation.stepSigned; rw [hneg]
  have ep : a.stepAt throws cam (Num.lit 1) =
      { cam := cam.set a.property (a.sampleAt (Num.lit 1))
        trace := a.writesAt cam (Num.lit 1) ++
          ((cam.set a.property (a.sampleAt (Num.lit 1))).triggerEvent throws a.completeEvent).1
        again := false
        outcome :=
          ((cam.set a.property (a.sampleAt (Num.lit 1))).triggerEvent throws
            a.completeEvent).2 } := by
    unfold Animation.stepAt; rw [h1]; rfl
  have en : a.stepAt throws cam (Num.inf true) =
      { cam := cam.set a.property (a.sampleAt (Num.inf true))
        trace := a.writesAt cam (Num.inf true) ++ [Effect.requestFrame]
        again := true
        outcome := Outcome.normal } := by
    unfold Animation.stepAt; rw [h2]; rfl
  refine ⟨⟨hpos, ?_, ?_, ?_, ?_⟩, hneg, ?_, ?_, ?_⟩
  · rw [sp, ep]; exact get_set cam a.property _
  · intro he hch
    rw [sp, ep]
    refine (get_set cam a.property _).trans ?_
    unfold Animation.sampleAt Vec3.add
    rw [he, mul_one_of_wf hch.1, mul_one_of_wf hch.2.1, mul_one_of_wf hch.2.2]
  · rw [sp, ep]
  · rw [sp, ep]
    obtain ⟨inv, hinv, _⟩ := triggerEvent_shape throws
      (cam.set a.property (a.sampleAt (Num.lit 1))) a.completeEvent
    exact ⟨inv, congrArg (fun tr => _ ++ tr) hinv⟩
  · rw [sn, en]; exact get_set cam a.property _
  · rw [sn, en]
  · rw [sn, en]

/-- Witness for C10 amended: the zero-duration animation started at 100, first tick at
116, with `+0` and with `-0` for the duration. -/
theorem zero_duration_converges_witness :
    zeroAnimation.timeSigned false (Num.lit 116) = Num.lit 1 ∧
    (zeroAnimation.stepSigned false (quiet String) demoCamera (Num.lit 116)).cam.get
      Property.position = ⟨Num.lit 1, Num.lit 1, Num.lit 1⟩ ∧
    zeroAnimation.timeSigned true (Num.lit 116) = Num.inf true ∧
    (zeroAnimation.stepSigned true (quiet String) demoCamera (Num.lit 116)).again = true :=
  have h := zero_duration_converges (quiet String) zeroAnimation demoCamera (Num.lit 116) rfl
    (by decide!) (by decide!) (by decide!)
  ⟨h.1.1, (h.1.2.2.1 (by decide!) (by decide!)).trans (by decide!), h.2.1, h.2.2.2.1⟩

/-! ## Rounding error -/

theorem round_eq_rnd {q : ℚ} (h : roundMag |q| < 2 ^ (1024 : ℕ)) :
    Num.round q = Num.fin (rnd q) := by
  unfold Num.round rnd
  rw [if_neg (not_le.mpr h)]

theorem rnd_of_nonneg {q : ℚ} (h : 0 ≤ q) : rnd q = roundMag q := by
  unfold rnd; rw [if_neg (not_lt.mpr h), abs_of_nonneg h]

theorem rnd_of_neg {q : ℚ} (h : q < 0) : rnd q = -roundMag (-q) := by
  unfold rnd; rw [if_pos h, abs_of_neg h]

theorem rnd_mono {p q : ℚ} (h : p ≤ q) : rnd p ≤ rnd q := by
  rcases lt_or_le p 0 with hp | hp
  · rcases lt_or_le q 0 with hq | hq
    · rw [rnd_of_neg hp, rnd_of_neg hq]
      have := roundMag_mono (by linarith : (0 : ℚ) ≤ -q) (by linarith : -q ≤ -p)
      linarith
    · rw [rnd_of_neg hp, rnd_of_nonneg hq]
      have h1 := roundMag_nonneg (by linarith : (0 : ℚ) ≤ -p)
      have h2 := roundMag_nonneg hq
      linarith
  · rw [rnd_of_nonneg hp, rnd_of_nonneg (hp.trans h)]
    exact roundMag_mono hp h

theorem rnd_of_isDouble {q : ℚ} (h : IsDouble q) : rnd q = q := by
  have hfix := ((isDouble_iff q).mp h).1
  unfold rnd
  split_ifs with hq
  · rw [hfix, abs_of_neg hq]; ring
  · rw [hfix, abs_of_nonneg (not_lt.mp hq)]

theorem isDouble_of_rnd {q : ℚ} (h1 : rnd q = q) (h2 : |q| < 2 ^ (1024 : ℕ)) : IsDouble q := by
  rw [isDouble_iff]
  have hfix : roundMag |q| = |q| := by
    unfold rnd at h1
    split_ifs at h1 with hq
    · rw [abs_of_neg hq] at h1 ⊢; linarith
    · rw [abs_of_nonneg (not_lt.mp hq)] at h1 ⊢; exact h1
  exact ⟨hfix, by rw [hfix]; exact h2⟩

theorem rhe_err (r : ℚ) : |(roundHalfEven r : ℚ) - r| ≤ 1 / 2 := by
  have h1 : (⌊r⌋ : ℚ) ≤ r := Int.floor_le r
  have h2 : r < (⌊r⌋ : ℚ) + 1 := Int.lt_floor_add_one r
  unfold roundHalfEven
  rw [abs_le]
  split_ifs with a b c
  · constructor <;> linarith
  · push_cast; constructor <;> linarith
  · have : r - ⌊r⌋ = 1 / 2 := le_antisymm (not_lt.mp b) (not_lt.mp a)
    constructor <;> linarith
  · have : r - ⌊r⌋ = 1 / 2 := le_antisymm (not_lt.mp b) (not_lt.mp a)
    push_cast; constructor <;> linarith

/-- Powers of two in the normal range are fixed points of rounding. -/
theorem roundMag_two_zpow {e : ℤ} (he : -1022 ≤ e) : roundMag ((2 : ℚ) ^ e) = (2 : ℚ) ^ e := by
  have h := roundMag_grid (m := 2 ^ (52 : ℕ)) (e := e) he (by positivity) (by norm_num)
    (fun _ => le_rfl)
  have e1 : (((2 : ℤ) ^ (52 : ℕ) : ℤ) : ℚ) * (2 : ℚ) ^ (e - 52) = (2 : ℚ) ^ e := by
    rw [cast_pow52, ← zpow_natCast, ← zpow_add₀ (by norm_num : (2 : ℚ) ≠ 0)]
    congr 1; push_cast; ring
  rwa [e1] at h

/-- The rounding error of a magnitude of at most `2^(k+1)` is at most `2^(k-53)`: half
the spacing of the binade below `2^(k+1)`. -/
theorem roundMag_err {a : ℚ} {k : ℤ} (hk : -1022 ≤ k) (h0 : 0 ≤ a)
    (ha : a ≤ (2 : ℚ) ^ (k + 1)) : |roundMag a - a| ≤ (2 : ℚ) ^ (k - 53) := by
  rcases eq_or_lt_of_le h0 with hz | hpos
  · rw [← hz, roundMag_zero]; simp; exact (two_zpow_pos _).le
  rcases eq_or_lt_of_le ha with htop | hlt
  · rw [htop, roundMag_two_zpow (by omega)]; simp; exact (two_zpow_pos _).le
  have hb : binade a ≤ k := by
    rw [binade_def hpos]
    apply max_le _ hk
    have : Int.log 2 a < k + 1 := by
      rw [← Int.lt_zpow_iff_log_lt (by norm_num) hpos]; simpa using hlt
    omega
  have hu : ulp a ≤ (2 : ℚ) ^ (k - 52) := two_zpow_mono (by omega)
  rw [roundMag_eq hpos.ne']
  have hr := rhe_err (a / ulp a)
  have hup := ulp_pos a
  have e1 : (roundHalfEven (a / ulp a) : ℚ) * ulp a - a
      = ((roundHalfEven (a / ulp a) : ℚ) - a / ulp a) * ulp a := by
    field_simp
  rw [e1, abs_mul, abs_of_pos hup]
  have e2 : (2 : ℚ) ^ (k - 53) = 1 / 2 * (2 : ℚ) ^ (k - 52) := by
    have : k - 52 = (k - 53) + 1 := by ring
    rw [this, zpow_add₀ (by norm_num : (2 : ℚ) ≠ 0)]; simp; ring
  rw [e2]
  exact mul_le_mul hr hu hup.le (by norm_num)

theorem rnd_err {q : ℚ} {k : ℤ} (hk : -1022 ≤ k) (hq : |q| ≤ (2 : ℚ) ^ (k + 1)) :
    |rnd q - q| ≤ (2 : ℚ) ^ (k - 53) := by
  rcases lt_or_le q 0 with hneg | hnn
  · rw [rnd_of_neg hneg]
    rw [abs_of_neg hneg] at hq
    have := roundMag_err hk (by linarith : (0 : ℚ) ≤ -q) hq
    rw [abs_le] at this ⊢
    constructor <;> linarith [this.1, this.2]
  · rw [rnd_of_nonneg hnn]
    rw [abs_of_nonneg hnn] at hq
    exact roundMag_err hk hnn hq

/-- A result of magnitude at most 4 does not overflow. -/
theorem round_small {q : ℚ} (h : |q| ≤ 4) : Num.round q = Num.fin (rnd q) := by
  apply round_eq_rnd
  have h4 : roundMag 4 = 4 := by decide!
  have := roundMag_mono (abs_nonneg q) h
  rw [h4] at this
  have : (4 : ℚ) < 2 ^ (1024 : ℕ) := by norm_num
  linarith

theorem rnd_zero : rnd 0 = 0 := by decide!

theorem rnd_one : rnd 1 = 1 := by decide!

theorem rnd_two : rnd 2 = 2 := by decide!

theorem rnd_three : rnd 3 = 3 := by decide!

theorem rnd_half : rnd (1 / 2) = 1 / 2 := by decide!

/-- The midpoint between 1 and the next binary64 value rounds to 1. -/
theorem rnd_one_tie : rnd (1 + 1 / 2 ^ (53 : ℕ)) = 1 := by decide!

/-- The midpoint between 2 and the next binary64 value rounds to 2. -/
theorem rnd_two_tie : rnd (2 + 1 / 2 ^ (52 : ℕ)) = 2 := by decide!

/-- Doubling a binary64 value of the normal range is exact. -/
theorem rnd_two_mul {t : ℚ} (ht : IsDouble t) (hlo : 1 / 2 ≤ t) : rnd (2 * t) = 2 * t := by
  have hpos : 0 < t := by linarith
  have hb : -1022 < binade t := by
    have h1 : binade (1 / 2 : ℚ) ≤ binade t := binade_mono (by norm_num) hlo
    have h2 : binade (1 / 2 : ℚ) = -1 := by decide!
    omega
  have hg := isDouble_grid ht hpos
  have hm1 := pow52_le_rhe hpos hb
  have hm2 := rhe_le_pow53 t
  have hfix := roundMag_grid (m := roundHalfEven (t / ulp t)) (e := binade t + 1)
    (by omega) (by have : (0 : ℤ) ≤ 2 ^ (52 : ℕ) := by positivity
                   omega) hm2 (fun _ => hm1)
  have e1 : (roundHalfEven (t / ulp t) : ℚ) * (2 : ℚ) ^ (binade t + 1 - 52) = 2 * t := by
    have : binade t + 1 - 52 = (binade t - 52) + 1 := by ring
    rw [this, zpow_add₀ (by norm_num : (2 : ℚ) ≠ 0)]
    have hu : ulp t = (2 : ℚ) ^ (binade t - 52) := rfl
    rw [← hu]
    calc (roundHalfEven (t / ulp t) : ℚ) * (ulp t * 2 ^ (1 : ℤ))
        = 2 * ((roundHalfEven (t / ulp t) : ℚ) * ulp t) := by simp; ring
      _ = 2 * t := by rw [← hg]
  rw [e1] at hfix
  rw [rnd_of_nonneg (by linarith)]
  exact hfix

/-! ## The easing functions on the unit interval -/

theorem rnd_err_two {q : ℚ} (h : |q| ≤ 2) : |rnd q - q| ≤ 1 / 2 ^ (53 : ℕ) := by
  have := rnd_err (k := 0) (by norm_num) (by simpa using h)
  norm_num at this ⊢
  exact this

theorem rnd_err_four {q : ℚ} (h : |q| ≤ 4) : |rnd q - q| ≤ 1 / 2 ^ (52 : ℕ) := by
  have := rnd_err (k := 1) (by norm_num) (by norm_num; exact h)
  norm_num at this ⊢
  exact this

theorem rnd_between {q lo hi : ℚ} (hlo : rnd lo = lo) (hhi : rnd hi = hi) (h1 : lo ≤ q)
    (h2 : q ≤ hi) : lo ≤ rnd q ∧ rnd q ≤ hi :=
  ⟨hlo ▸ rnd_mono h1, hhi ▸ rnd_mono h2⟩

theorem add_small {a b : ℚ} (h : |a + b| ≤ 4) :
    Num.add (Num.fin a) (Num.fin b) = Num.fin (rnd (a + b)) := round_small h

theorem sub_small {a b : ℚ} (h : |a - b| ≤ 4) :
    Num.sub (Num.fin a) (Num.fin b) = Num.fin (rnd (a - b)) := by
  show Num.round (a + -b) = _
  rw [← sub_eq_add_neg]; exact round_small h

theorem mul_small {a b : ℚ} (h : |a * b| ≤ 4) :
    Num.mul (Num.fin a) (Num.fin b) = Num.fin (rnd (a * b)) := round_small h

theorem inUnit_iff {x : Num} : x.inUnit = true ↔ ∃ t, x = Num.fin t ∧ 0 ≤ t ∧ t ≤ 1 := by
  cases x with
  | nan => simp [Num.inUnit, Num.ge]
  | inf s => cases s <;> simp [Num.inUnit, Num.ge, Num.lt, Num.lit]
  | fin q => simp [Num.inUnit, Num.ge, Num.lt, Num.lit]

theorem inUnit_fin {t : ℚ} (h0 : 0 ≤ t) (h1 : t ≤ 1) : (Num.fin t).inUnit = true :=
  inUnit_iff.mpr ⟨t, rfl, h0, h1⟩

theorem abs_le_of_between {q lo hi B : ℚ} (h1 : lo ≤ q) (h2 : q ≤ hi) (hl : -B ≤ lo)
    (hh : hi ≤ B) : |q| ≤ B := abs_le.mpr ⟨by linarith, by linarith⟩

/-- `easeInQuad` on the unit interval. -/
theorem easeInQuad_fin {t : ℚ} (h0 : 0 ≤ t) (h1 : t ≤ 1) :
    easeInQuad (Num.fin t) = Num.fin (rnd (t * t)) ∧ 0 ≤ rnd (t * t) ∧ rnd (t * t) ≤ 1 := by
  have hp : 0 ≤ t * t := mul_nonneg h0 h0
  have hp1 : t * t ≤ 1 := by nlinarith
  have hb := rnd_between rnd_zero rnd_one hp hp1
  exact ⟨mul_small (abs_le_of_between hp hp1 (by norm_num) (by norm_num)), hb.1, hb.2⟩

/-- `easeOutQuad` on the unit interval: the value, its range and its distance from the
polynomial. -/
theorem easeOutQuad_fin {t : ℚ} (h0 : 0 ≤ t) (h1 : t ≤ 1) :
    easeOutQuad (Num.fin t) = Num.fin (rnd (t * rnd (2 - t))) ∧
    0 ≤ rnd (t * rnd (2 - t)) ∧ rnd (t * rnd (2 - t)) ≤ 1 ∧
    |rnd (t * rnd (2 - t)) - exactOutQuad t| ≤ 1 / 2 ^ (51 : ℕ) := by
  have hs := rnd_between rnd_one rnd_two (by linarith : (1 : ℚ) ≤ 2 - t) (by linarith)
  have hse := abs_le.mp (rnd_err_two (abs_le_of_between (by linarith : (1 : ℚ) ≤ 2 - t)
    (by linarith : 2 - t ≤ 2) (by norm_num) le_rfl))
  set s := rnd (2 - t) with hsdef
  have hts0 : 0 ≤ t * s := mul_nonneg h0 (by linarith)
  have hts1 : t * s ≤ 1 + 1 / 2 ^ (53 : ℕ) := by nlinarith [hse.2, sq_nonneg (1 - t)]
  have hr0 : 0 ≤ rnd (t * s) := by rw [← rnd_zero]; exact rnd_mono hts0
  have hr1 : rnd (t * s) ≤ 1 := by rw [← rnd_one_tie]; exact rnd_mono hts1
  have hpe := abs_le.mp (rnd_err_two (abs_le_of_between hts0 hts1 (by norm_num) (by norm_num)))
  refine ⟨?_, hr0, hr1, ?_⟩
  · unfold easeOutQuad
    have e1 : Num.sub (Num.lit 2) (Num.fin t) = Num.fin s := by
      have := sub_small (a := 2) (b := t) (abs_le_of_between (by linarith : (1 : ℚ) ≤ 2 - t)
        (by linarith : 2 - t ≤ 2) (by norm_num) (by norm_num))
      simpa [Num.lit] using this
    rw [e1]
    exact mul_small (abs_le_of_between hts0 hts1 (by norm_num) (by norm_num))
  · unfold exactOutQuad
    rw [abs_le]
    constructor <;> nlinarith [hse.1, hse.2, hpe.1, hpe.2]

theorem ge_fin {a b : ℚ} : Num.ge (Num.fin a) (Num.fin b) = true ↔ b ≤ a := by
  simp [Num.ge, Num.lt]

theorem lit_two : Num.lit 2 = Num.fin 2 := by simp [Num.lit]

theorem lit_four : Num.lit 4 = Num.fin 4 := by simp [Num.lit]

theorem lit_one : Num.lit 1 = Num.fin 1 := by simp [Num.lit]

theorem lit_zero : Num.lit 0 = Num.fin 0 := by simp [Num.lit]

theorem lit_neg_one : Num.lit (-1) = Num.fin (-1) := by simp [Num.lit]

theorem lit_neg_two : Num.lit (-2) = Num.fin (-2) := by simp [Num.lit]

/-- The lower branch of `easeInOutQuad`: value, range and distance from `2 t²`. -/
theorem easeInOutQuad_lower {t : ℚ} (h0 : 0 ≤ t) (h1 : t < 1 / 2) :
    easeInOutQuad (Num.fin t) = Num.fin (rnd (rnd (2 * t) * t)) ∧
    0 ≤ rnd (rnd (2 * t) * t) ∧ rnd (rnd (2 * t) * t) ≤ 1 / 2 ∧
    |rnd (rnd (2 * t) * t) - 2 * t * t| ≤ 1 / 2 ^ (52 : ℕ) := by
  have hm := rnd_between rnd_zero rnd_one (by linarith : (0 : ℚ) ≤ 2 * t) (by linarith)
  have hme := abs_le.mp (rnd_err_two (abs_le_of_between (by linarith : (0 : ℚ) ≤ 2 * t)
    (by linarith : 2 * t ≤ 1) (by norm_num) (by norm_num)))
  set m := rnd (2 * t) with hmdef
  have hp0 : 0 ≤ m * t := mul_nonneg hm.1 h0
  have hp1 : m * t ≤ 1 / 2 := by nlinarith [hm.1, hm.2]
  have hp := rnd_between rnd_zero rnd_half hp0 hp1
  have hpe := abs_le.mp (rnd_err_two (abs_le_of_between hp0 hp1 (by norm_num) (by norm_num)))
  refine ⟨?_, hp.1, hp.2, ?_⟩
  · unfold easeInOutQuad
    have hlt : Num.lt (Num.fin t) Num.half = true := by
      simp only [Num.lt, Num.half, decide_eq_true_eq]; exact h1
    rw [if_pos hlt, lit_two]
    have e1 : Num.mul (Num.fin 2) (Num.fin t) = Num.fin m :=
      mul_small (abs_le_of_between (by linarith : (0 : ℚ) ≤ 2 * t) (by linarith : 2 * t ≤ 1)
        (by norm_num) (by norm_num))
    rw [e1]
    exact mul_small (abs_le_of_between hp0 hp1 (by norm_num) (by norm_num))
  · rw [abs_le]
    constructor <;> nlinarith [hme.1, hme.2, hpe.1, hpe.2]

/-- The upper branch of `easeInOutQuad`: value and distance from `-1 + (4 - 2 t) t`. -/
theorem easeInOutQuad_upper {t : ℚ} (h0 : 1 / 2 ≤ t) (h1 : t ≤ 1) :
    easeInOutQuad (Num.fin t) = Num.fin (rnd (-1 + rnd (rnd (4 - rnd (2 * t)) * t))) ∧
    |rnd (-1 + rnd (rnd (4 - rnd (2 * t)) * t)) - (-1 + (4 - 2 * t) * t)|
      ≤ 1 / 2 ^ (50 : ℕ) ∧
    2 ≤ rnd (4 - rnd (2 * t)) ∧ rnd (4 - rnd (2 * t)) ≤ 3 ∧
    1 ≤ rnd (rnd (4 - rnd (2 * t)) * t) := by
  have hm := rnd_between rnd_one rnd_two (by linarith : (1 : ℚ) ≤ 2 * t) (by linarith)
  have hme := abs_le.mp (rnd_err_two (abs_le_of_between (by linarith : (1 : ℚ) ≤ 2 * t)
    (by linarith : 2 * t ≤ 2) (by norm_num) (by norm_num)))
  set m := rnd (2 * t) with hmdef
  have hs := rnd_between rnd_two rnd_three (by linarith [hm.2] : (2 : ℚ) ≤ 4 - m)
    (by linarith [hm.1])
  have hse := abs_le.mp (rnd_err_four (abs_le_of_between (by linarith [hm.2] : (2 : ℚ) ≤ 4 - m)
    (by linarith [hm.1] : 4 - m ≤ 3) (by norm_num) (by norm_num)))
  set s := rnd (4 - m) with hsdef
  have hst0 : 1 ≤ s * t := by nlinarith [hs.1]
  have hst1 : s * t ≤ 3 := by nlinarith [hs.2, hs.1]
  have hp := rnd_between rnd_one rnd_three hst0 hst1
  have hpe := abs_le.mp (rnd_err_four (abs_le_of_between hst0 hst1 (by norm_num) (by norm_num)))
  set p := rnd (s * t) with hpdef
  have hre := abs_le.mp (rnd_err_two (abs_le_of_between (by linarith [hp.1] : (0 : ℚ) ≤ -1 + p)
    (by linarith [hp.2] : -1 + p ≤ 2) (by norm_num) (by norm_num)))
  refine ⟨?_, ?_, hs.1, hs.2, hp.1⟩
  · unfold easeInOutQuad
    have hlt : Num.lt (Num.fin t) Num.half = false := by
      simp only [Num.lt, Num.half, decide_eq_false_iff_not, not_lt]; exact h0
    rw [hlt, lit_two, lit_four, lit_neg_one]
    simp only [Bool.false_eq_true, if_false]
    have e1 : Num.mul (Num.fin 2) (Num.fin t) = Num.fin m :=
      mul_small (abs_le_of_between (by linarith : (1 : ℚ) ≤ 2 * t) (by linarith : 2 * t ≤ 2)
        (by norm_num) (by norm_num))
    have e2 : Num.sub (Num.fin 4) (Num.fin m) = Num.fin s :=
      sub_small (abs_le_of_between (by linarith [hm.2] : (2 : ℚ) ≤ 4 - m)
        (by linarith [hm.1] : 4 - m ≤ 3) (by norm_num) (by norm_num))
    have e3 : Num.mul (Num.fin s) (Num.fin t) = Num.fin p :=
      mul_small (abs_le_of_between hst0 hst1 (by norm_num) (by norm_num))
    rw [e1, e2, e3]
    exact add_small (abs_le_of_between (by linarith [hp.1] : (0 : ℚ) ≤ -1 + p)
      (by linarith [hp.2] : -1 + p ≤ 2) (by norm_num) (by norm_num))
  · rw [abs_le]
    constructor <;> nlinarith [hme.1, hme.2, hse.1, hse.2, hpe.1, hpe.2, hre.1, hre.2]

/-- On binary64 arguments the upper branch of `easeInOutQuad` stays in the unit
interval: `2 * t` is exact, and the product `(4 - 2 t) t` rounds to at most 2. -/
theorem easeInOutQuad_upper_range {t : ℚ} (ht : IsDouble t) (h0 : 1 / 2 ≤ t) (h1 : t ≤ 1) :
    0 ≤ rnd (-1 + rnd (rnd (4 - rnd (2 * t)) * t)) ∧
    rnd (-1 + rnd (rnd (4 - rnd (2 * t)) * t)) ≤ 1 := by
  rw [rnd_two_mul ht h0]
  have hs := rnd_between rnd_two rnd_three (by linarith : (2 : ℚ) ≤ 4 - 2 * t) (by linarith)
  have hse := abs_le.mp (rnd_err_four (abs_le_of_between (by linarith : (2 : ℚ) ≤ 4 - 2 * t)
    (by linarith : 4 - 2 * t ≤ 3) (by norm_num) (by norm_num)))
  set s := rnd (4 - 2 * t) with hsdef
  have hst0 : 1 ≤ s * t := by nlinarith [hs.1]
  have hst1 : s * t ≤ 2 + 1 / 2 ^ (52 : ℕ) := by nlinarith [hse.2, sq_nonneg (1 - t)]
  have hp0 : 1 ≤ rnd (s * t) := by rw [← rnd_one]; exact rnd_mono hst0
  have hp1 : rnd (s * t) ≤ 2 := by rw [← rnd_two_tie]; exact rnd_mono hst1
  exact rnd_between rnd_zero rnd_one (by linarith) (by linarith)

/-- The reference definition on `[0, 1/2)`: value and distance from `2 t²`. -/
theorem easeInOutQuadSpec_lower {t : ℚ} (h0 : 0 ≤ t) (h1 : t < 1 / 2) :
    easeInOutQuadSpec (Num.fin t) = Num.fin (rnd (2 * rnd (t * t))) ∧
    |rnd (2 * rnd (t * t)) - 2 * t * t| ≤ 1 / 2 ^ (50 : ℕ) := by
  have htt0 : 0 ≤ t * t := mul_nonneg h0 h0
  have htt1 : t * t ≤ 1 := by nlinarith
  have hv := rnd_between rnd_zero rnd_one htt0 htt1
  have hve := abs_le.mp (rnd_err_two (abs_le_of_between htt0 htt1 (by norm_num) (by norm_num)))
  set v := rnd (t * t) with hvdef
  have hre := abs_le.mp (rnd_err_two (abs_le_of_between (by linarith [hv.1] : (0 : ℚ) ≤ 2 * v)
    (by linarith [hv.2] : 2 * v ≤ 2) (by norm_num) (by norm_num)))
  refine ⟨?_, ?_⟩
  · unfold easeInOutQuadSpec
    have hlt : Num.lt (Num.fin t) Num.half = true := by
      simp only [Num.lt, Num.half, decide_eq_true_eq]; exact h1
    rw [if_pos hlt, lit_two]
    have e1 : Num.mul (Num.fin t) (Num.fin t) = Num.fin v :=
      mul_small (abs_le_of_between htt0 htt1 (by norm_num) (by norm_num))
    rw [e1]
    exact mul_small (abs_le_of_between (by linarith [hv.1] : (0 : ℚ) ≤ 2 * v)
      (by linarith [hv.2] : 2 * v ≤ 2) (by norm_num) (by norm_num))
  · rw [abs_le]
    constructor <;> nlinarith [hve.1, hve.2, hre.1, hre.2]

/-- The reference definition on `[1/2, 1]`: value and distance from
`1 - (2 - 2 t)² / 2 = -1 + (4 - 2 t) t`. -/
theorem easeInOutQuadSpec_upper {t : ℚ} (h0 : 1 / 2 ≤ t) (h1 : t ≤ 1) :
    ∃ r, easeInOutQuadSpec (Num.fin t) = Num.fin r ∧
      |r - (-1 + (4 - 2 * t) * t)| ≤ 1 / 2 ^ (50 : ℕ) := by
  have hn := @rnd_between (-2 * t) (-2) (-1) (by decide!) (by decide!)
    (by linarith : (-2 : ℚ) ≤ -2 * t) (by linarith)
  have hne := abs_le.mp (rnd_err_two (abs_le_of_between (by linarith : (-2 : ℚ) ≤ -2 * t)
    (by linarith : -2 * t ≤ -1) (by norm_num) (by norm_num)))
  set n := rnd (-2 * t) with hndef
  have hu := rnd_between rnd_zero rnd_one (by linarith [hn.1] : (0 : ℚ) ≤ n + 2)
    (by linarith [hn.2])
  have hue := abs_le.mp (rnd_err_two (abs_le_of_between (by linarith [hn.1] : (0 : ℚ) ≤ n + 2)
    (by linarith [hn.2] : n + 2 ≤ 1) (by norm_num) (by norm_num)))
  set u := rnd (n + 2) with hudef
  have huu0 : 0 ≤ u * u := mul_nonneg hu.1 hu.1
  have huu1 : u * u ≤ 1 := by nlinarith [hu.1, hu.2]
  have hv := rnd_between rnd_zero rnd_one huu0 huu1
  have hve := abs_le.mp (rnd_err_two (abs_le_of_between huu0 huu1 (by norm_num) (by norm_num)))
  set v := rnd (u * u) with hvdef
  have hw := rnd_between rnd_zero rnd_half (by linarith [hv.1] : (0 : ℚ) ≤ v / 2)
    (by linarith [hv.2])
  have hwe := abs_le.mp (rnd_err_two (abs_le_of_between (by linarith [hv.1] : (0 : ℚ) ≤ v / 2)
    (by linarith [hv.2] : v / 2 ≤ 1 / 2) (by norm_num) (by norm_num)))
  set w := rnd (v / 2) with hwdef
  have hre := abs_le.mp (rnd_err_two (abs_le_of_between (by linarith [hw.2] : (1 / 2 : ℚ) ≤ 1 - w)
    (by linarith [hw.1] : 1 - w ≤ 1) (by norm_num) (by norm_num)))
  refine ⟨rnd (1 - w), ?_, ?_⟩
  · unfold easeInOutQuadSpec
    have hlt : Num.lt (Num.fin t) Num.half = false := by
      simp only [Num.lt, Num.half, decide_eq_false_iff_not, not_lt]; exact h0
    rw [hlt, lit_two, lit_one, lit_neg_two]
    simp only [Bool.false_eq_true, if_false]
    have e1 : Num.mul (Num.fin (-2)) (Num.fin t) = Num.fin n :=
      mul_small (abs_le_of_between (by linarith : (-2 : ℚ) ≤ -2 * t) (by linarith : -2 * t ≤ -1)
        (by norm_num) (by norm_num))
    have e2 : Num.add (Num.fin n) (Num.fin 2) = Num.fin u :=
      add_small (abs_le_of_between (by linarith [hn.1] : (0 : ℚ) ≤ n + 2)
        (by linarith [hn.2] : n + 2 ≤ 1) (by norm_num) (by norm_num))
    have e3 : Num.mul (Num.fin u) (Num.fin u) = Num.fin v :=
      mul_small (abs_le_of_between huu0 huu1 (by norm_num) (by norm_num))
    have e4 : Num.div (Num.fin v) (Num.fin 2) = Num.fin w := by
      have h2 : ¬ ((2 : ℚ) = 0) := by norm_num
      simp only [Num.div, h2, if_false]
      exact round_small (abs_le_of_between (by linarith [hv.1] : (0 : ℚ) ≤ v / 2)
        (by linarith [hv.2] : v / 2 ≤ 1 / 2) (by norm_num) (by norm_num))
    rw [e1, e2, e3, e4]
    exact sub_small (abs_le_of_between (by linarith [hw.2] : (1 / 2 : ℚ) ≤ 1 - w)
      (by linarith [hw.1] : 1 - w ≤ 1) (by norm_num) (by norm_num))
  · -- the distance of `u` from `2 - 2 t`, then of its square, then of the result
    have hU0 : 0 ≤ 2 - 2 * t := by linarith
    have hU1 : 2 - 2 * t ≤ 1 := by linarith
    have hd1 : u - (2 - 2 * t) ≤ 1 / 2 ^ (52 : ℕ) := by linarith [hne.2, hue.2]
    have hd2 : -(1 / 2 ^ (52 : ℕ)) ≤ u - (2 - 2 * t) := by linarith [hne.1, hue.1]
    have hsum0 : 0 ≤ u + (2 - 2 * t) := by linarith [hu.1]
    have hsum2 : u + (2 - 2 * t) ≤ 2 := by linarith [hu.2]
    have key : u * u - (2 - 2 * t) * (2 - 2 * t)
        = (u - (2 - 2 * t)) * (u + (2 - 2 * t)) := by ring
    have hsq1 : u * u - (2 - 2 * t) * (2 - 2 * t) ≤ 1 / 2 ^ (51 : ℕ) := by
      rw [key]
      calc (u - (2 - 2 * t)) * (u + (2 - 2 * t))
          ≤ 1 / 2 ^ (52 : ℕ) * (u + (2 - 2 * t)) := mul_le_mul_of_nonneg_right hd1 hsum0
        _ ≤ 1 / 2 ^ (52 : ℕ) * 2 := mul_le_mul_of_nonneg_left hsum2 (by positivity)
        _ = 1 / 2 ^ (51 : ℕ) := by norm_num
    have hsq2 : -(1 / 2 ^ (51 : ℕ)) ≤ u * u - (2 - 2 * t) * (2 - 2 * t) := by
      rw [key]
      calc -(1 / 2 ^ (51 : ℕ)) = -(1 / 2 ^ (52 : ℕ)) * 2 := by norm_num
        _ ≤ -(1 / 2 ^ (52 : ℕ)) * (u + (2 - 2 * t)) :=
          mul_le_mul_of_nonpos_left hsum2 (by norm_num)
        _ ≤ (u - (2 - 2 * t)) * (u + (2 - 2 * t)) := mul_le_mul_of_nonneg_right hd2 hsum0
    have e5 : (-1 + (4 - 2 * t) * t) = 1 - (2 - 2 * t) * (2 - 2 * t) / 2 := by ring
    rw [e5, abs_le]
    constructor <;> linarith [hve.1, hve.2, hwe.1, hwe.2, hre.1, hre.2]

/-! ## The normalised time -/

theorem ge_one_min (y : Num) (hy : y ≠ Num.nan) :
    Num.ge (Num.lit 1) (Num.min (Num.lit 1) y) = true := by
  cases y with
  | nan => exact absurd rfl hy
  | inf s => cases s <;> simp [Num.min, Num.ge, Num.lt, Num.lit]
  | fin q =>
    by_cases h : q < 1
    · simp [Num.min, Num.ge, Num.lt, Num.lit, h, h.le, not_lt.mpr h.le]
    · simp [Num.min, Num.ge, Num.lt, Num.lit, h]

theorem div_ne_nan {a : ℚ} {d : Num} (hd : Num.lt (Num.lit 0) d = true) :
    Num.div (Num.fin a) d ≠ Num.nan := by
  cases d with
  | nan => simp [Num.lt, Num.lit] at hd
  | inf s => simp [Num.div]
  | fin q =>
    have hq : 0 < q := by simpa [Num.lt, Num.lit] using hd
    simp only [Num.div, hq.ne', if_false]
    exact round_ne_nan _

theorem sub_finite {x y : Num} (h : (Num.sub x y).isFinite = true) :
    x.isFinite = true ∧ y.isFinite = true := by
  cases x with
  | nan => simp [Num.sub, Num.add, Num.isFinite] at h
  | inf s =>
    cases y with
    | nan => simp [Num.sub, Num.neg, Num.add, Num.isFinite] at h
    | inf t => cases s <;> cases t <;> simp [Num.sub, Num.neg, Num.add, Num.isFinite] at h
    | fin b => simp [Num.sub, Num.neg, Num.add, Num.isFinite] at h
  | fin a =>
    cases y with
    | nan => simp [Num.sub, Num.neg, Num.add, Num.isFinite] at h
    | inf t => simp [Num.sub, Num.neg, Num.add, Num.isFinite] at h
    | fin b => exact ⟨rfl, rfl⟩

theorem round_nonneg_cases {q : ℚ} (hq : 0 ≤ q) :
    Num.round q = Num.inf false ∨ ∃ r, Num.round q = Num.fin r ∧ 0 ≤ r := by
  rw [round_of_nonneg hq]
  split_ifs
  · exact Or.inl rfl
  · exact Or.inr ⟨_, rfl, roundMag_nonneg hq⟩

theorem min_one_inUnit {y : Num}
    (hy : y = Num.inf false ∨ ∃ r, y = Num.fin r ∧ 0 ≤ r) :
    (Num.min (Num.lit 1) y).inUnit = true := by
  rcases hy with rfl | ⟨r, rfl, hr⟩
  · simp [Num.min, Num.inUnit, Num.ge, Num.lt, Num.lit]
  · by_cases h : r < 1
    · simp [Num.min, Num.inUnit, Num.ge, Num.lt, Num.lit, h, h.le, hr, not_lt.mpr hr,
        not_lt.mpr h.le]
    · simp [Num.min, Num.inUnit, Num.ge, Num.lt, Num.lit, h]

/-- C11 as stated fails: the animation read `startTime = 100`, the frame timestamp is
50 and the duration 1000; the step passes `Math.min(1, -50 / 1000) = -0.05` to the
easing function: there is no lower clamp. -/
theorem time_clamp_counterexample :
    lateAnimation.startTime = Num.lit 100 ∧ lateAnimation.duration = Num.lit 1000 ∧
    lateAnimation.time (Num.lit 50) = Num.decimal (-1 / 20) ∧
    Num.lt (lateAnimation.time (Num.lit 50)) (Num.lit 0) = true ∧
    (lateAnimation.time (Num.lit 50)).inUnit = false := by
  decide!

/-- C11, amended: for every tick whose elapsed time `now - startTime` is finite and
every duration above zero, the normalised time the step passes to the easing function
is `Math.min(1, (now - startTime) / duration)`, hence at most 1; for every tick with
`now >= startTime` it is also at least 0, so that it lies in `[0, 1]`. -/
theorem time_upper_clamp (a : Animation) (now : Num)
    (hd : Num.lt (Num.lit 0) a.duration = true)
    (hel : (Num.sub now a.startTime).isFinite = true) :
    a.time now = Num.min (Num.lit 1) (Num.div (Num.sub now a.startTime) a.duration) ∧
    Num.ge (Num.lit 1) (a.time now) = true ∧
    (Num.ge now a.startTime = true → (a.time now).inUnit = true) := by
  refine ⟨rfl, ?_, ?_⟩
  · obtain ⟨e, he⟩ := fin_of_isFinite hel
    unfold Animation.time
    rw [he]
    exact ge_one_min _ (div_ne_nan hd)
  · intro hge
    obtain ⟨hnf, hsf⟩ := sub_finite hel
    obtain ⟨c, hc⟩ := fin_of_isFinite hnf
    obtain ⟨s, hs⟩ := fin_of_isFinite hsf
    unfold Animation.time
    rw [hc, hs] at hge hel ⊢
    have hcs : 0 ≤ c + -s := by have := ge_fin.mp hge; linarith
    have hsub : Num.sub (Num.fin c) (Num.fin s) = Num.round (c + -s) := rfl
    rw [hsub] at hel ⊢
    rcases round_nonneg_cases hcs with h | ⟨r, h, hr⟩
    · rw [h] at hel; simp [Num.isFinite] at hel
    · rw [h]
      apply min_one_inUnit
      cases hdur : a.duration with
      | nan => rw [hdur] at hd; simp [Num.lt, Num.lit] at hd
      | inf b => exact Or.inr ⟨0, by simp [Num.div], le_rfl⟩
      | fin q =>
        rw [hdur] at hd
        have hq : 0 < q := by simpa [Num.lt, Num.lit] using hd
        simp only [Num.div, hq.ne', if_false]
        exact round_nonneg_cases (div_nonneg hr hq.le)

/-- Witness for C11 amended: the first step of the usage example at 500 ms. -/
theorem time_upper_clamp_witness :
    Num.ge (Num.lit 1) (demoMove.time (Num.lit 500)) = true ∧
    (demoMove.time (Num.lit 500)).inUnit = true :=
  have h := time_upper_clamp demoMove (Num.lit 500) (by decide!) (by decide!)
  ⟨h.2.1, h.2.2 (by decide!)⟩

/-! ## After completion -/

theorem set_set {L : Type} (cam : Camera L) (p : Property) (v w : Vec3) :
    (cam.set p v).set p w = cam.set p w := by
  cases p <;> rfl

theorem set_listeners {L : Type} (cam : Camera L) (p : Property) (v : Vec3) :
    (cam.set p v).listeners = cam.listeners := by
  cases p <;> rfl

theorem sample_congr {a : Animation} {s t : Num} (h : a.time s = a.time t) :
    a.sample s = a.sample t := by
  unfold Animation.sample; rw [h]

theorem lt_one_one : Num.lt (Num.lit 1) (Num.lit 1) = false := by decide!

theorem countP_request_writes {L : Type} (a : Animation) (cam : Camera L) (t : Num) :
    (a.writes cam t).countP Effect.isRequest = 0 := by
  unfold Animation.writes
  split_ifs <;> simp [List.countP_cons, Effect.isRequest]

theorem countP_request_of_invokes {L : Type} :
    ∀ (inv : List (Effect L)), (∀ e ∈ inv, Effect.isInvoke e = true) →
      inv.countP Effect.isRequest = 0
  | [], _ => rfl
  | e :: es, h => by
    have he : Effect.isInvoke e = true := h e (List.mem_cons_self _ _)
    have hes := countP_request_of_invokes es (fun x hx => h x (List.mem_cons_of_mem _ hx))
    cases e <;> simp [Effect.isInvoke] at he
    simp [List.countP_cons, Effect.isRequest, hes]

/-- The trace of a completing call of `step`: one trigger of the completion event and
no frame request. -/
theorem step_complete_counts {L : Type} (throws : L → Bool) {a : Animation} (cam : Camera L)
    {t : Num} (h : Num.lt (a.time t) (Num.lit 1) = false) :
    (a.step throws cam t).again = false ∧
    (a.step throws cam t).trace.countP (Effect.isTrigger a.completeEvent) = 1 ∧
    (a.step throws cam t).trace.countP Effect.isRequest = 0 := by
  rw [step_complete throws cam h]
  obtain ⟨inv, hinv, hall⟩ := triggerEvent_shape throws (cam.set a.property (a.sample t))
    a.completeEvent
  refine ⟨rfl, ?_, ?_⟩
  · simp only [hinv]
    rw [List.countP_append, countP_trigger_writes, List.countP_cons,
      countP_trigger_of_invokes _ inv hall]
    simp [Effect.isTrigger]
  · simp only [hinv]
    rw [List.countP_append, countP_request_writes, List.countP_cons,
      countP_request_of_invokes inv hall]
    simp [Effect.isRequest]

/-- The trace of a non-completing call of `step`: one frame request and no trigger. -/
theorem step_running_counts {L : Type} (throws : L → Bool) {a : Animation} (cam : Camera L)
    {t : Num} (h : Num.lt (a.time t) (Num.lit 1) = true) :
    (a.step throws cam t).again = true ∧
    (a.step throws cam t).trace.countP Effect.isRequest = 1 ∧
    ∀ event, (a.step throws cam t).trace.countP (Effect.isTrigger event) = 0 := by
  rw [step_running throws cam h]
  refine ⟨rfl, ?_, fun event => ?_⟩
  · simp only
    rw [List.countP_append, countP_request_writes]
    simp [Effect.isRequest]
  · simp only
    rw [List.countP_append, countP_trigger_writes]
    simp [Effect.isTrigger]

/-- C12 as stated fails: the step of the usage example's first animation, invoked at
1500 ms and then once more at 2000 ms, triggers `positionComplete` both times: the
closure keeps no record of having completed. -/
theorem step_refires_counterexample :
    demoMove.time (Num.lit 1500) = Num.lit 1 ∧
    (demoMove.step (quiet String) demoCamera (Num.lit 1500)).trace.countP
      (Effect.isTrigger "positionComplete") = 1 ∧
    (demoMove.step (quiet String) (demoMove.step (quiet String) demoCamera
      (Num.lit 1500)).cam (Num.lit 2000)).trace.countP
      (Effect.isTrigger "positionComplete") = 1 := by
  decide!

/-- C12, amended: once the step has processed a tick with `elapsed >= duration` (so
`t = 1`) it has requested no further tick, and a frame source that delivers frames only
on request never invokes it again; if it is nevertheless invoked again with a timestamp
that also has `elapsed >= duration`, it writes the same values, so that the camera is
left as it was, and it triggers the completion event once more. -/
theorem step_after_completion {L : Type} (throws : L → Bool) (a : Animation) (cam : Camera L)
    (first again : Num) (more : List Num)
    (hd : Num.lt (Num.lit 0) a.duration = true) (hfin : a.duration.isFinite = true)
    (h1 : Num.ge (Num.sub first a.startTime) a.duration = true)
    (h2 : Num.ge (Num.sub again a.startTime) a.duration = true) :
    (a.step throws cam first).again = false ∧
    a.run throws cam (first :: more) = a.step throws cam first ∧
    (a.step throws (a.step throws cam first).cam again).cam = (a.step throws cam first).cam ∧
    (a.step throws (a.step throws cam first).cam again).trace.countP
      (Effect.isTrigger a.completeEvent) = 1 := by
  have ht1 : a.time first = Num.lit 1 := time_eq_one hd hfin h1
  have ht2 : a.time again = Num.lit 1 := time_eq_one hd hfin h2
  have hn1 : Num.lt (a.time first) (Num.lit 1) = false := by rw [ht1]; exact lt_one_one
  have hn2 : Num.lt (a.time again) (Num.lit 1) = false := by rw [ht2]; exact lt_one_one
  have hc := step_complete_counts throws cam hn1
  refine ⟨hc.1, ?_, ?_, (step_complete_counts throws _ hn2).2.1⟩
  · unfold Animation.run; rw [if_neg (by rw [hc.1]; simp)]
  · rw [step_cam, step_cam, set_set, sample_congr (ht2.trans ht1.symm)]

/-- Witness for C12 amended: the first animation of the usage example, invoked at 1500
and again at 2000 ms. -/
theorem step_after_completion_witness :
    (demoMove.step (quiet String) demoCamera (Num.lit 1500)).again = false ∧
    (demoMove.step (quiet String) (demoMove.step (quiet String) demoCamera
      (Num.lit 1500)).cam (Num.lit 2000)).cam
      = (demoMove.step (quiet String) demoCamera (Num.lit 1500)).cam :=
  have h := step_after_completion (quiet String) demoMove demoCamera (Num.lit 1500)
    (Num.lit 2000) [] (by decide!) (by decide!) (by decide!) (by decide!)
  ⟨h.1, h.2.2.1⟩

/-! ## A listener that throws -/

theorem invokeEach_throw {L : Type} (throws : L → Bool) (cam : Camera L) (l : L)
    (post : List L) (hl : throws l = true) :
    ∀ (pre : List L), (∀ p ∈ pre, throws p = false) →
      invokeEach throws cam (pre ++ l :: post)
        = ((pre ++ [l]).map (fun x => Effect.invoke x cam), Outcome.thrown)
  | [], _ => by simp [invokeEach, hl]
  | p :: pre, h => by
    have hp : throws p = false := h p (List.mem_cons_self _ _)
    have ih := invokeEach_throw throws cam l post hl pre
      (fun x hx => h x (List.mem_cons_of_mem _ hx))
    rw [List.cons_append]
    unfold invokeEach
    rw [hp, ih]
    simp

/-- C14 as stated fails: on the camera of the usage example, if the first listener of
`positionComplete` throws, `triggerEvent` ends with that error after one invocation,
the listener registered after it is not invoked, and the animation step that fired the
event ends with the error as well. -/
theorem listener_fault_counterexample :
    listeningCamera.listeners "positionComplete" = some ["log position", "onComplete 1"] ∧
    (listeningCamera.triggerEvent (throwsOn "log position") "positionComplete").2
      = Outcome.thrown ∧
    (listeningCamera.triggerEvent (throwsOn "log position") "positionComplete").1.countP
      Effect.isInvoke = 1 ∧
    (demoMove.step (throwsOn "log position") listeningCamera (Num.lit 1500)).outcome
      = Outcome.thrown := by
  decide!

/-- C14, amended: if a listener registered for an event throws during `triggerEvent`,
the listeners registered before it have been invoked in order, it is the last one
invoked, the listeners registered after it are not invoked, and the error propagates out
of `triggerEvent` and out of the animation step that fired the event, after that step's
writes and without a further frame request. -/
theorem listener_fault_propagates {L : Type} (throws : L → Bool) (cam : Camera L)
    (event : String) (pre : List L) (l : L) (post : List L)
    (hreg : cam.listeners event = some (pre ++ l :: post))
    (hpre : ∀ p ∈ pre, throws p = false) (hl : throws l = true) :
    cam.triggerEvent throws event
      = (Effect.trigger event :: (pre ++ [l]).map (fun x => Effect.invoke x cam),
          Outcome.thrown) ∧
    ∀ (a : Animation) (now : Num), a.completeEvent = event →
      Num.lt (a.time now) (Num.lit 1) = false →
      (a.step throws cam now).outcome = Outcome.thrown ∧
      (a.step throws cam now).again = false ∧
      (a.step throws cam now).trace
        = a.writes cam now ++ Effect.trigger event ::
            (pre ++ [l]).map (fun x => Effect.invoke x (cam.set a.property (a.sample now))) := by
  have key : ∀ c : Camera L, c.listeners event = some (pre ++ l :: post) →
      c.triggerEvent throws event
        = (Effect.trigger event :: (pre ++ [l]).map (fun x => Effect.invoke x c),
            Outcome.thrown) := by
    intro c hc
    unfold Camera.triggerEvent Camera.slot
    rw [hc]
    simp only [invokeEach_throw throws c l post hl pre hpre]
  refine ⟨key cam hreg, ?_⟩
  intro a now he hlt
  have hk := key (cam.set a.property (a.sample now)) (by rw [set_listeners]; exact hreg)
  rw [step_complete throws cam hlt, he, hk]
  exact ⟨rfl, rfl, rfl⟩

/-- Witness for C14 amended: the camera of the usage example with a first listener that
throws. -/
theorem listener_fault_propagates_witness :
    (listeningCamera.triggerEvent (throwsOn "log position") "positionComplete").2
      = Outcome.thrown :=
  have h := (listener_fault_propagates (throwsOn "log position") listeningCamera
    "positionComplete" [] "log position" ["onComplete 1"] (by decide!) (by decide!)
    (by decide!)).1
  by rw [h]

/-! ## Range, monotonicity and the reference definition -/

theorem exactOutQuad_mono {s t : ℚ} (hst : s ≤ t) (h1 : t ≤ 1) :
    exactOutQuad s ≤ exactOutQuad t := by
  unfold exactOutQuad; nlinarith [mul_nonneg (sub_nonneg.mpr hst) (by linarith : (0 : ℚ) ≤ 2 - s - t)]

theorem exactInOutQuad_mono {s t : ℚ} (h0 : 0 ≤ s) (hst : s ≤ t) (h1 : t ≤ 1) :
    exactInOutQuad s ≤ exactInOutQuad t := by
  unfold exactInOutQuad
  split_ifs with hs ht ht
  · nlinarith [mul_nonneg (sub_nonneg.mpr hst) (by linarith : (0 : ℚ) ≤ s + t)]
  · nlinarith [mul_nonneg (by linarith : (0 : ℚ) ≤ t - 1 / 2) (by linarith : (0 : ℚ) ≤ 3 / 2 - t),
      mul_nonneg h0 (by linarith : (0 : ℚ) ≤ 1 / 2 - s)]
  · linarith
  · nlinarith [mul_nonneg (sub_nonneg.mpr hst) (by linarith : (0 : ℚ) ≤ 2 - s - t)]

/-- `easeInOutQuad` on the unit interval: a finite value within `2^(-50)` of the
piecewise polynomial. -/
theorem easeInOutQuad_near {t : ℚ} (h0 : 0 ≤ t) (h1 : t ≤ 1) :
    ∃ a, easeInOutQuad (Num.fin t) = Num.fin a ∧ |a - exactInOutQuad t| ≤ 1 / 2 ^ (50 : ℕ) := by
  unfold exactInOutQuad
  by_cases h : t < 1 / 2
  · obtain ⟨e, _, _, herr⟩ := easeInOutQuad_lower h0 h
    rw [if_pos h]
    exact ⟨_, e, herr.trans (by norm_num)⟩
  · obtain ⟨e, herr, _⟩ := easeInOutQuad_upper (not_lt.mp h) h1
    rw [if_neg h]
    exact ⟨_, e, herr⟩

/-- The reference definition on the unit interval: a finite value within `2^(-50)` of
the same piecewise polynomial. -/
theorem easeInOutQuadSpec_near {t : ℚ} (h0 : 0 ≤ t) (h1 : t ≤ 1) :
    ∃ b, easeInOutQuadSpec (Num.fin t) = Num.fin b ∧
      |b - exactInOutQuad t| ≤ 1 / 2 ^ (50 : ℕ) := by
  unfold exactInOutQuad
  by_cases h : t < 1 / 2
  · obtain ⟨e, herr⟩ := easeInOutQuadSpec_lower h0 h
    rw [if_pos h]
    exact ⟨_, e, herr⟩
  · obtain ⟨r, e, herr⟩ := easeInOutQuadSpec_upper (not_lt.mp h) h1
    rw [if_neg h]
    exact ⟨r, e, herr⟩

/-- C13 as stated fails: at `t = 0.7` the source's `easeInOutQuad` returns
`0.8199999999999998…` and the reference definition `0.82`, one unit in the last place
apart. -/
theorem easeInOutQuad_reference_counterexample :
    easeInOutQuad (Num.decimal (7 / 10)) = Num.fin (7385903388887612 / 2 ^ (53 : ℕ)) ∧
    easeInOutQuadSpec (Num.decimal (7 / 10)) = Num.fin (7385903388887613 / 2 ^ (53 : ℕ)) ∧
    easeInOutQuad (Num.decimal (7 / 10)) ≠ easeInOutQuadSpec (Num.decimal (7 / 10)) := by
  decide!

/-- C13, amended: for every `t` in `[0, 1]` the source's `easeInOutQuad` and the
reference definition `t < 0.5 ? 2*t^2 : 1 - (-2*t + 2)^2 / 2` both return a finite value
within `2^(-50)` of the piecewise polynomial they round, hence within `2^(-49)` of each
other; they return the same value at `t = 0`, `t = 0.5` and `t = 1`. -/
theorem easeInOutQuad_reference_close (x : Num) (hx : x.inUnit = true) :
    (∃ t a b, x = Num.fin t ∧ easeInOutQuad x = Num.fin a ∧ easeInOutQuadSpec x = Num.fin b ∧
      |a - exactInOutQuad t| ≤ 1 / 2 ^ (50 : ℕ) ∧ |b - exactInOutQuad t| ≤ 1 / 2 ^ (50 : ℕ) ∧
      |a - b| ≤ 1 / 2 ^ (49 : ℕ)) ∧
    easeInOutQuad (Num.lit 0) = easeInOutQuadSpec (Num.lit 0) ∧
    easeInOutQuad Num.half = easeInOutQuadSpec Num.half ∧
    easeInOutQuad (Num.lit 1) = easeInOutQuadSpec (Num.lit 1) := by
  obtain ⟨t, rfl, h0, h1⟩ := inUnit_iff.mp hx
  obtain ⟨a, ha, hae⟩ := easeInOutQuad_near h0 h1
  obtain ⟨b, hb, hbe⟩ := easeInOutQuadSpec_near h0 h1
  refine ⟨⟨t, a, b, rfl, ha, hb, hae, hbe, ?_⟩, by decide!, by decide!, by decide!⟩
  have h1 := abs_le.mp hae
  have h2 := abs_le.mp hbe
  rw [abs_le]
  constructor <;> linarith [h1.1, h1.2, h2.1, h2.2]

/-- Witness for C13 amended: at `t = 0.7` both definitions return a finite value. -/
theorem easeInOutQuad_reference_close_witness :
    ∃ t a b, Num.decimal (7 / 10) = Num.fin t ∧ easeInOutQuad (Num.decimal (7 / 10)) = Num.fin a ∧
      easeInOutQuadSpec (Num.decimal (7 / 10)) = Num.fin b ∧
      |a - exactInOutQuad t| ≤ 1 / 2 ^ (50 : ℕ) ∧ |b - exactInOutQuad t| ≤ 1 / 2 ^ (50 : ℕ) ∧
      |a - b| ≤ 1 / 2 ^ (49 : ℕ) :=
  (easeInOutQuad_reference_close (Num.decimal (7 / 10)) (by decide!)).1

/-- C15: for every binary64 `t` with `0 <= t <= 1`, each of the four library easing
functions returns a value in `[0, 1]`. -/
theorem easings_stay_in_unit (x : Num) (hx : x.WF) (hu : x.inUnit = true) :
    (linear x).inUnit = true ∧ (easeInQuad x).inUnit = true ∧
    (easeOutQuad x).inUnit = true ∧ (easeInOutQuad x).inUnit = true := by
  obtain ⟨t, rfl, h0, h1⟩ := inUnit_iff.mp hu
  have ht : IsDouble t := hx
  refine ⟨hu, ?_, ?_, ?_⟩
  · obtain ⟨e, l, u⟩ := easeInQuad_fin h0 h1
    rw [e]; exact inUnit_fin l u
  · obtain ⟨e, l, u, _⟩ := easeOutQuad_fin h0 h1
    rw [e]; exact inUnit_fin l u
  · by_cases h : t < 1 / 2
    · obtain ⟨e, l, u, _⟩ := easeInOutQuad_lower h0 h
      rw [e]; exact inUnit_fin l (by linarith)
    · obtain ⟨e, _⟩ := easeInOutQuad_upper (not_lt.mp h) h1
      obtain ⟨l, u⟩ := easeInOutQuad_upper_range ht (not_lt.mp h) h1
      rw [e]; exact inUnit_fin l u

/-- Witness for C15: the four functions at `t = 0.7`. -/
theorem easings_stay_in_unit_witness :
    (linear (Num.decimal (7 / 10))).inUnit = true ∧
    (easeInQuad (Num.decimal (7 / 10))).inUnit = true ∧
    (easeOutQuad (Num.decimal (7 / 10))).inUnit = true ∧
    (easeInOutQuad (Num.decimal (7 / 10))).inUnit = true :=
  easings_stay_in_unit (Num.decimal (7 / 10)) (by decide!) (by decide!)

/-- C19 as stated fails: `1 - 2^(-52) < 1 - 2^(-53)`, both in `[0, 1]`, yet `easeOutQuad`
returns 1 at the first and `1 - 2^(-53)` at the second: the product `t * (2 - t)` is
rounded twice.  `easeInOutQuad` likewise returns 1 and then `1 - 2^(-52)`. -/
theorem easing_monotone_counterexample :
    twoBelowOne.WF ∧ belowOne.WF ∧ twoBelowOne.inUnit = true ∧ belowOne.inUnit = true ∧
    Num.lt twoBelowOne belowOne = true ∧
    easeOutQuad twoBelowOne = Num.lit 1 ∧ easeOutQuad belowOne = belowOne ∧
    Num.lt (easeOutQuad belowOne) (easeOutQuad twoBelowOne) = true ∧
    Num.lt (easeInOutQuad belowOne) (easeInOutQuad twoBelowOne) = true := by
  decide!

/-- C19, amended: for all `0 <= s <= t <= 1`, `linear` and `easeInQuad` satisfy
`f(s) <= f(t)`, and so does `easeInOutQuad` when `t < 0.5`; `easeOutQuad` and
`easeInOutQuad` on the whole interval are non-decreasing up to rounding:
`f(s) <= f(t) + 2^(-50)` and `f(s) <= f(t) + 2^(-49)`. -/
theorem easings_monotone_up_to_rounding (x y : Num) (hx : x.inUnit = true)
    (hy : y.inUnit = true) (hxy : Num.ge y x = true) :
    Num.ge (linear y) (linear x) = true ∧
    Num.ge (easeInQuad y) (easeInQuad x) = true ∧
    (Num.lt y Num.half = true → Num.ge (easeInOutQuad y) (easeInOutQuad x) = true) ∧
    (∃ a b, easeOutQuad x = Num.fin a ∧ easeOutQuad y = Num.fin b ∧
      a ≤ b + 1 / 2 ^ (50 : ℕ)) ∧
    (∃ a b, easeInOutQuad x = Num.fin a ∧ easeInOutQuad y = Num.fin b ∧
      a ≤ b + 1 / 2 ^ (49 : ℕ)) := by
  obtain ⟨s, rfl, hs0, hs1⟩ := inUnit_iff.mp hx
  obtain ⟨t, rfl, ht0, ht1⟩ := inUnit_iff.mp hy
  have hst : s ≤ t := ge_fin.mp hxy
  refine ⟨hxy, ?_, ?_, ?_, ?_⟩
  · rw [(easeInQuad_fin hs0 hs1).1, (easeInQuad_fin ht0 ht1).1, ge_fin]
    exact rnd_mono (by nlinarith)
  · intro hlt
    have ht2 : t < 1 / 2 := by simpa [Num.lt, Num.half] using hlt
    rw [(easeInOutQuad_lower hs0 (lt_of_le_of_lt hst ht2)).1, (easeInOutQuad_lower ht0 ht2).1,
      ge_fin]
    have hm : rnd (2 * s) ≤ rnd (2 * t) := rnd_mono (by linarith)
    have hm0 : 0 ≤ rnd (2 * s) := by rw [← rnd_zero]; exact rnd_mono (by linarith)
    exact rnd_mono (mul_le_mul hm hst hs0 (hm0.trans hm))
  · obtain ⟨ea, _, _, erra⟩ := easeOutQuad_fin hs0 hs1
    obtain ⟨eb, _, _, errb⟩ := easeOutQuad_fin ht0 ht1
    refine ⟨_, _, ea, eb, ?_⟩
    have h1 := abs_le.mp erra
    have h2 := abs_le.mp errb
    have hm := exactOutQuad_mono hst ht1
    linarith [h1.2, h2.1]
  · obtain ⟨a, ea, erra⟩ := easeInOutQuad_near hs0 hs1
    obtain ⟨b, eb, errb⟩ := easeInOutQuad_near ht0 ht1
    refine ⟨a, b, ea, eb, ?_⟩
    have h1 := abs_le.mp erra
    have h2 := abs_le.mp errb
    have hm := exactInOutQuad_mono hs0 hst ht1
    linarith [h1.2, h2.1]

/-- Witness for C19 amended: `s = 0.25`, `t = 0.7`. -/
theorem easings_monotone_up_to_rounding_witness :
    Num.ge (easeInQuad (Num.decimal (7 / 10))) (easeInQuad (Num.fin (1 / 4))) = true ∧
    ∃ a b, easeOutQuad (Num.fin (1 / 4)) = Num.fin a ∧
      easeOutQuad (Num.decimal (7 / 10)) = Num.fin b ∧ a ≤ b + 1 / 2 ^ (50 : ℕ) :=
  have h := easings_monotone_up_to_rounding (Num.fin (1 / 4)) (Num.decimal (7 / 10))
    (by decide!) (by decide!) (by decide!)
  ⟨h.2.1, h.2.2.2.1⟩

/-! ## One tick, and the frames before it -/

theorem ge_eq_not_lt {el d : Num} (hel : el.isFinite = true)
    (hd : Num.lt (Num.lit 0) d = true) : Num.ge el d = !(Num.lt el d) := by
  obtain ⟨a, rfl⟩ := fin_of_isFinite hel
  cases d with
  | nan => simp [Num.lt, Num.lit] at hd
  | inf s => rfl
  | fin q => rfl

/-- C16: for an animation with a duration above zero and a tick with a finite elapsed
time, the tick triggers the completion event (once) and requests no further tick if
`now - startTime >= duration`; if `now - startTime < duration` it requests exactly one
further tick and triggers no event.  The two cases exclude each other and cover every
such tick. -/
theorem tick_completes_iff {L : Type} (throws : L → Bool) (a : Animation) (cam : Camera L)
    (now : Num) (hd : Num.lt (Num.lit 0) a.duration = true) (hwf : a.duration.WF)
    (hel : (Num.sub now a.startTime).isFinite = true) :
    (Num.ge (Num.sub now a.startTime) a.duration = true →
      (a.step throws cam now).again = false ∧
      (a.step throws cam now).trace.countP (Effect.isTrigger a.completeEvent) = 1 ∧
      (a.step throws cam now).trace.countP Effect.isRequest = 0) ∧
    (Num.lt (Num.sub now a.startTime) a.duration = true →
      (a.step throws cam now).again = true ∧
      (a.step throws cam now).trace.countP Effect.isRequest = 1 ∧
      ∀ event, (a.step throws cam now).trace.countP (Effect.isTrigger event) = 0) ∧
    Num.ge (Num.sub now a.startTime) a.duration
      = !(Num.lt (Num.sub now a.startTime) a.duration) := by
  have htest := step_test hd hwf hel
  refine ⟨fun hge => ?_, fun hlt => ?_, ge_eq_not_lt hel hd⟩
  · exact step_complete_counts throws cam (by rw [htest, hge]; rfl)
  · have hge : Num.ge (Num.sub now a.startTime) a.duration = false := by
      rw [ge_eq_not_lt hel hd, hlt]; rfl
    exact step_running_counts throws cam (by rw [htest, hge]; rfl)

/-- Witness for C16: the 1500 ms `moveTo` of the usage example does not fire
`positionComplete` at 1000 ms and fires it at 1500 ms. -/
theorem tick_completes_iff_witness :
    (demoMove.step (quiet String) demoCamera (Num.lit 1000)).trace.countP
      (Effect.isTrigger "positionComplete") = 0 ∧
    (demoMove.step (quiet String) demoCamera (Num.lit 1500)).trace.countP
      (Effect.isTrigger demoMove.completeEvent) = 1 :=
  ⟨((tick_completes_iff (quiet String) demoMove demoCamera (Num.lit 1000) (by decide!)
      (by decide!) (by decide!)).2.1 (by decide!)).2.2 "positionComplete",
   ((tick_completes_iff (quiet String) demoMove demoCamera (Num.lit 1500) (by decide!)
      (by decide!) (by decide!)).1 (by decide!)).2.1⟩

/-- After frames none of which completes the animation, the camera after one more frame
is the camera at the start with the property set to the sample of that frame. -/
theorem run_last_sample {L : Type} (throws : L → Bool) (a : Animation) (now : Num) :
    ∀ (before : List Num) (cam : Camera L),
      (∀ s ∈ before, Num.lt (a.time s) (Num.lit 1) = true) →
      (a.run throws cam (before ++ [now])).cam = cam.set a.property (a.sample now)
  | [], cam, _ => by
    simp only [List.nil_append, Animation.run]
    split_ifs <;> exact step_cam throws a cam now
  | s :: before, cam, h => by
    have hs := step_running throws cam (h s (List.mem_cons_self _ _))
    have ih := run_last_sample throws a now before (cam.set a.property (a.sample s))
      (fun x hx => h x (List.mem_cons_of_mem _ hx))
    rw [List.cons_append]
    unfold Animation.run
    rw [hs]
    simp only [if_true]
    rw [ih, set_set]

/-- C17: for one animation and any two tick sequences that end with the same timestamp
`now` and contain no earlier tick that completed the animation, the camera after the
last tick is the same in both runs, and the property is
`start + delta * easing(Math.min(1, (now - startTime) / duration))` in each component,
whatever the number and spacing of the earlier ticks. -/
theorem frame_rate_independent {L : Type} (throws : L → Bool) (a : Animation) (cam : Camera L)
    (before₁ before₂ : List Num) (now : Num)
    (h₁ : ∀ s ∈ before₁, Num.lt (a.time s) (Num.lit 1) = true)
    (h₂ : ∀ s ∈ before₂, Num.lt (a.time s) (Num.lit 1) = true) :
    (a.run throws cam (before₁ ++ [now])).cam = (a.run throws cam (before₂ ++ [now])).cam ∧
    (a.run throws cam (before₁ ++ [now])).cam.get a.property
      = ⟨Num.add a.start.x (Num.mul a.change.x (a.easing
           (Num.min (Num.lit 1) (Num.div (Num.sub now a.startTime) a.duration)))),
         Num.add a.start.y (Num.mul a.change.y (a.easing
           (Num.min (Num.lit 1) (Num.div (Num.sub now a.startTime) a.duration)))),
         Num.add a.start.z (Num.mul a.change.z (a.easing
           (Num.min (Num.lit 1) (Num.div (Num.sub now a.startTime) a.duration))))⟩ := by
  rw [run_last_sample throws a now before₁ cam h₁, run_last_sample throws a now before₂ cam h₂]
  exact ⟨rfl, get_set cam a.property _⟩

/-- Witness for C17: the first animation of the usage example sampled at 1200 ms after
frames at 0 and 500 ms, or after frames at 100, 200, 300 and 1000 ms. -/
theorem frame_rate_independent_witness :
    (demoMove.run (quiet String) demoCamera (coarseTicks ++ [Num.lit 1200])).cam
      = (demoMove.run (quiet String) demoCamera (fineTicks ++ [Num.lit 1200])).cam :=
  (frame_rate_independent (quiet String) demoMove demoCamera coarseTicks fineTicks
    (Num.lit 1200) (by decide!) (by decide!)).1

/-- C18: in every state of an AnimationManager reached from construction by
`addAnimation` calls, `resetQueue` calls and invocations of handed-out continuations,
`isAnimating = false` implies that the queue is empty. -/
theorem idle_manager_has_empty_queue {C A : Type} (camera : C) (calls : List (Call A))
    (hidle : ((Session.create camera).run calls).manager.isAnimating = false) :
    ((Session.create camera).run calls).manager.queue = [] :=
  idle_run calls (Session.create camera : Session C A) (fun _ => rfl) hidle

/-- Witness for C18: after `A`, `B` and `C` have run and the last continuation has been
invoked, the manager is idle and its queue is empty. -/
theorem idle_manager_has_empty_queue_witness :
    ((Session.create ()).run demoCalls).manager.isAnimating = false ∧
    ((Session.create ()).run demoCalls).manager.queue = [] :=
  ⟨by decide!, idle_manager_has_empty_queue () demoCalls (by decide!)⟩

/-! ## What a tick and a registration leave unchanged -/

/-- A tick of an animation leaves the other vector, the debug flag and the listeners
as they were, on a camera whose `position` and `target` are two objects. -/
theorem step_frame {L : Type} (throws : L → Bool) (a : Animation) (cam : Camera L)
    (now : Num) :
    (a.step throws cam now).cam.debug = cam.debug ∧
    (a.step throws cam now).cam.listeners = cam.listeners ∧
    (a.property = Property.position → (a.step throws cam now).cam.target = cam.target) ∧
    (a.property = Property.target → (a.step throws cam now).cam.position = cam.position) := by
  rw [step_cam]
  refine ⟨set_debug _ _ _, set_listeners _ _ _, fun h => ?_, fun h => ?_⟩ <;> rw [h] <;> rfl

/-- Under a name that is not inherited from `Object.prototype`, `on` appends exactly
one entry to the list of that name and changes nothing else. -/
theorem on_frame {L : Type} (cam : Camera L) (event : String) (callback : L)
    (he : event ∉ protoKeys) :
    (cam.on event callback).1 = Outcome.normal ∧
    (cam.on event callback).2.listeners event
      = some ((cam.listeners event).getD [] ++ [callback]) ∧
    (∀ other, other ≠ event →
      (cam.on event callback).2.listeners other = cam.listeners other) ∧
    (cam.on event callback).2.position = cam.position ∧
    (cam.on event callback).2.target = cam.target ∧
    (cam.on event callback).2.debug = cam.debug := by
  unfold Camera.on
  rw [slot_of_not_proto cam he]
  cases h : cam.listeners event with
  | none =>
    refine ⟨rfl, by simp, fun other ho => ?_, rfl, rfl, rfl⟩
    simp [ho]
  | some ls =>
    refine ⟨rfl, by simp, fun other ho => ?_, rfl, rfl, rfl⟩
    simp [ho]

/-- C20: the claim fails on the code at `on('toString', listener)`: the call raises a
`TypeError` and appends no entry, because `this.listeners['toString']` is the function
inherited from `Object.prototype`; under `positionComplete` the same call appends the
listener. -/
theorem on_inherited_name_appends_nothing :
    (demoCamera.on "toString" "listener").1 = Outcome.typeError ∧
    (demoCamera.on "toString" "listener").2.listeners "toString" = none ∧
    (demoCamera.on "positionComplete" "listener").1 = Outcome.normal ∧
    (demoCamera.on "positionComplete" "listener").2.listeners "positionComplete"
      = some ["listener"] := by
  decide!

end CameraAnim
